import Mathlib

/-!
# sb-compiler: a shallow embedding of the assembler pipeline

The C++ sources under `src/` (preprocessor, lexer, symbol table, parser, code
generator) are embedded as pure Lean functions.

Conventions of the embedding:

* `std::string` is `Str = List Char`; the character classes of `<cctype>` are the
  ones of the "C" locale on ASCII.
* `int` is `Int` with the 32-bit width made explicit where it decides what the code
  does: the range check of `std::stoi` (`INT_MIN`, `INT_MAX`) and the addition
  `current_address += inst.size`, whose result is stored modulo `2^32` (`wrapInt`:
  two's complement wrap-around, which is what the compiled program does on overflow).
* `std::map<std::string, T>` is an association list kept sorted by key, so that
  iteration order is key order as in the source.
* Loops that the source does not obviously bound (`Lexer::readNextToken`,
  the scan of `Preprocessor::replaceParameters`, `Parser::parse`) take a fuel
  argument; running out of fuel is the fault `Fault.fuel`.
* A C++ exception that escapes a function is a `Fault` in `Except`.
* Definitions that state what the specification says (`numeralValue`, `wholeWordAt`,
  `WholeWordScan`, `WholeWordSubst`, `isDecimalLiteral`, ...) stand after the embedding
  and are written independently of it.
-/

namespace SbCompiler

/-! ## Strings and characters -/

/-- A `std::string`. -/
abbrev Str := List Char

/-- Faults: C++ exceptions that escape, and fuel exhaustion of the embedding. -/
inductive Fault where
  | fuel
  | invalid_argument
  | out_of_range
deriving DecidableEq, Repr

deriving instance DecidableEq for Except

/-- `std::isdigit`. -/
def isDigit (c : Char) : Bool := 48 ≤ c.toNat && c.toNat ≤ 57

/-- `std::isalpha`. -/
def isAlpha (c : Char) : Bool :=
  (65 ≤ c.toNat && c.toNat ≤ 90) || (97 ≤ c.toNat && c.toNat ≤ 122)

/-- `std::isalnum`. -/
def isAlnum (c : Char) : Bool := isAlpha c || isDigit c

/-- `std::isxdigit`. -/
def isXDigit (c : Char) : Bool :=
  isDigit c || (65 ≤ c.toNat && c.toNat ≤ 70) || (97 ≤ c.toNat && c.toNat ≤ 102)

/-- `std::isspace`: space, `\t`, `\n`, `\v`, `\f`, `\r`. -/
def isSpace (c : Char) : Bool := c.toNat = 32 || (9 ≤ c.toNat && c.toNat ≤ 13)

/-- `::toupper` on one character. -/
def toUpperChar (c : Char) : Char :=
  if 97 ≤ c.toNat && c.toNat ≤ 122 then Char.ofNat (c.toNat - 32) else c

/-- `toUpper` of the lexer, the parser and the preprocessor: `std::transform` with `::toupper`. -/
def toUpper (s : Str) : Str := s.map toUpperChar

/-- Value of a digit character in a base up to 16. -/
def digitVal (c : Char) : Nat :=
  if isDigit c then c.toNat - 48
  else if 65 ≤ c.toNat && c.toNat ≤ 70 then c.toNat - 55
  else c.toNat - 87

/-- Whether `c` is a digit of `base` (10 or 16). -/
def isDigitOf (base : Nat) (c : Char) : Bool :=
  if base = 16 then isXDigit c else isDigit c

/-- Whether `p` is a prefix of `s` (`s.compare(0, p.size(), p) == 0`). -/
def startsWith : Str → Str → Bool
  | _, [] => true
  | [], _ :: _ => false
  | c :: s, d :: p => c == d && startsWith s p

/-- `s.find(p, 0)` on the suffix `s`: offset of the first occurrence of `p` in `s`. -/
def findFrom0 (p : Str) : Str → Option Nat
  | [] => if p.isEmpty then some 0 else none
  | c :: s =>
    if startsWith (c :: s) p then some 0
    else (findFrom0 p s).map (· + 1)

/-- `s.find(p, pos)`: index of the first occurrence of `p` in `s` at or after `pos`;
`none` is `std::string::npos`. -/
def find (s p : Str) (pos : Nat) : Option Nat :=
  if pos ≤ s.length then (findFrom0 p (s.drop pos)).map (· + pos) else none

/-- `s.substr(pos, n)` for `pos ≤ s.size()`. -/
def substr (s : Str) (pos n : Nat) : Str := (s.drop pos).take n

/-- `INT_MIN` and `INT_MAX` of a 32-bit `int`. -/
def INT_MIN : Int := -2147483648

/-- Largest `int`. -/
def INT_MAX : Int := 2147483647

/-- The value that a 32-bit `int` holds after the arithmetic result `x` is stored in it:
`x` modulo `2^32`, taken in `INT_MIN .. INT_MAX` (two's complement). -/
def wrapInt (x : Int) : Int := (x + 2147483648) % 2 ^ 32 - 2147483648

/-- The sign that `strtol` reads, and the rest of the text. -/
def stoiSign : Str → Bool × Str
  | '-' :: r => (true, r)
  | '+' :: r => (false, r)
  | s => (false, s)

/-- The optional `0x`/`0X` that `strtol` skips in base 16: it is skipped only when a
hexadecimal digit follows. -/
def stoiPrefix (base : Nat) (s : Str) : Str :=
  if base = 16 then
    match s with
    | '0' :: x :: h :: r =>
      if (x == 'x' || x == 'X') && isXDigit h then h :: r else s
    | _ => s
  else s

/-- Magnitude of a run of digits, most significant first. -/
def digitsValue (base : Nat) (ds : Str) : Nat :=
  ds.foldl (fun acc c => acc * base + digitVal c) 0

/-- `std::stoi(str, nullptr, base)`: skip white space, read an optional sign, (base 16)
an optional `0x`, then the longest run of digits. No digit: `std::invalid_argument`;
value outside `int`: `std::out_of_range`. Text after the digits is ignored. -/
def stoi (str : Str) (base : Nat) : Except Fault Int :=
  let s1 := str.dropWhile isSpace
  let sg := stoiSign s1
  let s3 := stoiPrefix base sg.2
  let ds := s3.takeWhile (isDigitOf base)
  if ds.isEmpty then Except.error Fault.invalid_argument
  else
    let m : Int := (digitsValue base ds : Nat)
    let v : Int := if sg.1 then -m else m
    if v < INT_MIN ∨ INT_MAX < v then Except.error Fault.out_of_range
    else Except.ok v

/-! ## symbol_table.h / symbol_table.cpp -/

/-- Lexicographic `operator<` of `std::string`. -/
def strLt : Str → Str → Bool
  | [], [] => false
  | [], _ :: _ => true
  | _ :: _, [] => false
  | c :: s, d :: t => if c.toNat < d.toNat then true else if d.toNat < c.toNat then false else strLt s t

/-- `std::map::find`. -/
def mapFind {V : Type} (k : Str) : List (Str × V) → Option V
  | [] => none
  | (k1, v) :: rest => if k1 = k then some v else mapFind k rest

/-- `m[k] = v` on a `std::map` (kept in key order). -/
def mapInsert {V : Type} (k : Str) (v : V) : List (Str × V) → List (Str × V)
  | [] => [(k, v)]
  | (k1, v1) :: rest =>
    if k1 = k then (k, v) :: rest
    else if strLt k k1 then (k, v) :: (k1, v1) :: rest
    else (k1, v1) :: mapInsert k v rest

/-- `struct Symbol`. -/
structure Symbol where
  name : Str
  address : Int
  defined : Bool
deriving DecidableEq, Repr

/-- `struct PendingReference`. -/
structure PendingReference where
  instruction_address : Int
  symbol_name : Str
  line_number : Int
deriving DecidableEq, Repr

/-- `class SymbolTable`. -/
structure SymbolTable where
  symbols : List (Str × Symbol)
  pending_references : List PendingReference
deriving DecidableEq, Repr

/-- `SymbolTable::SymbolTable()`. -/
def SymbolTable.empty : SymbolTable := { symbols := [], pending_references := [] }

/-- `SymbolTable::addSymbol`. -/
def SymbolTable.addSymbol (st : SymbolTable) (name : Str) (address : Int) : Bool × SymbolTable :=
  match mapFind name st.symbols with
  | some s =>
    if s.defined then (false, st)
    else (true, { st with symbols := mapInsert name ⟨name, address, true⟩ st.symbols })
  | none => (true, { st with symbols := mapInsert name ⟨name, address, true⟩ st.symbols })

/-- `SymbolTable::symbolExists`. -/
def SymbolTable.symbolExists (st : SymbolTable) (name : Str) : Bool :=
  (mapFind name st.symbols).isSome

/-- `SymbolTable::isSymbolDefined`. -/
def SymbolTable.isSymbolDefined (st : SymbolTable) (name : Str) : Bool :=
  match mapFind name st.symbols with
  | some s => s.defined
  | none => false

/-- `SymbolTable::getSymbolAddress`. -/
def SymbolTable.getSymbolAddress (st : SymbolTable) (name : Str) : Int :=
  match mapFind name st.symbols with
  | some s => s.address
  | none => -1

/-- `SymbolTable::defineSymbol`. -/
def SymbolTable.defineSymbol (st : SymbolTable) (name : Str) (address : Int) : SymbolTable :=
  { st with symbols := mapInsert name ⟨name, address, true⟩ st.symbols }

/-- `SymbolTable::addPendingReference`. -/
def SymbolTable.addPendingReference (st : SymbolTable) (address : Int) (symbol : Str)
    (line : Int) : SymbolTable :=
  let pr := st.pending_references ++ [⟨address, symbol, line⟩]
  match mapFind symbol st.symbols with
  | none => { symbols := mapInsert symbol ⟨symbol, -1, false⟩ st.symbols, pending_references := pr }
  | some _ => { st with pending_references := pr }

/-- `SymbolTable::resolvePendingReferences`. -/
def SymbolTable.resolvePendingReferences (st : SymbolTable) : List (Int × Int) :=
  st.pending_references.filterMap fun ref =>
    if st.isSymbolDefined ref.symbol_name then
      some (ref.instruction_address, st.getSymbolAddress ref.symbol_name)
    else none

/-- `SymbolTable::getUndefinedSymbols`. -/
def SymbolTable.getUndefinedSymbols (st : SymbolTable) : List Str :=
  (st.symbols.filter fun p => !p.2.defined).map fun p => p.1

/-! ## lexer.h / lexer.cpp -/

/-- `enum class TokenType`. -/
inductive TokenType where
  | LABEL | INSTRUCTION | DIRECTIVE | OPERAND | SECTION | MACRO_DEF | MACRO_END
  | COMMA | COLON | END_OF_FILE | ERROR
deriving DecidableEq, Repr

/-- `struct Token`. -/
structure Token where
  type : TokenType
  value : Str
  line_number : Int
deriving DecidableEq, Repr

/-- `class Lexer`. -/
structure Lexer where
  lines : List Str
  current_line : Nat
  current_line_text : Str
  current_pos : Nat
  buffered_token : Token
  has_buffered_token : Bool
deriving DecidableEq, Repr

/-- `Lexer::INSTRUCTIONS` (the keys). -/
def INSTRUCTIONS : List Str :=
  ["ADD".toList, "SUB".toList, "MUL".toList, "DIV".toList, "JMP".toList, "JMPN".toList,
   "JMPP".toList, "JMPZ".toList, "COPY".toList, "LOAD".toList, "STORE".toList,
   "INPUT".toList, "OUTPUT".toList, "STOP".toList]

/-- `Lexer::DIRECTIVES` (the keys). -/
def DIRECTIVES : List Str :=
  ["SPACE".toList, "CONST".toList, "MACRO".toList, "ENDMACRO".toList, "SECAO".toList,
   "SECTION".toList]

/-- `Lexer::Lexer`. -/
def Lexer.new (input_lines : List Str) : Lexer :=
  { lines := input_lines, current_line := 0,
    current_line_text := input_lines.headD [],
    current_pos := 0,
    buffered_token := ⟨TokenType.END_OF_FILE, [], 0⟩, has_buffered_token := false }

/-- `Lexer::hasMoreTokens`. -/
def Lexer.hasMoreTokens (lx : Lexer) : Bool := lx.current_line < lx.lines.length

/-- `Lexer::skipWhitespace`: advance over spaces and tabs. -/
def Lexer.skipWhitespace (lx : Lexer) : Lexer :=
  { lx with current_pos := lx.current_pos +
      ((lx.current_line_text.drop lx.current_pos).takeWhile
        (fun c => c == ' ' || c == '\t')).length }

/-- The characters at which `Lexer::readWord` stops. -/
def isWordStop (c : Char) : Bool :=
  c == ' ' || c == '\t' || c == ',' || c == ':' || c == ';'

/-- `Lexer::readWord`: the characters up to the next blank, comma, colon or semicolon. -/
def Lexer.readWord (lx : Lexer) : Str × Lexer :=
  let word := (lx.current_line_text.drop lx.current_pos).takeWhile (fun c => !isWordStop c)
  (word, { lx with current_pos := lx.current_pos + word.length })

/-- `Lexer::isValidLabel`. -/
def isValidLabel : Str → Bool
  | [] => false
  | c :: rest => (isAlpha c || c == '_') && rest.all (fun d => isAlnum d || d == '_')

/-- `Lexer::isInstruction`. -/
def isInstruction (word : Str) : Bool := INSTRUCTIONS.contains word

/-- `Lexer::isDirective`. -/
def isDirective (word : Str) : Bool := DIRECTIVES.contains word

/-- The part of `Lexer::readNextToken` after a non-empty word was read: label or keyword
classification. -/
def Lexer.classifyWord (lx : Lexer) (word : Str) : Token × Lexer :=
  let line : Int := (lx.current_line : Int) + 1
  if lx.current_pos < lx.current_line_text.length ∧
      lx.current_line_text.get? lx.current_pos = some ':' then
    let lx1 := { lx with current_pos := lx.current_pos + 1 }
    if !isValidLabel word then
      (⟨TokenType.ERROR, "Invalid label: ".toList ++ word, line⟩, lx1)
    else (⟨TokenType.LABEL, word, line⟩, lx1)
  else
    let upper_word := toUpper word
    if upper_word = "SECAO".toList ∨ upper_word = "SECTION".toList then
      (⟨TokenType.SECTION, upper_word, line⟩, lx)
    else if upper_word = "MACRO".toList then (⟨TokenType.MACRO_DEF, upper_word, line⟩, lx)
    else if upper_word = "ENDMACRO".toList then (⟨TokenType.MACRO_END, upper_word, line⟩, lx)
    else if isInstruction upper_word then (⟨TokenType.INSTRUCTION, upper_word, line⟩, lx)
    else if isDirective upper_word then (⟨TokenType.DIRECTIVE, upper_word, line⟩, lx)
    else (⟨TokenType.OPERAND, word, line⟩, lx)

/-- `Lexer::readNextToken`: one unit of fuel per iteration of its `while` loop. -/
def Lexer.readNextToken : Nat → Lexer → Except Fault (Token × Lexer)
  | 0, _ => Except.error Fault.fuel
  | fuel + 1, lx =>
    if lx.current_line < lx.lines.length then
      if lx.current_pos ≥ lx.current_line_text.length then
        let cl := lx.current_line + 1
        if cl < lx.lines.length then
          Lexer.readNextToken fuel
            { lx with current_line := cl, current_line_text := lx.lines.getD cl [],
                      current_pos := 0 }
        else Lexer.readNextToken fuel { lx with current_line := cl }
      else
        let lx1 := lx.skipWhitespace
        if lx1.current_pos ≥ lx1.current_line_text.length then Lexer.readNextToken fuel lx1
        else if lx1.current_line_text.get? lx1.current_pos = some ';' then
          Lexer.readNextToken fuel { lx1 with current_pos := lx1.current_line_text.length }
        else if lx1.current_line_text.get? lx1.current_pos = some ',' then
          Except.ok (⟨TokenType.COMMA, ",".toList, (lx1.current_line : Int) + 1⟩,
            { lx1 with current_pos := lx1.current_pos + 1 })
        else
          let wl := lx1.readWord
          if wl.1.isEmpty then Lexer.readNextToken fuel wl.2
          else Except.ok (wl.2.classifyWord wl.1)
    else Except.ok (⟨TokenType.END_OF_FILE, [], (lx.current_line : Int) + 1⟩, lx)

/-- `Lexer::getNextToken`. -/
def Lexer.getNextToken (fuel : Nat) (lx : Lexer) : Except Fault (Token × Lexer) :=
  if lx.has_buffered_token then
    Except.ok (lx.buffered_token, { lx with has_buffered_token := false })
  else lx.readNextToken fuel

/-- `Lexer::peekNextToken`. -/
def Lexer.peekNextToken (fuel : Nat) (lx : Lexer) : Except Fault (Token × Lexer) :=
  if !lx.has_buffered_token then
    match lx.readNextToken fuel with
    | Except.error e => Except.error e
    | Except.ok (t, lx1) =>
      Except.ok (t, { lx1 with buffered_token := t, has_buffered_token := true })
  else Except.ok (lx.buffered_token, lx)

/-- `Lexer::putBackToken`. -/
def Lexer.putBackToken (lx : Lexer) (token : Token) : Lexer :=
  { lx with buffered_token := token, has_buffered_token := true }

/-! ## parser.h / parser.cpp -/

/-- `enum class InstructionType`. -/
inductive InstructionType where
  | ADD | SUB | MUL | DIV | JMP | JMPN | JMPP | JMPZ | COPY | LOAD | STORE
  | INPUT | OUTPUT | STOP | SPACE | CONST | INVALID
deriving DecidableEq, Repr

/-- `struct Instruction`. -/
structure Instruction where
  type : InstructionType
  opcode : Int
  operands : List Str
  size : Int
  address : Int
  line_number : Int
deriving DecidableEq, Repr

/-- `Instruction::Instruction()`. -/
def Instruction.new : Instruction :=
  { type := InstructionType.INVALID, opcode := -1, operands := [], size := 0, address := 0,
    line_number := 0 }

/-- `ParseError::Type`. -/
inductive ErrorType where
  | LEXICAL | SYNTACTIC | SEMANTIC
deriving DecidableEq, Repr

/-- `struct ParseError`. -/
structure ParseError where
  type : ErrorType
  message : Str
  line_number : Int
deriving DecidableEq, Repr

/-- `class Parser`. -/
structure Parser where
  lexer : Lexer
  symbol_table : SymbolTable
  instructions : List Instruction
  errors : List ParseError
  current_address : Int
  in_text_section : Bool
  in_data_section : Bool
deriving DecidableEq, Repr

/-- `Parser::Parser`. -/
def Parser.new (lines : List Str) : Parser :=
  { lexer := Lexer.new lines, symbol_table := SymbolTable.empty, instructions := [],
    errors := [], current_address := 0, in_text_section := false, in_data_section := false }

/-- `Parser::getInstructionType`. -/
def getInstructionType (name : Str) : InstructionType :=
  if name = "ADD".toList then InstructionType.ADD
  else if name = "SUB".toList then InstructionType.SUB
  else if name = "MUL".toList then InstructionType.MUL
  else if name = "DIV".toList then InstructionType.DIV
  else if name = "JMP".toList then InstructionType.JMP
  else if name = "JMPN".toList then InstructionType.JMPN
  else if name = "JMPP".toList then InstructionType.JMPP
  else if name = "JMPZ".toList then InstructionType.JMPZ
  else if name = "COPY".toList then InstructionType.COPY
  else if name = "LOAD".toList then InstructionType.LOAD
  else if name = "STORE".toList then InstructionType.STORE
  else if name = "INPUT".toList then InstructionType.INPUT
  else if name = "OUTPUT".toList then InstructionType.OUTPUT
  else if name = "STOP".toList then InstructionType.STOP
  else InstructionType.INVALID

/-- `Parser::getOpcode`. -/
def getOpcode : InstructionType → Int
  | InstructionType.ADD => 1
  | InstructionType.SUB => 2
  | InstructionType.MUL => 3
  | InstructionType.DIV => 4
  | InstructionType.JMP => 5
  | InstructionType.JMPN => 6
  | InstructionType.JMPP => 7
  | InstructionType.JMPZ => 8
  | InstructionType.COPY => 9
  | InstructionType.LOAD => 10
  | InstructionType.STORE => 11
  | InstructionType.INPUT => 12
  | InstructionType.OUTPUT => 13
  | InstructionType.STOP => 14
  | _ => -1

/-- `Parser::getInstructionSize`. -/
def getInstructionSize : InstructionType → Int
  | InstructionType.COPY => 3
  | InstructionType.STOP => 1
  | InstructionType.SPACE => 1
  | InstructionType.CONST => 1
  | _ => 2

/-- `Parser::isNumber`. -/
def isNumber (str : Str) : Bool :=
  if str.isEmpty then false
  else
    let signed := str.head? = some '-' || str.head? = some '+'
    if signed && str.length = 1 then false
    else
      let start := if signed then 1 else 0
      if substr str start 2 = "0X".toList ∨ substr str start 2 = "0x".toList then
        (str.drop (start + 2)).all isXDigit
      else (str.drop start).all isDigit

/-- `Parser::parseNumber`; `std::stoi` may throw. -/
def parseNumber (str : Str) : Except Fault Int :=
  if substr str 0 2 = "0X".toList ∨ substr str 0 2 = "0x".toList ∨
      substr str 0 3 = "-0X".toList ∨ substr str 0 3 = "-0x".toList then
    stoi str 16
  else stoi str 10

/-- `Parser::parseLabel`. -/
def Parser.parseLabel (p : Parser) (token : Token) : Parser :=
  let label_name := token.value
  if p.symbol_table.isSymbolDefined label_name then
    { p with errors := p.errors ++
        [⟨ErrorType.SEMANTIC, "Duplicate label: ".toList ++ label_name, token.line_number⟩] }
  else
    { p with symbol_table := p.symbol_table.defineSymbol label_name p.current_address }

/-- The operand count that `Parser::parseInstruction` expects. -/
def expectedOperands : InstructionType → Nat
  | InstructionType.COPY => 2
  | InstructionType.STOP => 0
  | _ => 1

/-- The comma test at the head of iteration `i` of the operand loop of
`Parser::parseInstruction`; `false` when the function returns early. -/
def Parser.expectComma (fuel : Nat) (token : Token) (i : Nat) (p : Parser) :
    Except Fault (Parser × Bool) :=
  if i > 0 then
    if p.lexer.hasMoreTokens then
      match p.lexer.getNextToken fuel with
      | Except.error e => Except.error e
      | Except.ok (comma, lx) =>
        if comma.type ≠ TokenType.COMMA then
          Except.ok ({ p with lexer := lx, errors := p.errors ++
            [⟨ErrorType.SYNTACTIC, "Expected comma between operands".toList,
              token.line_number⟩] }, false)
        else Except.ok ({ p with lexer := lx }, true)
    else Except.ok (p, true)
  else Except.ok (p, true)

/-- The operand read of one iteration of the operand loop of `Parser::parseInstruction`;
`none` when the function returns early. -/
def Parser.readOperand (fuel : Nat) (token : Token) (p : Parser) (inst : Instruction) :
    Except Fault (Parser × Option Instruction) :=
  if p.lexer.hasMoreTokens then
    match p.lexer.getNextToken fuel with
    | Except.error e => Except.error e
    | Except.ok (operand, lx) =>
      if operand.type = TokenType.OPERAND then
        Except.ok ({ p with lexer := lx },
          some { inst with operands := inst.operands ++ [operand.value] })
      else
        Except.ok ({ p with lexer := lx, errors := p.errors ++
          [⟨ErrorType.SYNTACTIC, "Expected operand for ".toList ++ token.value,
            token.line_number⟩] }, none)
  else
    Except.ok ({ p with errors := p.errors ++
      [⟨ErrorType.SYNTACTIC, "Missing operand for ".toList ++ token.value,
        token.line_number⟩] }, none)

/-- The operand loop of `Parser::parseInstruction`, from iteration `i` with `n` iterations
left. The result is `none` with the parser state when the function returned early, and
the instruction with its operands otherwise. -/
def Parser.readOperands (fuel : Nat) (token : Token) :
    Nat → Nat → Parser → Instruction → Except Fault (Parser × Option Instruction)
  | 0, _, p, inst => Except.ok (p, some inst)
  | n + 1, i, p, inst =>
    match p.expectComma fuel token i with
    | Except.error e => Except.error e
    | Except.ok (p1, false) => Except.ok (p1, none)
    | Except.ok (p1, true) =>
      match p1.readOperand fuel token inst with
      | Except.error e => Except.error e
      | Except.ok (p2, none) => Except.ok (p2, none)
      | Except.ok (p2, some inst1) => Parser.readOperands fuel token n (i + 1) p2 inst1

/-- The end of `Parser::parseInstruction` and `Parser::parseDirective`:
`instructions.push_back(inst); current_address += inst.size;`. -/
def Parser.pushInstruction (q : Parser) (i : Instruction) : Parser :=
  { q with instructions := q.instructions ++ [i],
           current_address := wrapInt (q.current_address + i.size) }

/-- `Parser::parseInstruction`. -/
def Parser.parseInstruction (fuel : Nat) (p : Parser) (token : Token) : Except Fault Parser :=
  let inst : Instruction :=
    { Instruction.new with type := getInstructionType token.value,
                           line_number := token.line_number,
                           address := p.current_address }
  if inst.type = InstructionType.INVALID then
    Except.ok { p with errors := p.errors ++
      [⟨ErrorType.SEMANTIC, "Invalid instruction: ".toList ++ token.value, token.line_number⟩] }
  else
    let inst1 := { inst with opcode := getOpcode inst.type, size := getInstructionSize inst.type }
    match Parser.readOperands fuel token (expectedOperands inst1.type) 0 p inst1 with
    | Except.error e => Except.error e
    | Except.ok (p1, none) => Except.ok p1
    | Except.ok (p1, some inst2) => Except.ok (p1.pushInstruction inst2)

/-- `Parser::parseDirective`. -/
def Parser.parseDirective (fuel : Nat) (p : Parser) (token : Token) : Except Fault Parser :=
  let inst : Instruction :=
    { Instruction.new with line_number := token.line_number, address := p.current_address }
  let push := Parser.pushInstruction
  if token.value = "SPACE".toList then
    let inst1 := { inst with type := InstructionType.SPACE, size := 1 }
    if p.lexer.hasMoreTokens then
      match p.lexer.peekNextToken fuel with
      | Except.error e => Except.error e
      | Except.ok (next, lx) =>
        if next.type = TokenType.OPERAND then
          match lx.getNextToken fuel with
          | Except.error e => Except.error e
          | Except.ok (_, lx1) =>
            if isNumber next.value then
              match parseNumber next.value with
              | Except.error e => Except.error e
              | Except.ok count =>
                Except.ok (push { p with lexer := lx1 }
                  { inst1 with size := count, operands := inst1.operands ++ [next.value] })
            else
              Except.ok (push { p with lexer := lx1, errors := p.errors ++
                [⟨ErrorType.SYNTACTIC, "SPACE requires numeric operand".toList,
                  token.line_number⟩] } inst1)
        else Except.ok (push { p with lexer := lx } inst1)
    else Except.ok (push p inst1)
  else if token.value = "CONST".toList then
    let inst1 := { inst with type := InstructionType.CONST, size := 1 }
    if p.lexer.hasMoreTokens then
      match p.lexer.getNextToken fuel with
      | Except.error e => Except.error e
      | Except.ok (next, lx) =>
        if next.type = TokenType.OPERAND then
          Except.ok (push { p with lexer := lx }
            { inst1 with operands := inst1.operands ++ [next.value] })
        else
          Except.ok (push { p with lexer := lx.putBackToken next, errors := p.errors ++
            [⟨ErrorType.SYNTACTIC, "CONST requires an operand".toList, token.line_number⟩] }
            inst1)
    else
      Except.ok (push { p with errors := p.errors ++
        [⟨ErrorType.SYNTACTIC, "CONST requires an operand".toList, token.line_number⟩] } inst1)
  else Except.ok (push p inst)

/-- `Parser::parseSection`. -/
def Parser.parseSection (fuel : Nat) (p : Parser) (token : Token) : Except Fault Parser :=
  match p.lexer.getNextToken fuel with
  | Except.error e => Except.error e
  | Except.ok (next, lx) =>
    let p1 := { p with lexer := lx }
    if next.type ≠ TokenType.OPERAND then
      Except.ok { p1 with errors := p1.errors ++
        [⟨ErrorType.SYNTACTIC, "Section directive requires a name".toList, token.line_number⟩] }
    else
      let section_name := toUpper next.value
      if section_name = "TEXTO".toList ∨ section_name = "TEXT".toList then
        Except.ok { p1 with in_text_section := true, in_data_section := false }
      else if section_name = "DADOS".toList ∨ section_name = "DATA".toList then
        Except.ok { p1 with in_text_section := false, in_data_section := true }
      else
        Except.ok { p1 with errors := p1.errors ++
          [⟨ErrorType.SEMANTIC, "Unknown section: ".toList ++ section_name, token.line_number⟩] }

/-- The `switch` of `Parser::parse` on a token that is not `END_OF_FILE`. -/
def Parser.dispatch (fuel : Nat) (p : Parser) (token : Token) : Except Fault Parser :=
  match token.type with
  | TokenType.LABEL => Except.ok (p.parseLabel token)
  | TokenType.INSTRUCTION => p.parseInstruction fuel token
  | TokenType.DIRECTIVE => p.parseDirective fuel token
  | TokenType.SECTION => p.parseSection fuel token
  | TokenType.ERROR =>
    Except.ok { p with errors := p.errors ++ [⟨ErrorType.LEXICAL, token.value, token.line_number⟩] }
  | TokenType.COMMA => Except.ok p
  | TokenType.OPERAND =>
    Except.ok { p with errors := p.errors ++
      [⟨ErrorType.SYNTACTIC, "Unexpected operand at top level: ".toList ++ token.value,
        token.line_number⟩] }
  | _ =>
    Except.ok { p with errors := p.errors ++
      [⟨ErrorType.SYNTACTIC, "Unexpected token: ".toList ++ token.value, token.line_number⟩] }

/-- The `while` loop of `Parser::parse`: one unit of the second argument per iteration;
`fuel` is what each lexer call gets. -/
def Parser.parseLoop (fuel : Nat) : Nat → Parser → Except Fault Parser
  | 0, _ => Except.error Fault.fuel
  | n + 1, p =>
    if p.lexer.hasMoreTokens then
      match p.lexer.getNextToken fuel with
      | Except.error e => Except.error e
      | Except.ok (token, lx) =>
        if token.type = TokenType.END_OF_FILE then Except.ok { p with lexer := lx }
        else
          match Parser.dispatch fuel { p with lexer := lx } token with
          | Except.error e => Except.error e
          | Except.ok p1 => Parser.parseLoop fuel n p1
    else Except.ok p

/-- The undefined-symbol sweep that ends `Parser::parse`. -/
def Parser.sweep (p : Parser) : Parser :=
  { p with errors := p.errors ++ p.symbol_table.getUndefinedSymbols.map fun sym =>
      ⟨ErrorType.SEMANTIC, "Undefined symbol: ".toList ++ sym, 0⟩ }

/-- `Parser::parse`. -/
def Parser.parse (fuel : Nat) (p : Parser) : Except Fault Parser :=
  match Parser.parseLoop fuel fuel p with
  | Except.error e => Except.error e
  | Except.ok p1 => Except.ok p1.sweep

/-! ## code_generator.h / code_generator.cpp -/

/-- `class CodeGenerator`; `symbol_table` is the table shared with the parser. -/
structure CodeGenerator where
  instructions : List Instruction
  symbol_table : SymbolTable
  object_code : List Int
deriving DecidableEq, Repr

/-- `CodeGenerator::CodeGenerator`. -/
def CodeGenerator.new (insts : List Instruction) (st : SymbolTable) : CodeGenerator :=
  { instructions := insts, symbol_table := st, object_code := [] }

/-- `operand.find(p) != std::string::npos`. -/
def containsStr (s p : Str) : Bool := (find s p 0).isSome

/-- The symbol branch of `CodeGenerator::resolveOperand`: look the name up, and record a
pending reference at the current write position when it is not defined. -/
def CodeGenerator.resolveSymbol (g : CodeGenerator) (operand : Str) : Int × CodeGenerator :=
  if g.symbol_table.isSymbolDefined operand then
    (g.symbol_table.getSymbolAddress operand, g)
  else
    let current_pos : Int := (g.object_code.length : Int)
    (-1, { g with symbol_table := g.symbol_table.addPendingReference current_pos operand 0 })

/-- Whether `CodeGenerator::resolveOperand` treats the operand as a number:
it is not empty and starts with a digit, `-` or `+`. -/
def looksNumeric : Str → Bool
  | [] => false
  | c :: _ => isDigit c || c == '-' || c == '+'

/-- `CodeGenerator::resolveOperand`: the value and the generator afterwards. -/
def CodeGenerator.resolveOperand (g : CodeGenerator) (operand : Str) : Int × CodeGenerator :=
  if looksNumeric operand then
    if containsStr operand "0X".toList || containsStr operand "0x".toList then
      match stoi operand 16 with
      | Except.ok v => (v, g)
      | Except.error _ => (0, g)
    else
      match stoi operand 10 with
      | Except.ok v => (v, g)
      | Except.error _ => (0, g)
  else g.resolveSymbol operand

/-- `object_code.push_back`. -/
def CodeGenerator.push (g : CodeGenerator) (w : Int) : CodeGenerator :=
  { g with object_code := g.object_code ++ [w] }

/-- `CodeGenerator::generateInstructionCode`. -/
def CodeGenerator.generateInstructionCode (g : CodeGenerator) (inst : Instruction) :
    CodeGenerator :=
  match inst.type with
  | InstructionType.SPACE =>
    let count : Int :=
      match inst.operands with
      | [] => 1
      | op :: _ =>
        match stoi op 10 with
        | Except.ok v => v
        | Except.error _ => 1
    { g with object_code := g.object_code ++ List.replicate count.toNat 0 }
  | InstructionType.CONST =>
    match inst.operands with
    | op :: _ =>
      let r := g.resolveOperand op
      r.2.push r.1
    | [] => g.push 0
  | InstructionType.STOP => g.push inst.opcode
  | InstructionType.COPY =>
    let g1 := g.push inst.opcode
    match inst.operands with
    | op0 :: op1 :: _ =>
      let r1 := g1.resolveOperand op0
      let r2 := r1.2.resolveOperand op1
      (r2.2.push r1.1).push r2.1
    | _ => (g1.push (-1)).push (-1)
  | _ =>
    let g1 := g.push inst.opcode
    match inst.operands with
    | op :: _ =>
      let r := g1.resolveOperand op
      r.2.push r.1
    | [] => g1.push (-1)

/-- `CodeGenerator::generateIntermediateCode`. -/
def CodeGenerator.generateIntermediateCode (g : CodeGenerator) : CodeGenerator :=
  g.instructions.foldl CodeGenerator.generateInstructionCode { g with object_code := [] }

/-- The assignment `object_code[resolution.first] = resolution.second` of
`generateFinalCode`, guarded by `resolution.first < object_code.size()`. -/
def patch (code : List Int) (resolution : Int × Int) : List Int :=
  if 0 ≤ resolution.1 ∧ resolution.1 < (code.length : Int) then
    code.set resolution.1.toNat resolution.2
  else code

/-- `CodeGenerator::generateFinalCode`. -/
def CodeGenerator.generateFinalCode (g : CodeGenerator) : CodeGenerator :=
  let g1 := if g.object_code.isEmpty then g.generateIntermediateCode else g
  let resolutions := g1.symbol_table.resolvePendingReferences
  { g1 with object_code := resolutions.foldl patch g1.object_code }

/-! ## preprocessor.h / preprocessor.cpp -/

/-- `struct Macro`. -/
structure Macro where
  name : Str
  parameters : List Str
  body : List Str
deriving DecidableEq, Repr

/-- `Macro::Macro(const std::string& n)`. -/
def Macro.named (n : Str) : Macro := { name := n, parameters := [], body := [] }

/-- `std::string::npos` (64-bit `size_t`). -/
def npos : Nat := 2 ^ 64 - 1

/-- `Preprocessor::removeComments`: the text before the first `;`. -/
def removeComments (line : Str) : Str :=
  match find line ";".toList 0 with
  | some comment_pos => substr line 0 comment_pos
  | none => line

/-- The characters that `Preprocessor::trim` removes: `" \t\r\n"`. -/
def isTrimChar (c : Char) : Bool := c == ' ' || c == '\t' || c == '\r' || c == '\n'

/-- `Preprocessor::trim`: from the first to the last character outside `" \t\r\n"`. -/
def trim (str : Str) : Str :=
  ((str.dropWhile isTrimChar).reverse.dropWhile isTrimChar).reverse

/-- `Preprocessor::isMacroDefinition`. -/
def isMacroDefinition (line : Str) : Bool :=
  let upper_line := toUpper line
  containsStr upper_line "MACRO".toList && !containsStr upper_line "ENDMACRO".toList

/-- `before_macro.pop_back()` when the text ends with a colon. -/
def dropColon (w : Str) : Str :=
  if w.getLast? = some ':' then w.dropLast else w

/-- `iss >> first_word` followed by the removal of a final colon: the first
white-space-delimited word of the line. -/
def firstWord (line : Str) : Str :=
  dropColon ((line.dropWhile isSpace).takeWhile (fun c => !isSpace c))

/-- `std::getline(iss, args_str)` after `iss >> macro_name`: the rest of the line. -/
def restOfLine (line : Str) : Str :=
  (((line.dropWhile isSpace).dropWhile (fun c => !isSpace c))).takeWhile (fun c => c != '\n')

/-- The loop of `Preprocessor::splitParameters`; `current` is the piece being read. -/
def splitLoop : Str → Str → List Str → List Str
  | [], current, result => if !current.isEmpty then result ++ [trim current] else result
  | c :: rest, current, result =>
    if c == ',' then
      if !current.isEmpty then splitLoop rest [] (result ++ [trim current])
      else splitLoop rest current result
    else splitLoop rest (current ++ [c]) result

/-- `Preprocessor::splitParameters`. -/
def splitParameters (params : Str) : List Str := splitLoop params [] []

/-- Whether a character is alphanumeric or an underscore. -/
def isIdentChar (c : Char) : Bool := isAlnum c || c == '_'

/-- The first half of the whole-word test of `Preprocessor::replaceParameters`: the
character before `pos`, when there is one, is neither alphanumeric nor `_`. -/
def boundaryBefore (result : Str) (pos : Nat) : Bool :=
  if pos > 0 then
    match result.get? (pos - 1) with
    | some prev => !isIdentChar prev
    | none => true
  else true

/-- The whole-word test of `Preprocessor::replaceParameters` for a match of length `n`
at `pos` in `result` (the variable `is_word_boundary`): the test of the character after
the match is made only when the first half holds and the match does not end the text. -/
def isWordBoundary (result : Str) (pos n : Nat) : Bool :=
  if boundaryBefore result pos && pos + n < result.length then
    match result.get? (pos + n) with
    | some next => !isIdentChar next
    | none => true
  else boundaryBefore result pos

/-- `result.replace(pos, n, arg)`. -/
def replaceAt (result : Str) (pos n : Nat) (arg : Str) : Str :=
  result.take pos ++ arg ++ result.drop (pos + n)

/-- The `while` loop of `Preprocessor::replaceParameters` for one parameter, from
position `pos`; one unit of fuel per iteration. -/
def replaceLoop (param arg : Str) : Nat → Str → Nat → Except Fault Str
  | 0, _, _ => Except.error Fault.fuel
  | fuel + 1, result, pos =>
    match find result param pos with
    | none => Except.ok result
    | some pos1 =>
      if isWordBoundary result pos1 param.length then
        replaceLoop param arg fuel (replaceAt result pos1 param.length arg) (pos1 + arg.length)
      else replaceLoop param arg fuel result (pos1 + 1)

/-- `Preprocessor::replaceParameters`: the parameters are substituted one after the other,
each over the result of the previous one. -/
def replaceParameters (fuel : Nat) (line : Str) : List Str → List Str → Except Fault Str
  | param :: params, arg :: args =>
    match replaceLoop param arg fuel line 0 with
    | Except.error e => Except.error e
    | Except.ok result => replaceParameters fuel result params args
  | _, _ => Except.ok line

/-- `Preprocessor::expandMacro`: each body line with the call's arguments substituted. -/
def expandMacro (fuel : Nat) (line : Str) ( m : Macro) : Except Fault (List Str) :=
  let args_str := trim (restOfLine line)
  let args := if !args_str.isEmpty then splitParameters args_str else []
  m.body.mapM (fun body_line => replaceParameters fuel body_line m.parameters args)

/-- State of the first loop of `Preprocessor::preprocess`. -/
structure DefState where
  in_macro_def : Bool
  current : Macro
  macros : List (Str × Macro)
deriving DecidableEq, Repr

/-- The header branch of the first loop of `Preprocessor::preprocess`: name and parameters
of the macro that `line` opens. `pos + 5` is computed in `size_t`. -/
def parseHeader (line : Str) : Macro :=
  let pos :=
    match find line "MACRO".toList 0 with
    | some q => q
    | none => (find line "macro".toList 0).getD npos
  let before_macro := dropColon (trim (substr line 0 pos))
  let after_macro := trim (line.drop ((pos + 5) % 2 ^ 64))
  { name := trim before_macro,
    parameters := if after_macro.isEmpty then [] else splitParameters after_macro,
    body := [] }

/-- One iteration of the first loop of `Preprocessor::preprocess` (macro collection). -/
def defStep (st : DefState) (raw : Str) : DefState :=
  let line := trim (removeComments raw)
  if line.isEmpty then st
  else if isMacroDefinition line then
    { st with in_macro_def := true, current := parseHeader line }
  else if st.in_macro_def && toUpper line = "ENDMACRO".toList then
    { in_macro_def := false, current := Macro.named [],
      macros := mapInsert st.current.name st.current st.macros }
  else if st.in_macro_def then
    { st with current := { st.current with body := st.current.body ++ [line] } }
  else st

/-- The first loop of `Preprocessor::preprocess`: the table of macros. -/
def collectMacros (input_lines : List Str) : List (Str × Macro) :=
  (input_lines.foldl defStep { in_macro_def := false, current := Macro.named [], macros := [] }).macros

/-- `Preprocessor::isMacroCall`. -/
def isMacroCall (macros : List (Str × Macro)) (line : Str) : Bool :=
  (mapFind (firstWord line) macros).isSome

/-- The second loop of `Preprocessor::preprocess` over the lines that are left.
`skipping` is true while the inner `while` loop is looking for the line that reads
`ENDMACRO`; that loop tests the raw line, trimmed, and starts at the header line. -/
def expandPass (fuel : Nat) (macros : List (Str × Macro)) :
    List Str → Bool → List Str → Except Fault (List Str)
  | [], _, out => Except.ok out
  | raw :: rest, true, out =>
    if toUpper (trim raw) ≠ "ENDMACRO".toList then expandPass fuel macros rest true out
    else expandPass fuel macros rest false out
  | raw :: rest, false, out =>
    let line := trim (removeComments raw)
    if line.isEmpty then expandPass fuel macros rest false out
    else if isMacroDefinition line then
      if toUpper (trim raw) ≠ "ENDMACRO".toList then expandPass fuel macros rest true out
      else expandPass fuel macros rest false out
    else if isMacroCall macros line then
      match mapFind (firstWord line) macros with
      | some m =>
        match expandMacro fuel line m with
        | Except.error e => Except.error e
        | Except.ok expanded_lines => expandPass fuel macros rest false (out ++ expanded_lines)
      | none => expandPass fuel macros rest false (out ++ [line])
    else expandPass fuel macros rest false (out ++ [line])

/-- `Preprocessor::preprocess`. -/
def preprocess (fuel : Nat) (input_lines : List Str) : Except Fault (List Str) :=
  expandPass fuel (collectMacros input_lines) input_lines false []

/-! ## compiler.cpp: the order of the stages -/

/-- What one compilation produces. -/
structure Compiled where
  parser : Parser
  intermediate : List Int
  generator : CodeGenerator
deriving DecidableEq, Repr

/-- The stages in the order in which `main` in `compiler.cpp` calls them: preprocess,
parse, `generateIntermediateCode`, `generateFinalCode` on the parser's own symbol table.
`main` stops after parsing when the parser reported an error; here the generator is run
in any case, and `parser.errors` tells whether `main` would have gone on. -/
def compile (fuel : Nat) (source : List Str) : Except Fault Compiled :=
  match preprocess fuel source with
  | Except.error e => Except.error e
  | Except.ok lines =>
    match (Parser.new lines).parse fuel with
    | Except.error e => Except.error e
    | Except.ok p =>
      let g := (CodeGenerator.new p.instructions p.symbol_table).generateIntermediateCode
      Except.ok { parser := p, intermediate := g.object_code, generator := g.generateFinalCode }

/-! ## Inputs used in the statements -/

/-- Value of an `Except`, or the default `d` on a fault. -/
def okOr {α : Type} (d : α) : Except Fault α → α
  | Except.ok a => a
  | Except.error _ => d

/-- The end-to-end scenario of the specification. -/
def endToEndSource : List Str :=
  ["INICIO: LOAD A".toList, "        ADD B".toList, "        STORE C".toList,
   "        STOP".toList, "A:      CONST 5".toList, "B:      CONST 3".toList,
   "C:      SPACE".toList]

/-- The parser after `Parser::parse` on the end-to-end scenario. -/
def endToEndParsed : Parser := okOr (Parser.new []) ((Parser.new endToEndSource).parse 64)

/-! ## Layout of the instruction list -/

/-- The instruction list is laid out from address `a`: each instruction starts where the
previous one ends, the end being computed in `int` as the parser does. -/
def chainedFrom : Int → List Instruction → Prop
  | _, [] => True
  | a, i :: rest => i.address = a ∧ chainedFrom (wrapInt (a + i.size)) rest

/-- The address reached from `a` after the instructions of the list, each step computed
in `int` as `current_address += size` is. -/
def endAddress : Int → List Instruction → Int
  | a, [] => a
  | a, i :: rest => endAddress (wrapInt (a + i.size)) rest

/-- Sum of the sizes of the instructions. -/
def totalSize (insts : List Instruction) : Int := (insts.map fun i => i.size).sum

/-- What the parser maintains: the list is laid out from 0 and `current_address` is its end. -/
def Parser.layoutOk (p : Parser) : Prop :=
  chainedFrom 0 p.instructions ∧ p.current_address = endAddress 0 p.instructions

/-- The parts of the parser state that hold the layout and the symbols are the same. -/
def Parser.sameCore (p q : Parser) : Prop :=
  q.instructions = p.instructions ∧ q.current_address = p.current_address ∧
  q.symbol_table = p.symbol_table

/-- Address, size, type and opcode of two instructions agree. -/
def Instruction.sameShape (a b : Instruction) : Prop :=
  b.address = a.address ∧ b.size = a.size ∧ b.type = a.type ∧ b.opcode = a.opcode

/-- The positions in the object code at which `generateInstructionCode` starts to write
each instruction of the list, in order, starting from the generator `g`. -/
def writePositions : CodeGenerator → List Instruction → List Int
  | _, [] => []
  | g, i :: rest =>
    (g.object_code.length : Int) :: writePositions (g.generateInstructionCode i) rest

/-- A two-line program whose `SPACE` count is written in hexadecimal. -/
def spaceHexSource : List Str := ["SPACE 0x2".toList, "STOP".toList]

/-- A one-line program with a label in front of an instruction. -/
def labelledStopSource : List Str := ["A: STOP".toList]

/-- Token and lexer of a lexer call, with a default for a fault. -/
def tokenOr (r : Except Fault (Token × Lexer)) : Token × Lexer :=
  okOr (⟨TokenType.END_OF_FILE, [], 0⟩, Lexer.new []) r

/-- The LABEL token of `A: STOP` and the lexer after it. -/
def labelledStopLabel : Token × Lexer :=
  tokenOr ((Parser.new labelledStopSource).lexer.getNextToken 8)

/-- The token after the label of `A: STOP` and the lexer after it. -/
def labelledStopNext : Token × Lexer := tokenOr (labelledStopLabel.2.getNextToken 8)

/-- The parser after the label and the instruction of `A: STOP` were handled. -/
def labelledStopAfter : Parser :=
  okOr (Parser.new [])
    (Parser.dispatch 8
      { ({ Parser.new labelledStopSource with lexer := labelledStopLabel.2 } : Parser).parseLabel
          labelledStopLabel.1 with lexer := labelledStopNext.2 }
      labelledStopNext.1)

/-- The instruction that `A: STOP` appends. -/
def labelledStopInst : Instruction :=
  { Instruction.new with type := InstructionType.STOP, opcode := 14, size := 1, line_number := 1 }

/-- An instruction list with one `COPY A, B`, as the parser builds it. -/
def copyInstructions : List Instruction :=
  [{ Instruction.new with type := InstructionType.COPY, opcode := 9,
                          operands := ["A".toList, "B".toList], size := 3, line_number := 1 }]

/-- The generator after `generateIntermediateCode` on `COPY A, B` with an empty symbol table. -/
def copyIntermediate : CodeGenerator :=
  (CodeGenerator.new copyInstructions SymbolTable.empty).generateIntermediateCode

/-- The generator `copyIntermediate` once `A` is defined at 10 and `B` at 20. -/
def copyDefinedLater : CodeGenerator :=
  { copyIntermediate with
    symbol_table := (copyIntermediate.symbol_table.defineSymbol "A".toList 10).defineSymbol
      "B".toList 20 }

/-- A program whose `COPY` names the defined `A` and the undefined `B`. -/
def copyUndefinedSource : List Str := ["COPY A, B".toList, "A: STOP".toList]

/-- A program that uses the symbol `X`, which no label defines. -/
def loadUndefinedSource : List Str := ["LOAD X".toList]

/-! ## Numerals, as the specification reads them -/

/-- Value of the numeral written with the digit characters `ds` in `base`, most
significant digit first (positional notation). -/
def numeralValue (base : Nat) (ds : Str) : Nat :=
  Nat.ofDigits base (ds.reverse.map digitVal)

/-- The text after an optional leading `+` or `-`. -/
def stripSign : Str → Str
  | '+' :: r => r
  | '-' :: r => r
  | s => s

/-- A well-formed decimal literal: an optional sign and one or more decimal digits. -/
def isDecimalLiteral (s : Str) : Bool :=
  !(stripSign s).isEmpty && (stripSign s).all isDigit

/-- A well-formed hexadecimal literal: an optional sign, `0x` or `0X`, and one or more
hexadecimal digits. -/
def isHexLiteral (s : Str) : Bool :=
  match stripSign s with
  | '0' :: x :: h :: r => (x == 'x' || x == 'X') && (h :: r).all isXDigit
  | _ => false

/-! ## Whole-word substitution, as the specification reads it -/

/-- An occurrence that stands between the texts `pre` and `post` is at a whole-word
boundary: the character immediately before it (if any) and the character immediately
after it (if any) are neither alphanumeric nor an underscore. -/
def wholeWordAt (pre post : Str) : Prop :=
  (∀ c, pre.getLast? = some c → isIdentChar c = false) ∧
  (∀ c, post.head? = some c → isIdentChar c = false)

/-- A left-to-right scan that rewrites only whole-word occurrences of `param`:
`WholeWordScan param arg scanned todo out` says that, `scanned` being the text already
passed and `todo` the text still ahead, the scan ends with `out`. Either nothing more is
replaced, or some occurrence of `param` in `todo` at a whole-word boundary is replaced by
`arg` and the scan goes on after the inserted `arg`. -/
inductive WholeWordScan (param arg : Str) : Str → Str → Str → Prop
  | finish (scanned todo : Str) : WholeWordScan param arg scanned todo (scanned ++ todo)
  | replace (scanned mid post out : Str) :
      wholeWordAt (scanned ++ mid) post →
      WholeWordScan param arg (scanned ++ mid ++ arg) post out →
      WholeWordScan param arg scanned (mid ++ param ++ post) out

/-- No occurrence of `param` in `line` is at a whole-word boundary. -/
def noWholeWordOccurrence (param line : Str) : Prop :=
  ∀ pre post : Str, line = pre ++ param ++ post → ¬ wholeWordAt pre post

/-- The same scan read on the body line itself: `WholeWordSubst param arg left todo tail`
says that `tail` comes from `todo`, which stands after `left` in the body line, by
replacing with `arg` some occurrences of `param`, from left to right and without overlap,
each of them at a whole-word boundary of the body line. -/
inductive WholeWordSubst (param arg : Str) : Str → Str → Str → Prop
  | finish (left todo : Str) : WholeWordSubst param arg left todo todo
  | replace (left mid post tail : Str) :
      wholeWordAt (left ++ mid) post →
      WholeWordSubst param arg (left ++ mid ++ param) post tail →
      WholeWordSubst param arg left (mid ++ param ++ post) (mid ++ arg ++ tail)

/-- A parameter name written like an identifier: not empty, alphanumerics and `_` only. -/
def isIdentifierName (param : Str) : Prop :=
  param ≠ [] ∧ ∀ c ∈ param, isIdentChar c = true

/-! ## The token stream of a lexer -/

/-- Two lexer states from which the same tokens are read: they agree on the lines, on the
cursor and on whether a token is buffered, and on the buffered token when there is one. -/
def Lexer.sameStream (a b : Lexer) : Prop :=
  a.lines = b.lines ∧ a.current_line = b.current_line ∧
  a.current_line_text = b.current_line_text ∧ a.current_pos = b.current_pos ∧
  a.has_buffered_token = b.has_buffered_token ∧
  (a.has_buffered_token = true → a.buffered_token = b.buffered_token)

/-- The tokens returned by `n` successive calls of `Lexer::getNextToken`. -/
def Lexer.nextTokens (fuel : Nat) : Nat → Lexer → Except Fault (List Token)
  | 0, _ => Except.ok []
  | n + 1, lx =>
    match lx.getNextToken fuel with
    | Except.error e => Except.error e
    | Except.ok (t, lx1) =>
      match Lexer.nextTokens fuel n lx1 with
      | Except.error e => Except.error e
      | Except.ok ts => Except.ok (t :: ts)

/-- A lexer over the one line `A B`. -/
def twoWordLexer : Lexer := Lexer.new ["A B".toList]

/-- The lexer over `A B` after one `peekNextToken`, which has buffered the token `A`. -/
def twoWordPeeked : Lexer := (tokenOr (twoWordLexer.peekNextToken 8)).2

/-! ## Labels and keywords, as the specification reads them -/

/-- A valid label name: it starts with a letter or an underscore, and every other
character is alphanumeric or an underscore. -/
def validLabelName (word : Str) : Prop :=
  ∃ c r, word = c :: r ∧ (isAlpha c = true ∨ c = '_') ∧
    ∀ d ∈ r, isAlnum d = true ∨ d = '_'

/-- The fourteen instruction mnemonics. -/
def mnemonics : List Str :=
  ["ADD".toList, "SUB".toList, "MUL".toList, "DIV".toList, "JMP".toList, "JMPN".toList,
   "JMPP".toList, "JMPZ".toList, "COPY".toList, "LOAD".toList, "STORE".toList,
   "INPUT".toList, "OUTPUT".toList, "STOP".toList]

/-- The token kind of a keyword, given in upper case; `none` for every other word. -/
def keywordKind (upper : Str) : Option TokenType :=
  if upper ∈ ["SECAO".toList, "SECTION".toList] then some TokenType.SECTION
  else if upper = "MACRO".toList then some TokenType.MACRO_DEF
  else if upper = "ENDMACRO".toList then some TokenType.MACRO_END
  else if upper ∈ mnemonics then some TokenType.INSTRUCTION
  else if upper ∈ ["SPACE".toList, "CONST".toList] then some TokenType.DIRECTIVE
  else none

/-- A lexer at the start of the line `  x1: LOAD N ; c`. -/
def labelLineLexer : Lexer := Lexer.new ["  x1: LOAD N ; c".toList]

/-- A lexer at the start of the line `  Load N`. -/
def keywordLineLexer : Lexer := Lexer.new ["  Load N".toList]

/-- An error of kind SYNTACTIC at line `line`, and nothing else, was appended to the
errors of `p`. -/
def Parser.oneSyntacticError (p p1 : Parser) (line : Int) : Prop :=
  ∃ msg, p1.errors = p.errors ++ [⟨ErrorType.SYNTACTIC, msg, line⟩]

/-- A one-line program whose `COPY` has one operand. -/
def copyOneOperandSource : List Str := ["COPY A".toList]

/-- The mnemonic token of `COPY A`. -/
def copyOneOperandToken : Token :=
  (tokenOr ((Parser.new copyOneOperandSource).lexer.getNextToken 8)).1

/-- The parser on `COPY A` once the mnemonic is read. -/
def copyOneOperandParser : Parser :=
  { Parser.new copyOneOperandSource with
    lexer := (tokenOr ((Parser.new copyOneOperandSource).lexer.getNextToken 8)).2 }

/-- The one-line program `STOP X`. -/
def stopOperandSource : List Str := ["STOP X".toList]

/-- A program that defines the label `A` twice. -/
def duplicateLabelSource : List Str := ["A: STOP".toList, "A: STOP".toList]

/-- The one-line program `FOO X`, whose first word is no keyword. -/
def unknownMnemonicSource : List Str := ["FOO X".toList]

/-! ## Substitution of parameters, as the specification reads it -/

/-- There is no character, or the character is neither alphanumeric nor an underscore. -/
def notIdentChar : Option Char → Bool
  | none => true
  | some c => !isIdentChar c

/-- The text in which `arg` stands for every whole-word occurrence of `param`, the
occurrences being taken from left to right without overlap. `prev` is the character that
stands before the text and `skip` the number of characters of an occurrence just
replaced that are still to be passed. (For a non-empty `param`.) -/
def substWord (param arg : Str) : Option Char → Nat → Str → Str
  | _, _, [] => []
  | prev, skip + 1, _ :: s => substWord param arg prev skip s
  | prev, 0, c :: s =>
    if param.isPrefixOf (c :: s) && notIdentChar prev &&
        notIdentChar ((c :: s).drop param.length).head? then
      arg ++ substWord param arg param.getLast? (param.length - 1) s
    else c :: substWord param arg (some c) 0 s

/-- The parameters substituted one after the other, in the order of the list: each
substitution works on the text that the previous one produced. -/
def sequentialSubst : List Str → List Str → Str → Str
  | param :: params, arg :: args, line =>
    sequentialSubst params args (substWord param arg none 0 line)
  | _, _, line => line

/-- The first parameter (in list order, with its argument) that has a whole-word
occurrence at the head of `text`, `prev` being the character before `text`. -/
def firstMatch (prev : Option Char) (text : Str) : List Str → List Str → Option (Str × Str)
  | param :: params, arg :: args =>
    if !param.isEmpty && param.isPrefixOf text && notIdentChar prev &&
        notIdentChar (text.drop param.length).head? then some (param, arg)
    else firstMatch prev text params args
  | _, _ => none

/-- The simultaneous positional substitution: the body line is read once from left to
right, and every whole-word occurrence of a parameter in it is replaced by the argument
of the same position; the text of an argument is never read again. -/
def simultaneousSubst (params args : List Str) : Option Char → Nat → Str → Str
  | _, _, [] => []
  | prev, skip + 1, _ :: s => simultaneousSubst params args prev skip s
  | prev, 0, c :: s =>
    match firstMatch prev (c :: s) params args with
    | some (param, arg) =>
      arg ++ simultaneousSubst params args param.getLast? (param.length - 1) s
    | none => c :: simultaneousSubst params args (some c) 0 s

/-- A macro with two parameters, called with a blank between two commas. -/
def blankArgumentSource : List Str :=
  ["M: MACRO X, Y".toList, "LOAD Y".toList, "ENDMACRO".toList, "M A, ,B".toList]

/-! ## One macro definition followed by a call -/

/-- The line as both loops of `Preprocessor::preprocess` look at it:
`trim(removeComments(input_lines[i]))`. -/
def cleanLine (raw : Str) : Str := trim (removeComments raw)

/-- The arguments of a call line, as `Preprocessor::expandMacro` reads them: the text after
the first word, trimmed and split at the commas. -/
def callArguments (line : Str) : List Str :=
  let args_str := trim (restOfLine line)
  if !args_str.isEmpty then splitParameters args_str else []

/-- The body lines that the first loop stores for a definition: the lines between header
and terminator, cleaned, the empty ones left out. -/
def storedBody (body : List Str) : List Str :=
  (body.map cleanLine).filter (fun l => !l.isEmpty)

/-- A definition of `M` with the parameter `X`, and a call whose argument is `MACRO1`. -/
def macroWordCallSource : List Str :=
  ["M: MACRO X".toList, "LOAD X".toList, "ENDMACRO".toList, "M MACRO1".toList]

/-- A definition of `M` whose body holds the word `MACROS`, and a call of `M`. -/
def macroWordBodySource : List Str :=
  ["M: MACRO X".toList, "LOAD MACROS".toList, "ENDMACRO".toList, "M A".toList]

/-- A definition of `M` whose second body line names `M` itself, and a call of `M`. -/
def selfNamingHeader : Str := "M: MACRO X ; one parameter".toList

/-- The body lines of the definition of `M`. -/
def selfNamingBody : List Str := ["  LOAD X ; first".toList, "".toList, "  M X".toList]

/-- The call of `M`. -/
def selfNamingCall : Str := "M A, B ; call".toList

/-- Two definitions, the body of `TWICE` naming the macro `INC`, and a call of `TWICE`. -/
def nestedMacroSource : List Str :=
  ["INC: MACRO".toList, "ADD ONE".toList, "ENDMACRO".toList,
   "TWICE: MACRO".toList, "INC".toList, "INC".toList, "ENDMACRO".toList,
   "TWICE".toList]

/-! ## Inputs of the statements C21 to C30 -/

/-- A `SPACE` directive whose count is all digits and does not fit an `int`. -/
def spaceOverflowSource : List Str := ["SPACE 99999999999".toList]

/-- A macro definition whose terminator line carries a comment, and one more line. -/
def commentedTerminatorSource : List Str :=
  ["M: MACRO".toList, "ADD ONE".toList, "ENDMACRO ; end of M".toList, "LOAD X".toList]

/-- The same lines with a terminator line that carries no comment. -/
def plainTerminatorSource : List Str :=
  ["M: MACRO".toList, "ADD ONE".toList, "ENDMACRO".toList, "LOAD X".toList]

/-- A macro header whose keyword is written `Macro`. -/
def mixedCaseHeader : Str := "M: Macro X".toList

/-- A source whose only token is a comma. -/
def commaSource : List Str := [",".toList]

/-! ## Histories of a symbol table -/

/-- One call that changes a `SymbolTable`. -/
inductive TableOp where
  | addSymbol (name : Str) (address : Int)
  | defineSymbol (name : Str) (address : Int)
  | addPendingReference (address : Int) (symbol : Str) (line : Int)
deriving DecidableEq, Repr

/-- The table after one call. -/
def SymbolTable.applyOp (st : SymbolTable) : TableOp → SymbolTable
  | TableOp.addSymbol name address => (st.addSymbol name address).2
  | TableOp.defineSymbol name address => st.defineSymbol name address
  | TableOp.addPendingReference address symbol line => st.addPendingReference address symbol line

/-- The table reached from the empty table by the calls of the list, in order. -/
def SymbolTable.run (ops : List TableOp) : SymbolTable :=
  ops.foldl SymbolTable.applyOp SymbolTable.empty

/-- What one call does to the defined addresses, as the specification reads it:
`defineSymbol` defines the name at the address; `addSymbol` does so unless the name is
already defined; a pending reference defines nothing. -/
def definedStep (d : Str → Option Int) : TableOp → Str → Option Int
  | TableOp.addSymbol name address => fun k =>
    if k = name then (match d name with | some a => some a | none => some address) else d k
  | TableOp.defineSymbol name address => fun k => if k = name then some address else d k
  | TableOp.addPendingReference _ _ _ => d

/-- The address at which each name is defined after the calls of the list (`none`: the
name is not defined). -/
def definedAddress (ops : List TableOp) : Str → Option Int :=
  ops.foldl definedStep (fun _ => none)

/-- The table agrees with the defined addresses `d`: a name without entry or with an
undefined entry is not defined in `d`, an undefined entry holds the address -1, and a
defined entry holds the address of `d`. -/
def SymbolTable.agrees (st : SymbolTable) (d : Str → Option Int) : Prop :=
  ∀ name : Str,
    match mapFind name st.symbols with
    | none => d name = none
    | some s => if s.defined then d name = some s.address else d name = none ∧ s.address = -1

/-- A history with a forward reference to `X`, a definition of `Y`, a second `addSymbol`
of `Y` and a reference to `Y`. -/
def tableHistory : List TableOp :=
  [TableOp.addPendingReference 1 "X".toList 3, TableOp.addSymbol "Y".toList 7,
   TableOp.addSymbol "Y".toList 9, TableOp.addPendingReference 4 "Y".toList 5]

/-! ## `resolvePendingReferences` as a loop -/

/-- The body of the `for` loop of `SymbolTable::resolvePendingReferences`, on the pair of
the vector `resolutions` and the table itself (the method is not `const`). -/
def resolveStep (acc : List (Int × Int) × SymbolTable) (ref : PendingReference) :
    List (Int × Int) × SymbolTable :=
  if acc.2.isSymbolDefined ref.symbol_name then
    let symbol_address := acc.2.getSymbolAddress ref.symbol_name
    (acc.1 ++ [(ref.instruction_address, symbol_address)], acc.2)
  else acc

/-- `SymbolTable::resolvePendingReferences` with the table it leaves. -/
def SymbolTable.resolveLoop (st : SymbolTable) : List (Int × Int) × SymbolTable :=
  st.pending_references.foldl resolveStep ([], st)

/-- The pending references whose symbol is defined, each as the pair of its position and
the address of its symbol, in the order of the pending list. -/
def resolvedPairs (st : SymbolTable) : List (Int × Int) :=
  (st.pending_references.filter (fun ref => st.isSymbolDefined ref.symbol_name)).map
    (fun ref => (ref.instruction_address, st.getSymbolAddress ref.symbol_name))

/-! ## The opcode table -/

/-- The types of the 14 mnemonics: every type but `SPACE`, `CONST` and `INVALID`. -/
def isMnemonicType : InstructionType → Bool
  | InstructionType.SPACE => false
  | InstructionType.CONST => false
  | InstructionType.INVALID => false
  | _ => true

/-- The fixed table of the specification: each mnemonic with its opcode. -/
def opcodeTable : List (Str × Int) :=
  [("ADD".toList, 1), ("SUB".toList, 2), ("MUL".toList, 3), ("DIV".toList, 4),
   ("JMP".toList, 5), ("JMPN".toList, 6), ("JMPP".toList, 7), ("JMPZ".toList, 8),
   ("COPY".toList, 9), ("LOAD".toList, 10), ("STORE".toList, 11), ("INPUT".toList, 12),
   ("OUTPUT".toList, 13), ("STOP".toList, 14)]

/-- The word size of the specification: 1 for `STOP`, 3 for `COPY`, 2 otherwise. -/
def mnemonicSize (t : InstructionType) : Int :=
  if t = InstructionType.STOP then 1 else if t = InstructionType.COPY then 3 else 2

/-- An instruction of a mnemonic type carries the opcode and the size that
`getOpcode` and `getInstructionSize` give for its type. -/
def Instruction.tableOk (inst : Instruction) : Prop :=
  isMnemonicType inst.type = true →
    inst.opcode = getOpcode inst.type ∧ inst.size = getInstructionSize inst.type

/-- Every instruction of the parser's list is `tableOk`. -/
def Parser.tableOk (p : Parser) : Prop := ∀ inst ∈ p.instructions, inst.tableOk

/-- A source without the word `MACRO`: a comment line, a line that looks like the call of
a macro `FOO`, an empty line and an instruction. -/
def macroFreeSource : List Str :=
  ["; only a comment".toList, "  FOO A, B ; no such macro".toList, "".toList, "STOP".toList]

/-- The instruction that `Parser::parseDirective` builds for a directive token before it
looks at the operand: default-constructed, at `current_address`, of size 1. -/
def directiveInstruction (p : Parser) (token : Token) (type : InstructionType) : Instruction :=
  { type := type, opcode := -1, operands := [], size := 1, address := p.current_address,
    line_number := token.line_number }

/-- The token `SPACE` of line 1. -/
def spaceToken : Token := ⟨TokenType.DIRECTIVE, "SPACE".toList, 1⟩

/-- A parser whose lexer stands before ` 3` followed by the line `STOP`. -/
def countThenStopParser : Parser := Parser.new [" 3".toList, "STOP".toList]

/-- The lexer over the line `A : CONST 1`. -/
def strayColonLexer : Lexer := Lexer.new ["A : CONST 1".toList]

/-- The lexer over `A : CONST 1` after the word `A` was read. -/
def strayColonAfterWord : Lexer := { strayColonLexer with current_pos := 1 }

/-- The lexer over `A : CONST 1` with the cursor on the colon. -/
def strayColonAtColon : Lexer := { strayColonLexer with current_pos := 2 }

/-- A macro whose second parameter name is empty, called with an empty second argument. -/
def emptyNameSource : List Str :=
  ["M: MACRO A, ,B".toList, "COPY A, B".toList, "ENDMACRO".toList, "M X, ,Z".toList]

/-! ## The shape of what the parser appends -/

/-- A token as the lexer makes it: a DIRECTIVE token reads `SPACE` or `CONST`. -/
def Token.directiveOk (t : Token) : Prop :=
  t.type = TokenType.DIRECTIVE → t.value = "SPACE".toList ∨ t.value = "CONST".toList

/-- The token in the buffer of the lexer, when there is one, is as the lexer makes it. -/
def Lexer.bufferOk (lx : Lexer) : Prop :=
  lx.has_buffered_token = true → lx.buffered_token.directiveOk

/-- The shape of an instruction that the parser appends: its type is not `INVALID`; for a
mnemonic it has the opcode and size of its type and as many operands as the mnemonic
takes; a `CONST` has size 1 and at most one operand; a `SPACE` has either no operand and
size 1, or one operand that `isNumber` accepts and whose `parseNumber` is its size. -/
def Instruction.wellShaped (inst : Instruction) : Prop :=
  inst.type ≠ InstructionType.INVALID ∧
  (isMnemonicType inst.type = true →
    inst.opcode = getOpcode inst.type ∧ inst.size = getInstructionSize inst.type ∧
    inst.operands.length = expectedOperands inst.type) ∧
  (inst.type = InstructionType.CONST → inst.size = 1 ∧ inst.operands.length ≤ 1) ∧
  (inst.type = InstructionType.SPACE →
    (inst.operands = [] ∧ inst.size = 1) ∨
    ∃ op, inst.operands = [op] ∧ isNumber op = true ∧ parseNumber op = Except.ok inst.size)

/-- What the parse loop maintains about the shapes: the buffer of the lexer is as the lexer
makes it and every instruction of the list is `wellShaped`. -/
def Parser.shapeOk (p : Parser) : Prop :=
  p.lexer.bufferOk ∧ ∀ inst ∈ p.instructions, inst.wellShaped

/-! ## The words of an instruction -/

/-- The second table defines the same names at the same addresses as the first. -/
def SymbolTable.sameDefined (a b : SymbolTable) : Prop :=
  ∀ x : Str, b.isSymbolDefined x = a.isSymbolDefined x ∧
    (a.isSymbolDefined x = true → b.getSymbolAddress x = a.getSymbolAddress x)

/-- The value that `resolveOperand` returns for an operand with the symbol table `st`. -/
def valueOf (st : SymbolTable) (operand : Str) : Int :=
  ((CodeGenerator.new [] st).resolveOperand operand).1

/-- The words that `generateInstructionCode` appends for an instruction, the operands
being resolved with the symbol table `st`. -/
def wordsOf (st : SymbolTable) (inst : Instruction) : List Int :=
  match inst.type with
  | InstructionType.SPACE =>
    List.replicate
      (match inst.operands with
        | [] => (1 : Int)
        | op :: _ =>
          match stoi op 10 with
          | Except.ok v => v
          | Except.error _ => 1).toNat 0
  | InstructionType.CONST =>
    match inst.operands with
    | op :: _ => [valueOf st op]
    | [] => [0]
  | InstructionType.STOP => [inst.opcode]
  | InstructionType.COPY =>
    match inst.operands with
    | op0 :: op1 :: _ => [inst.opcode, valueOf st op0, valueOf st op1]
    | _ => [inst.opcode, -1, -1]
  | _ =>
    match inst.operands with
    | op :: _ => [inst.opcode, valueOf st op]
    | [] => [inst.opcode, -1]

/-- Every pending reference of the generator's table names a symbol that is not defined. -/
def CodeGenerator.pendingUndefined (g : CodeGenerator) : Prop :=
  ∀ ref ∈ g.symbol_table.pending_references,
    g.symbol_table.isSymbolDefined ref.symbol_name = false

/-- A `SPACE` with the count -3 followed by a labelled `STOP`. -/
def negativeSpaceSource : List Str := ["SPACE -3".toList, "L: STOP".toList]

/-- A `SPACE` with the count 0 followed by a `STOP`. -/
def zeroSpaceSource : List Str := ["SPACE 0".toList, "STOP".toList]

/-- Every symbol of the parser's table has as address the end of an initial part of the
instruction list (the value of `current_address` at some time). -/
def Parser.labelsAtBoundaries (p : Parser) : Prop :=
  ∀ e ∈ p.symbol_table.symbols, ∃ k : Nat, e.2.address = endAddress 0 (p.instructions.take k)

/-- A `SPACE` whose count is `INT_MAX`, standing at address 1, followed by a labelled
`STOP`. -/
def addressWrapSource : List Str :=
  ["STOP".toList, "SPACE 2147483647".toList, "L: STOP".toList]

/-- A `LOAD` without its operand, followed by a labelled `STOP`. -/
def labelAfterLoadSource : List Str := ["LOAD".toList, "A: STOP".toList]

/-- A `LOAD` without its operand, followed by two `STOP`s with the same label. -/
def labelTwiceAfterLoadSource : List Str :=
  ["LOAD".toList, "A: STOP".toList, "A: STOP".toList]

/-- A `LOAD` without its operand, followed by the line `FOO X`. -/
def unknownAfterLoadSource : List Str := ["LOAD".toList, "FOO X".toList]

/-- A `SECTION` without its name, followed by the line `FOO X`. -/
def unknownAfterSectionSource : List Str := ["SECTION".toList, "FOO X".toList]

/-- The generator `copyIntermediate` once `B`, and not `A`, is defined at 20. -/
def copySecondDefined : CodeGenerator :=
  { copyIntermediate with
    symbol_table := copyIntermediate.symbol_table.defineSymbol "B".toList 20 }

/-- The parser after a `SPACE` directive that has consumed the operand `next` as the
count `n`: the lexer is past the operand, one SPACE instruction with that operand and the
size `n` is appended at `current_address`, and `current_address += n` is done in `int`. -/
def Parser.afterSpaceCount (p : Parser) (token next : Token) (lx : Lexer) (n : Int) : Parser :=
  { p with
    lexer := { lx with has_buffered_token := false }
    instructions := p.instructions ++
      [{ directiveInstruction p token InstructionType.SPACE with
          size := n, operands := [next.value] }]
    current_address := wrapInt (p.current_address + n) }

/-- A `SPACE` whose count is `INT_MAX`, standing at address 1. -/
def spaceAtOneSource : List Str := ["STOP".toList, "SPACE 2147483647".toList]

/-- A `SPACE` whose count is a hexadecimal literal written with `+`. -/
def spacePlusHexSource : List Str := ["SPACE +0x10".toList]

/-! # Theorems -/

/-! ## Lemmas: layout -/

theorem wrapInt_of_range (x : Int) (h1 : INT_MIN ≤ x) (h2 : x ≤ INT_MAX) : wrapInt x = x := by
  simp only [INT_MIN, INT_MAX] at h1 h2
  unfold wrapInt
  norm_num
  omega

theorem wrapInt_range (x : Int) : INT_MIN ≤ wrapInt x ∧ wrapInt x ≤ INT_MAX := by
  simp only [INT_MIN, INT_MAX]
  unfold wrapInt
  norm_num
  omega

theorem endAddress_append (insts : List Instruction) (a : Int) (i : Instruction) :
    endAddress a (insts ++ [i]) = wrapInt (endAddress a insts + i.size) := by
  induction insts generalizing a with
  | nil => rfl
  | cons j rest ih => exact ih (wrapInt (a + j.size))

theorem chainedFrom_append (insts : List Instruction) (a : Int) (i : Instruction) :
    chainedFrom a (insts ++ [i]) ↔ chainedFrom a insts ∧ i.address = endAddress a insts := by
  induction insts generalizing a with
  | nil => simp [chainedFrom, endAddress]
  | cons j rest ih =>
    show (j.address = a ∧ chainedFrom (wrapInt (a + j.size)) (rest ++ [i])) ↔
      ((j.address = a ∧ chainedFrom (wrapInt (a + j.size)) rest) ∧
        i.address = endAddress (wrapInt (a + j.size)) rest)
    rw [ih]
    constructor
    · rintro ⟨h1, h2, h3⟩
      exact ⟨⟨h1, h2⟩, h3⟩
    · rintro ⟨⟨h1, h2⟩, h3⟩
      exact ⟨h1, h2, h3⟩

theorem totalSize_append (insts : List Instruction) (i : Instruction) :
    totalSize (insts ++ [i]) = totalSize insts + i.size := by
  simp [totalSize]

theorem chainedFrom_head (a : Int) (insts : List Instruction) (i0 : Instruction)
    (h : chainedFrom a insts) (h0 : insts.head? = some i0) : i0.address = a := by
  cases insts with
  | nil => simp at h0
  | cons j rest =>
    simp only [List.head?_cons, Option.some.injEq] at h0
    subst h0
    exact h.1

theorem chainedFrom_pair (insts : List Instruction) (a : Int) (h : chainedFrom a insts)
    (k : Nat) (x y : Instruction) (hx : insts.get? k = some x) (hy : insts.get? (k + 1) = some y) :
    y.address = wrapInt (x.address + x.size) := by
  induction insts generalizing a k with
  | nil => simp at hx
  | cons j rest ih =>
    cases k with
    | zero =>
      simp only [List.get?_cons_zero, Option.some.injEq] at hx
      subst hx
      cases rest with
      | nil => simp at hy
      | cons j2 rest2 =>
        simp only [List.get?_cons_succ, List.get?_cons_zero, Option.some.injEq] at hy
        subst hy
        have h2 := h.2.1
        rw [h2, h.1]
    | succ k =>
      simp only [List.get?_cons_succ] at hx hy
      exact ih (wrapInt (a + j.size)) h.2 k hx hy

theorem layoutOk_push (p : Parser) (i : Instruction) (h : p.layoutOk)
    (hi : i.address = p.current_address) : (p.pushInstruction i).layoutOk := by
  obtain ⟨h1, h2⟩ := h
  refine ⟨?_, ?_⟩
  · simp only [Parser.pushInstruction]
    rw [chainedFrom_append]
    exact ⟨h1, by rw [hi, h2]⟩
  · simp only [Parser.pushInstruction, endAddress_append, h2]

/-! ## Lemmas: what the parser's functions leave unchanged -/

theorem expectComma_frame (fuel : Nat) (token : Token) (i : Nat) (p p1 : Parser) (b : Bool)
    (h : p.expectComma fuel token i = Except.ok (p1, b)) : p.sameCore p1 := by
  unfold Parser.expectComma at h
  split at h
  · split at h
    · split at h
      · simp at h
      · split at h
        · simp only [Except.ok.injEq, Prod.mk.injEq] at h
          obtain ⟨rfl, _⟩ := h
          exact ⟨rfl, rfl, rfl⟩
        · simp only [Except.ok.injEq, Prod.mk.injEq] at h
          obtain ⟨rfl, _⟩ := h
          exact ⟨rfl, rfl, rfl⟩
    · simp only [Except.ok.injEq, Prod.mk.injEq] at h
      obtain ⟨rfl, _⟩ := h
      exact ⟨rfl, rfl, rfl⟩
  · simp only [Except.ok.injEq, Prod.mk.injEq] at h
    obtain ⟨rfl, _⟩ := h
    exact ⟨rfl, rfl, rfl⟩

theorem readOperand_frame (fuel : Nat) (token : Token) (p p1 : Parser) (inst : Instruction)
    (r : Option Instruction) (h : p.readOperand fuel token inst = Except.ok (p1, r)) :
    p.sameCore p1 ∧ ∀ inst1, r = some inst1 → inst.sameShape inst1 := by
  unfold Parser.readOperand at h
  split at h
  · split at h
    · simp at h
    · split at h
      · simp only [Except.ok.injEq, Prod.mk.injEq] at h
        obtain ⟨rfl, rfl⟩ := h
        refine ⟨⟨rfl, rfl, rfl⟩, ?_⟩
        intro inst1 h1
        simp only [Option.some.injEq] at h1
        subst h1
        exact ⟨rfl, rfl, rfl, rfl⟩
      · simp only [Except.ok.injEq, Prod.mk.injEq] at h
        obtain ⟨rfl, rfl⟩ := h
        exact ⟨⟨rfl, rfl, rfl⟩, by simp⟩
  · simp only [Except.ok.injEq, Prod.mk.injEq] at h
    obtain ⟨rfl, rfl⟩ := h
    exact ⟨⟨rfl, rfl, rfl⟩, by simp⟩

theorem sameCore_trans {p q r : Parser} (h1 : p.sameCore q) (h2 : q.sameCore r) :
    p.sameCore r :=
  ⟨h2.1.trans h1.1, h2.2.1.trans h1.2.1, h2.2.2.trans h1.2.2⟩

theorem sameShape_trans {a b c : Instruction} (h1 : a.sameShape b) (h2 : b.sameShape c) :
    a.sameShape c :=
  ⟨h2.1.trans h1.1, h2.2.1.trans h1.2.1, h2.2.2.1.trans h1.2.2.1, h2.2.2.2.trans h1.2.2.2⟩

theorem readOperands_frame (fuel : Nat) (token : Token) :
    ∀ (n i : Nat) (p : Parser) (inst : Instruction) (p1 : Parser) (r : Option Instruction),
      Parser.readOperands fuel token n i p inst = Except.ok (p1, r) →
      p.sameCore p1 ∧ ∀ inst1, r = some inst1 → inst.sameShape inst1 := by
  intro n
  induction n with
  | zero =>
    intro i p inst p1 r h
    simp only [Parser.readOperands, Except.ok.injEq, Prod.mk.injEq] at h
    obtain ⟨rfl, rfl⟩ := h
    refine ⟨⟨rfl, rfl, rfl⟩, ?_⟩
    intro inst1 h1
    simp only [Option.some.injEq] at h1
    subst h1
    exact ⟨rfl, rfl, rfl, rfl⟩
  | succ n ih =>
    intro i p inst p1 r h
    simp only [Parser.readOperands] at h
    split at h
    · simp at h
    · rename_i q hq
      simp only [Except.ok.injEq, Prod.mk.injEq] at h
      obtain ⟨rfl, rfl⟩ := h
      exact ⟨expectComma_frame fuel token i p _ _ hq, by simp⟩
    · rename_i q hq
      have hc := expectComma_frame fuel token i p _ _ hq
      split at h
      · simp at h
      · rename_i q2 hq2
        simp only [Except.ok.injEq, Prod.mk.injEq] at h
        obtain ⟨rfl, rfl⟩ := h
        exact ⟨sameCore_trans hc (readOperand_frame fuel token _ _ _ _ hq2).1, by simp⟩
      · rename_i q2 inst2 hq2
        have hr := readOperand_frame fuel token _ _ _ _ hq2
        have hrec := ih (i + 1) q2 inst2 p1 r h
        refine ⟨sameCore_trans hc (sameCore_trans hr.1 hrec.1), ?_⟩
        intro inst1 h1
        exact sameShape_trans (hr.2 inst2 rfl) (hrec.2 inst1 h1)

theorem parseInstruction_cases (fuel : Nat) (p p1 : Parser) (token : Token)
    (h : p.parseInstruction fuel token = Except.ok p1) :
    p.sameCore p1 ∨
    ∃ q inst, p.sameCore q ∧ p1 = q.pushInstruction inst ∧
      inst.address = p.current_address ∧
      inst.type = getInstructionType token.value ∧
      inst.opcode = getOpcode (getInstructionType token.value) ∧
      inst.size = getInstructionSize (getInstructionType token.value) ∧
      inst.type ≠ InstructionType.INVALID := by
  unfold Parser.parseInstruction at h
  simp only at h
  split at h
  · simp only [Except.ok.injEq] at h
    subst h
    exact Or.inl ⟨rfl, rfl, rfl⟩
  · rename_i hv
    split at h
    · simp at h
    · rename_i q hq
      simp only [Except.ok.injEq] at h
      subst h
      exact Or.inl (readOperands_frame fuel token _ _ _ _ _ _ hq).1
    · rename_i q inst2 hq
      simp only [Except.ok.injEq] at h
      subst h
      have hf := readOperands_frame fuel token _ _ _ _ _ _ hq
      obtain ⟨h1, h2, h3, h4⟩ := hf.2 inst2 rfl
      exact Or.inr ⟨q, inst2, hf.1, rfl, h1, h3, h4, h2, by rw [h3]; exact hv⟩

theorem parseDirective_cases (fuel : Nat) (p p1 : Parser) (token : Token)
    (h : p.parseDirective fuel token = Except.ok p1) :
    ∃ q inst, p.sameCore q ∧ p1 = q.pushInstruction inst ∧ inst.address = p.current_address := by
  unfold Parser.parseDirective at h
  simp only at h
  split at h
  · split at h
    · split at h
      · simp at h
      · split at h
        · split at h
          · simp at h
          · split at h
            · split at h
              · simp at h
              · simp only [Except.ok.injEq] at h
                exact ⟨_, _, by exact ⟨rfl, rfl, rfl⟩, h.symm, rfl⟩
            · simp only [Except.ok.injEq] at h
              exact ⟨_, _, by exact ⟨rfl, rfl, rfl⟩, h.symm, rfl⟩
        · simp only [Except.ok.injEq] at h
          exact ⟨_, _, by exact ⟨rfl, rfl, rfl⟩, h.symm, rfl⟩
    · simp only [Except.ok.injEq] at h
      exact ⟨_, _, by exact ⟨rfl, rfl, rfl⟩, h.symm, rfl⟩
  · split at h
    · split at h
      · split at h
        · simp at h
        · split at h
          · simp only [Except.ok.injEq] at h
            exact ⟨_, _, by exact ⟨rfl, rfl, rfl⟩, h.symm, rfl⟩
          · simp only [Except.ok.injEq] at h
            exact ⟨_, _, by exact ⟨rfl, rfl, rfl⟩, h.symm, rfl⟩
      · simp only [Except.ok.injEq] at h
        exact ⟨_, _, by exact ⟨rfl, rfl, rfl⟩, h.symm, rfl⟩
    · simp only [Except.ok.injEq] at h
      exact ⟨_, _, by exact ⟨rfl, rfl, rfl⟩, h.symm, rfl⟩

theorem parseSection_frame (fuel : Nat) (p p1 : Parser) (token : Token)
    (h : p.parseSection fuel token = Except.ok p1) : p.sameCore p1 := by
  unfold Parser.parseSection at h
  split at h
  · simp at h
  · simp only at h
    split at h
    · simp only [Except.ok.injEq] at h
      subst h
      exact ⟨rfl, rfl, rfl⟩
    · split at h
      · simp only [Except.ok.injEq] at h
        subst h
        exact ⟨rfl, rfl, rfl⟩
      · split at h
        · simp only [Except.ok.injEq] at h
          subst h
          exact ⟨rfl, rfl, rfl⟩
        · simp only [Except.ok.injEq] at h
          subst h
          exact ⟨rfl, rfl, rfl⟩

theorem layoutOk_of_sameCore {p q : Parser} (h : p.sameCore q) (hl : p.layoutOk) : q.layoutOk := by
  unfold Parser.layoutOk at *
  rw [h.1, h.2.1]
  exact hl

theorem parseLabel_layout (p : Parser) (token : Token) :
    (p.parseLabel token).instructions = p.instructions ∧
    (p.parseLabel token).current_address = p.current_address := by
  unfold Parser.parseLabel
  simp only
  split <;> exact ⟨rfl, rfl⟩

theorem dispatch_layoutOk (fuel : Nat) (p p1 : Parser) (token : Token) (hl : p.layoutOk)
    (h : p.dispatch fuel token = Except.ok p1) : p1.layoutOk := by
  unfold Parser.dispatch at h
  split at h
  · simp only [Except.ok.injEq] at h
    subst h
    have := parseLabel_layout p token
    unfold Parser.layoutOk at *
    rw [this.1, this.2]
    exact hl
  · rcases parseInstruction_cases fuel p p1 token h with hs | ⟨q, inst, hq, rfl, ha, _⟩
    · exact layoutOk_of_sameCore hs hl
    · exact layoutOk_push q inst (layoutOk_of_sameCore hq hl) (by rw [ha, hq.2.1])
  · obtain ⟨q, inst, hq, rfl, ha⟩ := parseDirective_cases fuel p p1 token h
    exact layoutOk_push q inst (layoutOk_of_sameCore hq hl) (by rw [ha, hq.2.1])
  · exact layoutOk_of_sameCore (parseSection_frame fuel p p1 token h) hl
  all_goals
    simp only [Except.ok.injEq] at h
    subst h
    exact hl

theorem parseLoop_layoutOk (fuel : Nat) :
    ∀ (n : Nat) (p p1 : Parser), p.layoutOk → Parser.parseLoop fuel n p = Except.ok p1 →
      p1.layoutOk := by
  intro n
  induction n with
  | zero =>
    intro p p1 _ h
    simp [Parser.parseLoop] at h
  | succ n ih =>
    intro p p1 hl h
    simp only [Parser.parseLoop] at h
    split at h
    · split at h
      · simp at h
      · rename_i token lx hq
        split at h
        · simp only [Except.ok.injEq] at h
          subst h
          exact hl
        · split at h
          · simp at h
          · rename_i p2 hd
            exact ih p2 p1 (dispatch_layoutOk fuel { p with lexer := lx } p2 token hl hd) h
    · simp only [Except.ok.injEq] at h
      subst h
      exact hl

theorem parse_layoutOk (fuel : Nat) (lines : List Str) (p : Parser)
    (h : (Parser.new lines).parse fuel = Except.ok p) : p.layoutOk := by
  unfold Parser.parse at h
  split at h
  · simp at h
  · rename_i p1 h1
    simp only [Except.ok.injEq] at h
    subst h
    have h0 : (Parser.new lines).layoutOk := by
      simp [Parser.layoutOk, Parser.new, chainedFrom, endAddress]
    exact parseLoop_layoutOk fuel fuel _ p1 h0 h1

/-! ## Lemmas: the symbol map -/

theorem mapFind_mapInsert_self {V : Type} (k : Str) (v : V) (m : List (Str × V)) :
    mapFind k (mapInsert k v m) = some v := by
  induction m with
  | nil => simp [mapInsert, mapFind]
  | cons e rest ih =>
    obtain ⟨k1, v1⟩ := e
    simp only [mapInsert]
    split
    · simp [mapFind]
    · rename_i hne
      split
      · simp [mapFind]
      · simp [mapFind, hne, ih]

theorem mapFind_mapInsert_other {V : Type} (k k2 : Str) (v : V) (m : List (Str × V))
    (hne : k2 ≠ k) : mapFind k2 (mapInsert k v m) = mapFind k2 m := by
  induction m with
  | nil => simp [mapInsert, mapFind, Ne.symm hne]
  | cons e rest ih =>
    obtain ⟨k1, v1⟩ := e
    simp only [mapInsert]
    split
    · rename_i h1
      subst h1
      simp [mapFind, Ne.symm hne]
    · split
      · simp [mapFind, Ne.symm hne]
      · simp [mapFind, ih]

theorem getSymbolAddress_defineSymbol (st : SymbolTable) (name : Str) (a : Int) :
    (st.defineSymbol name a).getSymbolAddress name = a ∧
    (st.defineSymbol name a).isSymbolDefined name = true := by
  simp [SymbolTable.defineSymbol, SymbolTable.getSymbolAddress, SymbolTable.isSymbolDefined,
    mapFind_mapInsert_self]

/-! ## Statements C1 to C10 -/

/-- C1: on the end-to-end scenario of the specification, preprocess, parse,
generateIntermediateCode and generateFinalCode give an empty error list, the instruction
addresses LOAD@0, ADD@2, STORE@4, STOP@6 (then CONST@7, CONST@8, SPACE@9), the defined
symbols INICIO=0, A=7, B=8, C=9, and the final object code 10 7 1 8 11 9 14 5 3 0. -/
theorem C1_end_to_end_scenario :
    (compile 64 endToEndSource).map (fun c =>
        (c.parser.errors,
         c.parser.instructions.map (fun i => (i.type, i.address)),
         ["INICIO".toList, "A".toList, "B".toList, "C".toList].map (fun n =>
           (c.parser.symbol_table.isSymbolDefined n, c.parser.symbol_table.getSymbolAddress n)),
         c.generator.object_code))
      = Except.ok
        ([],
         [(InstructionType.LOAD, 0), (InstructionType.ADD, 2), (InstructionType.STORE, 4),
          (InstructionType.STOP, 6), (InstructionType.CONST, 7), (InstructionType.CONST, 8),
          (InstructionType.SPACE, 9)],
         [(true, 0), (true, 7), (true, 8), (true, 9)],
         [10, 7, 1, 8, 11, 9, 14, 5, 3, 0]) := by
  rfl

/-- C2 fails on `STOP` / `SPACE 2147483647` / `L: STOP`: parse completes without an
error, the SPACE instruction stands at address 1 with size 2147483647, and the STOP after
it stands at address -2147483648, which is not 1 + 2147483647: `current_address` is an
`int` and the addition wrapped around. -/
theorem C2_address_sum_overflows :
    ((Parser.new addressWrapSource).parse 16).map
        (fun p => (p.errors, p.instructions.map (fun i => (i.type, i.address, i.size))))
      = Except.ok ([], [(InstructionType.STOP, 0, 1), (InstructionType.SPACE, 1, 2147483647),
          (InstructionType.STOP, -2147483648, 1)]) ∧
    (-2147483648 : Int) ≠ 1 + 2147483647 := by
  refine ⟨?_, by decide⟩
  rfl

/-- C2 (amended): whenever `Parser::parse` completes on a list of source lines, the first
instruction (if any) has address 0 and each instruction starts where the previous one
ends, the end being computed in `int`: `instruction[k+1].address` is
`instruction[k].address + instruction[k].size` stored in a 32-bit `int` (`wrapInt`), and
it is that sum itself whenever the sum lies in `INT_MIN .. INT_MAX`. -/
theorem C2_address_monotonicity (fuel : Nat) (lines : List Str) (p : Parser)
    (h : (Parser.new lines).parse fuel = Except.ok p) :
    (∀ i0, p.instructions.head? = some i0 → i0.address = 0) ∧
    ∀ (k : Nat) (x y : Instruction), p.instructions.get? k = some x →
      p.instructions.get? (k + 1) = some y →
      y.address = wrapInt (x.address + x.size) ∧
      (INT_MIN ≤ x.address + x.size → x.address + x.size ≤ INT_MAX →
        y.address = x.address + x.size) := by
  have hl := parse_layoutOk fuel lines p h
  refine ⟨fun i0 h0 => chainedFrom_head 0 _ i0 hl.1 h0, fun k x y hx hy => ?_⟩
  have hp := chainedFrom_pair _ 0 hl.1 k x y hx hy
  exact ⟨hp, fun h1 h2 => by rw [hp]; exact wrapInt_of_range _ h1 h2⟩

/-- C2 (amended) at the end-to-end scenario, on which `Parser::parse` completes. -/
theorem C2_address_monotonicity_witness :
    (Parser.new endToEndSource).parse 64 = Except.ok endToEndParsed ∧
    ((∀ i0, endToEndParsed.instructions.head? = some i0 → i0.address = 0) ∧
    ∀ (k : Nat) (x y : Instruction), endToEndParsed.instructions.get? k = some x →
      endToEndParsed.instructions.get? (k + 1) = some y →
      y.address = wrapInt (x.address + x.size) ∧
      (INT_MIN ≤ x.address + x.size → x.address + x.size ≤ INT_MAX →
        y.address = x.address + x.size)) :=
  ⟨by decide, C2_address_monotonicity 64 endToEndSource endToEndParsed (by decide)⟩

/-- C3 (failing input): for the program `SPACE 0x2` / `STOP` the parser gives the SPACE
size 2 and puts STOP at address 2, but `generateInstructionCode` reads the count with a
decimal `std::stoi`, emits no word for the SPACE, and writes STOP at index 0. -/
theorem C3_space_hex_count_mismatch :
    ((Parser.new spaceHexSource).parse 16).map (fun p =>
        (p.errors,
         p.instructions.map (fun i => (i.type, i.operands, i.size, i.address)),
         writePositions (CodeGenerator.new p.instructions p.symbol_table) p.instructions,
         (CodeGenerator.new p.instructions p.symbol_table).generateIntermediateCode.object_code))
      = Except.ok
        ([],
         [(InstructionType.SPACE, ["0x2".toList], 2, 0), (InstructionType.STOP, [], 1, 2)],
         [0, 0],
         [14]) := by
  rfl

/-- C4 fails on `LOAD` / `A: STOP`: the tokens are the INSTRUCTION `LOAD`, the LABEL `A`
and the INSTRUCTION `STOP`; the label is no duplicate and the STOP that follows it is
appended (at address 0), but `parseInstruction`, looking for the operand of `LOAD`, reads
the LABEL token, reports `Expected operand for LOAD` and returns without putting the token
back: `parseLabel` never sees it and `A` is not defined at all. -/
theorem C4_label_read_as_operand :
    (Lexer.nextTokens 16 3 (Lexer.new labelAfterLoadSource)).map
        (fun ts => ts.map (fun t => (t.type, t.value)))
      = Except.ok [(TokenType.INSTRUCTION, "LOAD".toList), (TokenType.LABEL, "A".toList),
          (TokenType.INSTRUCTION, "STOP".toList)] ∧
    ((Parser.new labelAfterLoadSource).parse 16).map
        (fun p => (p.errors, p.instructions.map (fun i => (i.type, i.address)),
          p.symbol_table.symbols, p.symbol_table.isSymbolDefined "A".toList))
      = Except.ok ([⟨ErrorType.SYNTACTIC, "Expected operand for LOAD".toList, 1⟩],
          [(InstructionType.STOP, 0)], [], false) := by
  refine ⟨rfl, rfl⟩

/-- C4 (amended): in every parser state, when the loop of `Parser::parse` reads a LABEL
token (the token is the one that the loop gets at the top of an iteration, not one that
`parseInstruction` or `parseSection` has taken while looking for an operand, a comma or a
section name) whose name is not yet defined, and the next token is an INSTRUCTION or
DIRECTIVE for which the parser appends an instruction `inst`, these are two consecutive
iterations of the loop, and afterwards the label is defined at `inst.address`, which is
the value `current_address` had when the label was read. -/
theorem C4_label_points_to_next (fuel n : Nat) (p p2 : Parser) (label next : Token)
    (lx1 lx2 : Lexer) (inst : Instruction)
    (hmore : p.lexer.hasMoreTokens = true)
    (hlabel : p.lexer.getNextToken fuel = Except.ok (label, lx1))
    (hty : label.type = TokenType.LABEL)
    (hnew : p.symbol_table.isSymbolDefined label.value = false)
    (hmore1 : lx1.hasMoreTokens = true)
    (hnext : lx1.getNextToken fuel = Except.ok (next, lx2))
    (hkind : next.type = TokenType.INSTRUCTION ∨ next.type = TokenType.DIRECTIVE)
    (hdisp : Parser.dispatch fuel
      { ({ p with lexer := lx1 } : Parser).parseLabel label with lexer := lx2 } next
        = Except.ok p2)
    (happ : p2.instructions = p.instructions ++ [inst]) :
    Parser.parseLoop fuel (n + 2) p = Parser.parseLoop fuel n p2 ∧
    p2.symbol_table.isSymbolDefined label.value = true ∧
    p2.symbol_table.getSymbolAddress label.value = inst.address ∧
    inst.address = p.current_address := by
  have hp1 : ({ p with lexer := lx1 } : Parser).parseLabel label =
      { p with lexer := lx1,
               symbol_table := p.symbol_table.defineSymbol label.value p.current_address } := by
    simp [Parser.parseLabel, hnew]
  rw [hp1] at hdisp
  refine ⟨?_, ?_⟩
  · have hk1 : next.type ≠ TokenType.END_OF_FILE := by
      rcases hkind with h | h <;> rw [h] <;> decide
    have e1 : Parser.parseLoop fuel (n + 2) p = Parser.parseLoop fuel (n + 1)
        { p with lexer := lx1,
                 symbol_table := p.symbol_table.defineSymbol label.value p.current_address } := by
      rw [Parser.parseLoop]
      simp only [hmore, if_true, hlabel, hty]
      simp [Parser.dispatch, hty, hp1]
    rw [e1, Parser.parseLoop]
    simp only [hmore1, if_true, hnext, hk1, if_false, hdisp]
  · have hcore : ∃ q i2, p2 = Parser.pushInstruction q i2 ∧
        q.instructions = p.instructions ∧ q.current_address = p.current_address ∧
        q.symbol_table = p.symbol_table.defineSymbol label.value p.current_address ∧
        i2.address = p.current_address := by
      unfold Parser.dispatch at hdisp
      rcases hkind with hk | hk
      · simp only [hk] at hdisp
        rcases parseInstruction_cases fuel _ p2 next hdisp with hs | ⟨q, i2, hq, rfl, ha, _⟩
        · have := hs.1
          simp only at this
          rw [this] at happ
          simp at happ
        · exact ⟨q, i2, rfl, hq.1, hq.2.1, hq.2.2, ha⟩
      · simp only [hk] at hdisp
        obtain ⟨q, i2, hq, rfl, ha⟩ := parseDirective_cases fuel _ p2 next hdisp
        exact ⟨q, i2, rfl, hq.1, hq.2.1, hq.2.2, ha⟩
    obtain ⟨q, i2, rfl, hq1, hq2, hq3, ha⟩ := hcore
    simp only [Parser.pushInstruction, hq1] at happ
    have hi : i2 = inst := by simpa using happ
    subst hi
    have hd := getSymbolAddress_defineSymbol p.symbol_table label.value p.current_address
    simp only [Parser.pushInstruction, hq3]
    exact ⟨hd.2, by rw [hd.1, ha], ha⟩

/-- C4 (amended) on the program `A: STOP`: the loop reads the label `A`, then STOP is
appended at 0. -/
theorem C4_label_points_to_next_witness :
    (labelledStopLabel.1.type = TokenType.LABEL ∧
      labelledStopNext.1.type = TokenType.INSTRUCTION ∧
      labelledStopAfter.instructions = [labelledStopInst]) ∧
    (Parser.parseLoop 8 2 (Parser.new labelledStopSource) =
        Parser.parseLoop 8 0 labelledStopAfter ∧
      labelledStopAfter.symbol_table.isSymbolDefined labelledStopLabel.1.value = true ∧
      labelledStopAfter.symbol_table.getSymbolAddress labelledStopLabel.1.value
        = labelledStopInst.address ∧
      labelledStopInst.address = (Parser.new labelledStopSource).current_address) :=
  ⟨by decide,
   C4_label_points_to_next 8 0 (Parser.new labelledStopSource) labelledStopAfter
    labelledStopLabel.1 labelledStopNext.1 labelledStopLabel.2 labelledStopNext.2
    labelledStopInst
    (by decide) (by rfl) (by decide) (by decide) (by decide) (by rfl) (by decide) (by rfl)
    (by rfl)⟩

/-- C5 (failing input): `COPY A, B` is generated with `A` and `B` undefined, which gives
`9 -1 -1` and records both pending references at position 1, because the second
`resolveOperand` runs before the first operand word is pushed. After `A` is defined at 10
and `B` at 20, `generateFinalCode` gives `9 20 -1` and not `9 10 20`. -/
theorem C5_copy_backpatch_positions :
    copyIntermediate.object_code = [9, -1, -1] ∧
    copyIntermediate.symbol_table.pending_references.map
        (fun r => (r.instruction_address, r.symbol_name)) = [(1, "A".toList), (1, "B".toList)] ∧
    copyDefinedLater.symbol_table.resolvePendingReferences = [(1, 10), (1, 20)] ∧
    copyDefinedLater.generateFinalCode.object_code = [9, 20, -1] := by
  decide

/-- C6 (failing input): for the program `COPY A, B` / `A: STOP`, in which `B` is never
defined, the only pending reference is recorded for `B` at position 1, while the
placeholder of `B` is written at index 2; the final object code holds 3, the address of
`A`, at position 1. -/
theorem C6_pending_position_not_placeholder :
    (compile 16 copyUndefinedSource).map (fun c =>
        (c.generator.symbol_table.pending_references.map
           (fun r => (r.instruction_address, r.symbol_name)),
         c.generator.symbol_table.isSymbolDefined "B".toList,
         c.intermediate,
         c.generator.object_code,
         c.generator.object_code.get? 1))
      = Except.ok ([(1, "B".toList)], false, [9, 3, -1, 14], [9, 3, -1, 14], some 3) := by
  rfl

/-! ## Lemmas: the parser's symbol table holds defined symbols only -/

theorem mem_mapInsert {V : Type} (k : Str) (v : V) (m : List (Str × V)) (e : Str × V)
    (h : e ∈ mapInsert k v m) : e = (k, v) ∨ e ∈ m := by
  induction m with
  | nil =>
    simp only [mapInsert, List.mem_singleton] at h
    exact Or.inl h
  | cons x rest ih =>
    obtain ⟨k1, v1⟩ := x
    simp only [mapInsert] at h
    split at h
    · rcases List.mem_cons.mp h with h1 | h1
      · exact Or.inl h1
      · exact Or.inr (List.mem_cons_of_mem _ h1)
    · split at h
      · rcases List.mem_cons.mp h with h1 | h1
        · exact Or.inl h1
        · exact Or.inr h1
      · rcases List.mem_cons.mp h with h1 | h1
        · exact Or.inr (by rw [h1]; exact List.mem_cons_self _ _)
        · rcases ih h1 with h2 | h2
          · exact Or.inl h2
          · exact Or.inr (List.mem_cons_of_mem _ h2)

theorem parseLabel_allDefined (p : Parser) (token : Token)
    (h : ∀ e ∈ p.symbol_table.symbols, e.2.defined = true) :
    ∀ e ∈ (p.parseLabel token).symbol_table.symbols, e.2.defined = true := by
  unfold Parser.parseLabel
  simp only
  split
  · exact h
  · intro e he
    simp only [SymbolTable.defineSymbol] at he
    rcases mem_mapInsert _ _ _ e he with h1 | h1
    · rw [h1]
    · exact h e h1

theorem dispatch_allDefined (fuel : Nat) (p p1 : Parser) (token : Token)
    (h : ∀ e ∈ p.symbol_table.symbols, e.2.defined = true)
    (hd : p.dispatch fuel token = Except.ok p1) :
    ∀ e ∈ p1.symbol_table.symbols, e.2.defined = true := by
  unfold Parser.dispatch at hd
  split at hd
  · simp only [Except.ok.injEq] at hd
    subst hd
    exact parseLabel_allDefined p token h
  · rcases parseInstruction_cases fuel p p1 token hd with hs | ⟨q, inst, hq, rfl, _⟩
    · rw [hs.2.2]; exact h
    · simp only [Parser.pushInstruction]
      rw [hq.2.2]; exact h
  · obtain ⟨q, inst, hq, rfl, _⟩ := parseDirective_cases fuel p p1 token hd
    simp only [Parser.pushInstruction]
    rw [hq.2.2]; exact h
  · rw [(parseSection_frame fuel p p1 token hd).2.2]; exact h
  all_goals
    simp only [Except.ok.injEq] at hd
    subst hd
    exact h

theorem parseLoop_allDefined (fuel : Nat) :
    ∀ (n : Nat) (p p1 : Parser), (∀ e ∈ p.symbol_table.symbols, e.2.defined = true) →
      Parser.parseLoop fuel n p = Except.ok p1 →
      ∀ e ∈ p1.symbol_table.symbols, e.2.defined = true := by
  intro n
  induction n with
  | zero =>
    intro p p1 _ h
    simp [Parser.parseLoop] at h
  | succ n ih =>
    intro p p1 hl h
    simp only [Parser.parseLoop] at h
    split at h
    · split at h
      · simp at h
      · rename_i token lx hq
        split at h
        · simp only [Except.ok.injEq] at h
          subst h
          exact hl
        · split at h
          · simp at h
          · rename_i p2 hd
            exact ih p2 p1 (dispatch_allDefined fuel { p with lexer := lx } p2 token hl hd) h
    · simp only [Except.ok.injEq] at h
      subst h
      exact hl

/-- C7 (failing input): on the one-line program `LOAD X`, `Parser::parse` completes
with the instruction appended, an empty symbol table and an empty error list. This is so
for every program: the parser enters only labels in the symbol table, all of them
defined, so at the end of `Parser::parse` no symbol is undefined and the sweep reports
nothing (the result is that of the token loop). -/
theorem C7_undefined_operand_not_reported :
    ((Parser.new loadUndefinedSource).parse 16).map (fun p =>
        (p.errors,
         p.instructions.map (fun i => (i.type, i.operands)),
         p.symbol_table.symbols,
         p.symbol_table.getUndefinedSymbols))
      = Except.ok ([], [(InstructionType.LOAD, ["X".toList])], [], []) ∧
    ∀ (fuel : Nat) (lines : List Str) (p : Parser),
      (Parser.new lines).parse fuel = Except.ok p →
      p.symbol_table.getUndefinedSymbols = [] ∧
      Parser.parseLoop fuel fuel (Parser.new lines) = Except.ok p := by
  refine ⟨rfl, ?_⟩
  intro fuel lines p h
  unfold Parser.parse at h
  split at h
  · simp at h
  · rename_i p1 h1
    simp only [Except.ok.injEq] at h
    have hall := parseLoop_allDefined fuel fuel _ p1
      (by intro e he; simp [Parser.new, SymbolTable.empty] at he) h1
    have hnone : p1.symbol_table.getUndefinedSymbols = [] := by
      unfold SymbolTable.getUndefinedSymbols
      rw [List.map_eq_nil_iff, List.filter_eq_nil_iff]
      intro e he
      simp [hall e he]
    have hsweep : p1.sweep = p1 := by
      unfold Parser.sweep
      rw [hnone]
      simp
    rw [hsweep] at h
    subst h
    exact ⟨hnone, h1⟩

/-! ## Lemmas: `std::stoi` on numerals -/

theorem digitsValue_append (base : Nat) (ds : Str) (c : Char) :
    digitsValue base (ds ++ [c]) = digitsValue base ds * base + digitVal c := by
  simp [digitsValue, List.foldl_append]

theorem digitsValue_eq_numeralValue (base : Nat) (ds : Str) :
    digitsValue base ds = numeralValue base ds := by
  induction ds using List.reverseRecOn with
  | nil => simp [digitsValue, numeralValue]
  | append_singleton ds c ih =>
    rw [digitsValue_append, ih]
    simp [numeralValue, Nat.ofDigits_cons]
    ring

theorem takeWhile_of_all (f : Char → Bool) (s : Str) (h : ∀ c ∈ s, f c = true) :
    s.takeWhile f = s := by
  induction s with
  | nil => rfl
  | cons c r ih =>
    have hc := h c (List.mem_cons_self c r)
    simp only [List.takeWhile, hc]
    rw [ih (fun d hd => h d (List.mem_cons_of_mem c hd))]

theorem startsWith_mem (s p : Str) (h : startsWith s p = true) : ∀ c ∈ p, c ∈ s := by
  induction p generalizing s with
  | nil => intro c hc; simp at hc
  | cons d p ih =>
    cases s with
    | nil => simp [startsWith] at h
    | cons e s =>
      simp only [startsWith, Bool.and_eq_true, beq_iff_eq] at h
      intro c hc
      rcases List.mem_cons.mp hc with rfl | hc
      · rw [h.1]; exact List.mem_cons_self _ _
      · exact List.mem_cons_of_mem _ (ih s h.2 c hc)

theorem findFrom0_mem (p s : Str) (k : Nat) (h : findFrom0 p s = some k) :
    ∀ c ∈ p, c ∈ s := by
  induction s generalizing k with
  | nil =>
    simp only [findFrom0] at h
    split at h
    · rename_i hp
      intro c hc
      rw [List.isEmpty_iff] at hp
      rw [hp] at hc
      simp at hc
    · simp at h
  | cons e s ih =>
    simp only [findFrom0] at h
    split at h
    · rename_i hs
      exact startsWith_mem _ _ hs
    · cases hf : findFrom0 p s with
      | none => simp [hf] at h
      | some j =>
        intro c hc
        exact List.mem_cons_of_mem _ (ih j hf c hc)

theorem containsStr_false_of_not_mem (s p : Str) (c : Char) (hc : c ∈ p) (hs : c ∉ s) :
    containsStr s p = false := by
  cases h : containsStr s p with
  | false => rfl
  | true =>
    exfalso
    unfold containsStr find at h
    simp only [Nat.zero_le, if_true, List.drop_zero] at h
    cases hf : findFrom0 p s with
    | none => simp [hf] at h
    | some j => exact hs (findFrom0_mem p s j hf c hc)

theorem stoi_of_parts (s rest ds : Str) (base : Nat) (neg : Bool)
    (hsp : s.dropWhile isSpace = s) (hsg : stoiSign s = (neg, rest))
    (hds : (stoiPrefix base rest).takeWhile (isDigitOf base) = ds) (hne : ds ≠ []) :
    stoi s base =
      if (if neg then -(numeralValue base ds : Int) else (numeralValue base ds : Int)) < INT_MIN ∨
          INT_MAX < (if neg then -(numeralValue base ds : Int) else (numeralValue base ds : Int))
      then Except.error Fault.out_of_range
      else Except.ok (if neg then -(numeralValue base ds : Int) else (numeralValue base ds : Int)) := by
  unfold stoi
  simp only [hsp, hsg, hds, digitsValue_eq_numeralValue]
  have : ds.isEmpty = false := by
    cases ds with
    | nil => exact absurd rfl hne
    | cons _ _ => rfl
  simp [this]

theorem isSpace_false_of_isDigit (c : Char) (h : isDigit c = true) : isSpace c = false := by
  simp only [isDigit, Bool.and_eq_true, decide_eq_true_eq] at h
  simp only [isSpace, Bool.or_eq_false_iff, decide_eq_false_iff_not, Bool.and_eq_false_iff]
  omega

theorem stoiSign_of_isDigit (c : Char) (r : Str) (h : isDigit c = true) :
    stoiSign (c :: r) = (false, c :: r) := by
  unfold stoiSign
  split
  · rename_i heq
    simp only [List.cons.injEq] at heq
    rw [heq.1] at h
    exact absurd h (by decide)
  · rename_i heq
    simp only [List.cons.injEq] at heq
    rw [heq.1] at h
    exact absurd h (by decide)
  · rfl

theorem dropWhile_isSpace_of_isDigit (c : Char) (r : Str) (h : isDigit c = true) :
    (c :: r).dropWhile isSpace = c :: r := by
  simp [List.dropWhile, isSpace_false_of_isDigit c h]

theorem stoi_decimal_unsigned (ds : Str) (hne : ds ≠ []) (hd : ∀ c ∈ ds, isDigit c = true)
    (hr : (numeralValue 10 ds : Int) ≤ INT_MAX) :
    stoi ds 10 = Except.ok (numeralValue 10 ds : Int) := by
  cases ds with
  | nil => exact absurd rfl hne
  | cons c r =>
    have hc := hd c (List.mem_cons_self c r)
    have htw : (stoiPrefix 10 (c :: r)).takeWhile (isDigitOf 10) = c :: r := by
      have : isDigitOf 10 = isDigit := by funext x; simp [isDigitOf]
      simp only [stoiPrefix, this]
      exact takeWhile_of_all isDigit _ hd
    rw [stoi_of_parts (c :: r) (c :: r) (c :: r) 10 false (dropWhile_isSpace_of_isDigit c r hc)
      (stoiSign_of_isDigit c r hc) htw hne]
    have h0 : (0 : Int) ≤ (numeralValue 10 (c :: r) : Int) := Int.natCast_nonneg _
    simp only [INT_MIN, INT_MAX] at *
    rw [if_neg (by simp only [Bool.false_eq_true, if_false]; omega)]
    simp

theorem stoi_decimal_plus (ds : Str) (hne : ds ≠ []) (hd : ∀ c ∈ ds, isDigit c = true)
    (hr : (numeralValue 10 ds : Int) ≤ INT_MAX) :
    stoi ('+' :: ds) 10 = Except.ok (numeralValue 10 ds : Int) := by
  have htw : (stoiPrefix 10 ds).takeWhile (isDigitOf 10) = ds := by
    have : isDigitOf 10 = isDigit := by funext x; simp [isDigitOf]
    simp only [stoiPrefix, this]
    exact takeWhile_of_all isDigit _ hd
  rw [stoi_of_parts ('+' :: ds) ds ds 10 false (by simp [List.dropWhile, isSpace]) rfl htw hne]
  have h0 : (0 : Int) ≤ (numeralValue 10 ds : Int) := Int.natCast_nonneg _
  simp only [INT_MIN, INT_MAX] at *
  rw [if_neg (by simp only [Bool.false_eq_true, if_false]; omega)]
  simp

theorem stoi_decimal_minus (ds : Str) (hne : ds ≠ []) (hd : ∀ c ∈ ds, isDigit c = true)
    (hr : INT_MIN ≤ -(numeralValue 10 ds : Int)) :
    stoi ('-' :: ds) 10 = Except.ok (-(numeralValue 10 ds : Int)) := by
  have htw : (stoiPrefix 10 ds).takeWhile (isDigitOf 10) = ds := by
    have : isDigitOf 10 = isDigit := by funext x; simp [isDigitOf]
    simp only [stoiPrefix, this]
    exact takeWhile_of_all isDigit _ hd
  rw [stoi_of_parts ('-' :: ds) ds ds 10 true (by simp [List.dropWhile, isSpace]) rfl htw hne]
  have h0 : (0 : Int) ≤ (numeralValue 10 ds : Int) := Int.natCast_nonneg _
  simp only [INT_MIN, INT_MAX] at *
  rw [if_neg (by simp only [if_true]; omega)]
  simp

theorem isDigitOf_sixteen : isDigitOf 16 = isXDigit := by
  funext x
  simp [isDigitOf]

theorem stoiPrefix_hex (x : Char) (hs : Str) (hx : x = 'x' ∨ x = 'X') (hne : hs ≠ [])
    (hd : ∀ c ∈ hs, isXDigit c = true) : stoiPrefix 16 ('0' :: x :: hs) = hs := by
  cases hs with
  | nil => exact absurd rfl hne
  | cons h r =>
    have hh := hd h (List.mem_cons_self h r)
    rcases hx with rfl | rfl <;> simp [stoiPrefix, hh]

theorem stoi_hex (pre : Str) (neg : Bool) (x : Char) (hs : Str)
    (hpre : stoiSign (pre ++ '0' :: x :: hs) = (neg, '0' :: x :: hs))
    (hsp : (pre ++ '0' :: x :: hs).dropWhile isSpace = pre ++ '0' :: x :: hs)
    (hx : x = 'x' ∨ x = 'X') (hne : hs ≠ []) (hd : ∀ c ∈ hs, isXDigit c = true)
    (hr : INT_MIN ≤ (if neg then -(numeralValue 16 hs : Int) else (numeralValue 16 hs : Int)) ∧
      (if neg then -(numeralValue 16 hs : Int) else (numeralValue 16 hs : Int)) ≤ INT_MAX) :
    stoi (pre ++ '0' :: x :: hs) 16 =
      Except.ok (if neg then -(numeralValue 16 hs : Int) else (numeralValue 16 hs : Int)) := by
  have htw : (stoiPrefix 16 ('0' :: x :: hs)).takeWhile (isDigitOf 16) = hs := by
    rw [stoiPrefix_hex x hs hx hne hd, isDigitOf_sixteen]
    exact takeWhile_of_all isXDigit _ hd
  rw [stoi_of_parts _ _ hs 16 neg hsp hpre htw hne]
  rw [if_neg (by omega)]

theorem containsStr_hex_head (x : Char) (hs : Str) (hx : x = 'x' ∨ x = 'X') :
    (containsStr ('0' :: x :: hs) "0X".toList || containsStr ('0' :: x :: hs) "0x".toList)
      = true := by
  rcases hx with rfl | rfl
  · have : containsStr ('0' :: 'x' :: hs) "0x".toList = true := by
      simp [containsStr, find, findFrom0, startsWith]
    rw [this, Bool.or_true]
  · have : containsStr ('0' :: 'X' :: hs) "0X".toList = true := by
      simp [containsStr, find, findFrom0, startsWith]
    rw [this, Bool.true_or]

theorem containsStr_cons (c : Char) (s p : Str) (h : containsStr s p = true) :
    containsStr (c :: s) p = true := by
  unfold containsStr find at *
  simp only [Nat.zero_le, if_true, List.drop_zero] at *
  simp only [findFrom0]
  split
  · simp
  · cases hf : findFrom0 p s with
    | none => simp [hf] at h
    | some j => simp

theorem not_mem_of_all_isDigit (ds : Str) (c : Char) (hd : ∀ d ∈ ds, isDigit d = true)
    (hc : isDigit c = false) : c ∉ ds := by
  intro hm
  rw [hd c hm] at hc
  exact absurd hc (by decide)

theorem containsStr_decimal (pre ds : Str) (hd : ∀ d ∈ ds, isDigit d = true)
    (hpre : pre = [] ∨ pre = ['+'] ∨ pre = ['-']) :
    (containsStr (pre ++ ds) "0X".toList || containsStr (pre ++ ds) "0x".toList) = false := by
  have hx : 'x' ∉ pre ++ ds := by
    have := not_mem_of_all_isDigit ds 'x' hd (by decide)
    rcases hpre with rfl | rfl | rfl <;> simp [this]
  have hX : 'X' ∉ pre ++ ds := by
    have := not_mem_of_all_isDigit ds 'X' hd (by decide)
    rcases hpre with rfl | rfl | rfl <;> simp [this]
  rw [containsStr_false_of_not_mem _ "0X".toList 'X' (by decide) hX,
    containsStr_false_of_not_mem _ "0x".toList 'x' (by decide) hx]
  rfl

theorem looksNumeric_of_isDigit (ds : Str) (hne : ds ≠ []) (hd : ∀ d ∈ ds, isDigit d = true) :
    looksNumeric ds = true := by
  cases ds with
  | nil => exact absurd rfl hne
  | cons c r => simp [looksNumeric, hd c (List.mem_cons_self c r)]

theorem resolveOperand_numeric (g : CodeGenerator) (operand : Str)
    (h : looksNumeric operand = true) :
    g.resolveOperand operand =
      (match stoi operand
          (if (containsStr operand "0X".toList || containsStr operand "0x".toList) = true
            then 16 else 10) with
        | Except.ok v => v
        | Except.error _ => 0, g) := by
  unfold CodeGenerator.resolveOperand
  simp only [h, if_true]
  split
  · split <;> rfl
  · split <;> rfl

theorem resolveOperand_decimal (g : CodeGenerator) (pre ds : Str) (v : Int)
    (hpre : pre = [] ∨ pre = ['+'] ∨ pre = ['-'])
    (hne : ds ≠ []) (hd : ∀ d ∈ ds, isDigit d = true)
    (hs : stoi (pre ++ ds) 10 = Except.ok v) : g.resolveOperand (pre ++ ds) = (v, g) := by
  have hl : looksNumeric (pre ++ ds) = true := by
    rcases hpre with rfl | rfl | rfl
    · exact looksNumeric_of_isDigit ds hne hd
    · rfl
    · rfl
  rw [resolveOperand_numeric g _ hl, containsStr_decimal pre ds hd hpre]
  simp [hs]

theorem resolveOperand_hex (g : CodeGenerator) (pre : Str) (x : Char) (hs : Str) (v : Int)
    (hpre : pre = [] ∨ pre = ['+'] ∨ pre = ['-']) (hx : x = 'x' ∨ x = 'X')
    (hst : stoi (pre ++ '0' :: x :: hs) 16 = Except.ok v) :
    g.resolveOperand (pre ++ '0' :: x :: hs) = (v, g) := by
  have hl : looksNumeric (pre ++ '0' :: x :: hs) = true := by
    rcases hpre with rfl | rfl | rfl <;> rfl
  have hc : (containsStr (pre ++ '0' :: x :: hs) "0X".toList ||
      containsStr (pre ++ '0' :: x :: hs) "0x".toList) = true := by
    have h0 := containsStr_hex_head x hs hx
    rcases hpre with rfl | rfl | rfl
    · exact h0
    · rcases Bool.or_eq_true_iff.mp h0 with h | h
      · exact Bool.or_eq_true_iff.mpr (Or.inl (containsStr_cons '+' _ _ h))
      · exact Bool.or_eq_true_iff.mpr (Or.inr (containsStr_cons '+' _ _ h))
    · rcases Bool.or_eq_true_iff.mp h0 with h | h
      · exact Bool.or_eq_true_iff.mpr (Or.inl (containsStr_cons '-' _ _ h))
      · exact Bool.or_eq_true_iff.mpr (Or.inr (containsStr_cons '-' _ _ h))
  rw [resolveOperand_numeric g _ hl, hc]
  simp [hst]

/-- C8: `resolveOperand` returns the value of every well-formed literal and leaves the
generator (symbol table, pending references, object code) as it was: for every non-empty
run of decimal digits `ds`, alone or after `+` or `-`, whose signed value fits an `int`,
the result is that value; for every `0x`/`0X` followed by a non-empty run of hexadecimal
digits, alone or after a sign, whose value fits an `int`, the result is the base-16 value;
`"10"` gives 10, `"0x1F"` gives 31 and `"-5"` gives -5. -/
theorem C8_resolveOperand_numeric_literals (g : CodeGenerator) :
    (∀ ds : Str, ds ≠ [] → (∀ c ∈ ds, isDigit c = true) →
      ((numeralValue 10 ds : Int) ≤ INT_MAX →
        g.resolveOperand ds = ((numeralValue 10 ds : Int), g) ∧
        g.resolveOperand ('+' :: ds) = ((numeralValue 10 ds : Int), g)) ∧
      (INT_MIN ≤ -(numeralValue 10 ds : Int) →
        g.resolveOperand ('-' :: ds) = (-(numeralValue 10 ds : Int), g))) ∧
    (∀ (x : Char) (hs : Str), x = 'x' ∨ x = 'X' → hs ≠ [] → (∀ c ∈ hs, isXDigit c = true) →
      ((numeralValue 16 hs : Int) ≤ INT_MAX →
        g.resolveOperand ('0' :: x :: hs) = ((numeralValue 16 hs : Int), g) ∧
        g.resolveOperand ('+' :: '0' :: x :: hs) = ((numeralValue 16 hs : Int), g)) ∧
      (INT_MIN ≤ -(numeralValue 16 hs : Int) →
        g.resolveOperand ('-' :: '0' :: x :: hs) = (-(numeralValue 16 hs : Int), g))) ∧
    g.resolveOperand "10".toList = (10, g) ∧
    g.resolveOperand "0x1F".toList = (31, g) ∧
    g.resolveOperand "-5".toList = (-5, g) := by
  refine ⟨?_, ?_, rfl, rfl, rfl⟩
  · intro ds hne hd
    refine ⟨fun hr => ⟨?_, ?_⟩, fun hr => ?_⟩
    · exact resolveOperand_decimal g [] ds _ (Or.inl rfl) hne hd
        (stoi_decimal_unsigned ds hne hd hr)
    · exact resolveOperand_decimal g ['+'] ds _ (Or.inr (Or.inl rfl)) hne hd
        (stoi_decimal_plus ds hne hd hr)
    · exact resolveOperand_decimal g ['-'] ds _ (Or.inr (Or.inr rfl)) hne hd
        (stoi_decimal_minus ds hne hd hr)
  · intro x hs hx hne hd
    have h0 : (0 : Int) ≤ (numeralValue 16 hs : Int) := Int.natCast_nonneg _
    refine ⟨fun hr => ⟨?_, ?_⟩, fun hr => ?_⟩
    · have := stoi_hex [] false x hs (stoiSign_of_isDigit '0' _ (by decide))
        (dropWhile_isSpace_of_isDigit '0' _ (by decide)) hx hne hd
        (by simp only [INT_MIN, INT_MAX] at *; simp only [Bool.false_eq_true, if_false]; omega)
      exact resolveOperand_hex g [] x hs _ (Or.inl rfl) hx this
    · have := stoi_hex ['+'] false x hs rfl (by simp [List.dropWhile, isSpace]) hx hne hd
        (by simp only [INT_MIN, INT_MAX] at *; simp only [Bool.false_eq_true, if_false]; omega)
      exact resolveOperand_hex g ['+'] x hs _ (Or.inr (Or.inl rfl)) hx this
    · have := stoi_hex ['-'] true x hs rfl (by simp [List.dropWhile, isSpace]) hx hne hd
        (by simp only [INT_MIN, INT_MAX] at *; simp only [if_true]; omega)
      exact resolveOperand_hex g ['-'] x hs _ (Or.inr (Or.inr rfl)) hx this

/-! ## Lemmas: `resolveOperand` on malformed numerals -/

theorem takeWhile_append_of_head (f : Char → Bool) (ds rest : Str)
    (hd : ∀ c ∈ ds, f c = true) (hr : ∀ c, rest.head? = some c → f c = false) :
    (ds ++ rest).takeWhile f = ds := by
  induction ds with
  | nil =>
    cases rest with
    | nil => rfl
    | cons c r => simp [List.takeWhile, hr c rfl]
  | cons c r ih =>
    have hc := hd c (List.mem_cons_self c r)
    rw [List.cons_append, List.takeWhile_cons, if_pos hc,
      ih (fun d hd2 => hd d (List.mem_cons_of_mem c hd2))]

theorem isXDigit_of_isDigit (c : Char) (h : isDigit c = true) : isXDigit c = true := by
  simp [isXDigit, h]

theorem stoi_sign_no_digit (sign : Char) (rest : Str) (base : Nat)
    (hs : sign = '+' ∨ sign = '-')
    (hr : ∀ c, rest.head? = some c → isDigitOf base c = false) :
    stoi (sign :: rest) base = Except.error Fault.invalid_argument := by
  have hsp : (sign :: rest).dropWhile isSpace = sign :: rest := by
    rcases hs with rfl | rfl <;> simp [List.dropWhile, isSpace]
  have hsg : (stoiSign (sign :: rest)).2 = rest := by
    rcases hs with rfl | rfl <;> rfl
  have hpre : stoiPrefix base rest = rest := by
    unfold stoiPrefix
    split
    · rename_i hb
      split
      · rename_i x h r
        have := hr '0' rfl
        rw [hb] at this
        exact absurd this (by decide)
      · rfl
    · rfl
  have htw : rest.takeWhile (isDigitOf base) = [] := by
    cases rest with
    | nil => rfl
    | cons c r => simp [List.takeWhile, hr c rfl]
  unfold stoi
  simp only [hsp, hsg, hpre, htw]
  rfl

theorem isDigitOf_false_of_not_isXDigit (base : Nat) (c : Char) (hc : isXDigit c = false) :
    isDigitOf base c = false := by
  unfold isDigitOf
  split
  · exact hc
  · cases hd : isDigit c with
    | false => rfl
    | true => rw [isXDigit_of_isDigit c hd] at hc; exact absurd hc (by decide)

theorem stoi_decimal_leading (ds rest : Str) (hne : ds ≠ []) (hd : ∀ c ∈ ds, isDigit c = true)
    (hrest : ∀ c, rest.head? = some c → isDigit c = false)
    (hr : (numeralValue 10 ds : Int) ≤ INT_MAX) :
    stoi (ds ++ rest) 10 = Except.ok (numeralValue 10 ds : Int) := by
  cases ds with
  | nil => exact absurd rfl hne
  | cons c r =>
    have hc := hd c (List.mem_cons_self c r)
    have htw : (stoiPrefix 10 (c :: r ++ rest)).takeWhile (isDigitOf 10) = c :: r := by
      have : isDigitOf 10 = isDigit := by funext x; simp [isDigitOf]
      simp only [stoiPrefix, this]
      exact takeWhile_append_of_head isDigit _ _ hd hrest
    rw [stoi_of_parts (c :: r ++ rest) (c :: r ++ rest) (c :: r) 10 false
      (dropWhile_isSpace_of_isDigit c _ hc) (stoiSign_of_isDigit c _ hc) htw hne]
    have h0 : (0 : Int) ≤ (numeralValue 10 (c :: r) : Int) := Int.natCast_nonneg _
    simp only [INT_MIN, INT_MAX] at *
    rw [if_neg (by simp only [Bool.false_eq_true, if_false]; omega)]
    simp

theorem stoi_decimal_overflow (ds : Str) (hne : ds ≠ []) (hd : ∀ c ∈ ds, isDigit c = true)
    (hr : INT_MAX < (numeralValue 10 ds : Int)) :
    stoi ds 10 = Except.error Fault.out_of_range := by
  cases ds with
  | nil => exact absurd rfl hne
  | cons c r =>
    have hc := hd c (List.mem_cons_self c r)
    have htw : (stoiPrefix 10 (c :: r)).takeWhile (isDigitOf 10) = c :: r := by
      have : isDigitOf 10 = isDigit := by funext x; simp [isDigitOf]
      simp only [stoiPrefix, this]
      exact takeWhile_of_all isDigit _ hd
    rw [stoi_of_parts (c :: r) (c :: r) (c :: r) 10 false (dropWhile_isSpace_of_isDigit c r hc)
      (stoiSign_of_isDigit c r hc) htw hne]
    rw [if_pos (Or.inr (by simpa using hr))]

/-- C9 (counterexample): `"12a"` starts with a digit and is neither a well-formed decimal
nor a well-formed hexadecimal literal, yet `resolveOperand` returns 12 for it; so it is
not true that every malformed numeric-looking operand resolves to 0. -/
theorem C9_malformed_literal_not_zero :
    ¬ (∀ (g : CodeGenerator) (operand : Str), looksNumeric operand = true →
        isDecimalLiteral operand = false → isHexLiteral operand = false →
        (g.resolveOperand operand).1 = 0) := by
  intro h
  have h12 := h (CodeGenerator.new [] SymbolTable.empty) "12a".toList (by decide) (by decide)
    (by decide)
  exact absurd h12 (by decide)

/-- C9 (amended): for every numeric-looking operand `resolveOperand` returns a value and
leaves the generator as it was (no fault escapes, no pending reference is recorded). The
value is 0 when a leading sign is followed by nothing or by a character that is not a
hexadecimal digit, when a leading sign is followed by a character that is not a decimal
digit and the operand holds no `0x`/`0X`, and when a run of decimal digits is too large
for an `int`. When the operand is a run of decimal digits followed by other text (and
holds no `0x`/`0X`), the value is that of the leading digits and the rest is ignored:
`"12a"` gives 12, while `"+"`, `"-x"` and `"99999999999"` give 0. An operand that holds
`0x`/`0X` is converted in base 16, in which the letters `a` to `f` are digits: `"-a0x1"`
gives -160 and `"+f0x"` gives 240, although the sign is followed by no decimal digit. -/
theorem C9_resolveOperand_malformed (g : CodeGenerator) :
    (∀ operand : Str, looksNumeric operand = true → (g.resolveOperand operand).2 = g) ∧
    (∀ (sign : Char) (rest : Str), sign = '+' ∨ sign = '-' →
      (∀ c, rest.head? = some c → isXDigit c = false) →
      g.resolveOperand (sign :: rest) = (0, g)) ∧
    (∀ (sign : Char) (rest : Str), sign = '+' ∨ sign = '-' →
      (∀ c, rest.head? = some c → isDigit c = false) →
      containsStr (sign :: rest) "0X".toList = false →
      containsStr (sign :: rest) "0x".toList = false →
      g.resolveOperand (sign :: rest) = (0, g)) ∧
    (∀ ds : Str, ds ≠ [] → (∀ c ∈ ds, isDigit c = true) →
      INT_MAX < (numeralValue 10 ds : Int) → g.resolveOperand ds = (0, g)) ∧
    (∀ ds rest : Str, ds ≠ [] → (∀ c ∈ ds, isDigit c = true) →
      (∀ c, rest.head? = some c → isDigit c = false) →
      containsStr (ds ++ rest) "0X".toList = false →
      containsStr (ds ++ rest) "0x".toList = false →
      (numeralValue 10 ds : Int) ≤ INT_MAX →
      g.resolveOperand (ds ++ rest) = ((numeralValue 10 ds : Int), g)) ∧
    g.resolveOperand "12a".toList = (12, g) ∧
    g.resolveOperand "+".toList = (0, g) ∧
    g.resolveOperand "-x".toList = (0, g) ∧
    g.resolveOperand "99999999999".toList = (0, g) ∧
    g.resolveOperand "-a0x1".toList = (-160, g) ∧
    g.resolveOperand "+f0x".toList = (240, g) := by
  refine ⟨?_, ?_, ?_, ?_, ?_, rfl, rfl, rfl, rfl, rfl, rfl⟩
  · intro operand h
    rw [resolveOperand_numeric g operand h]
  · intro sign rest hs hr
    have hl : looksNumeric (sign :: rest) = true := by
      rcases hs with rfl | rfl <;> rfl
    rw [resolveOperand_numeric g _ hl, stoi_sign_no_digit sign rest _ hs
      (fun c hc => isDigitOf_false_of_not_isXDigit _ c (hr c hc))]
  · intro sign rest hs hr hX hx
    have hl : looksNumeric (sign :: rest) = true := by
      rcases hs with rfl | rfl <;> rfl
    rw [resolveOperand_numeric g _ hl, hX, hx]
    simp only [Bool.or_self, Bool.false_eq_true, if_false]
    rw [stoi_sign_no_digit sign rest 10 hs (fun c hc => by simpa [isDigitOf] using hr c hc)]
  · intro ds hne hd hr
    have h := resolveOperand_numeric g ds (looksNumeric_of_isDigit ds hne hd)
    have hc := containsStr_decimal [] ds hd (Or.inl rfl)
    simp only [List.nil_append] at hc
    rw [h, hc]
    simp only [Bool.false_eq_true, if_false]
    rw [stoi_decimal_overflow ds hne hd hr]
  · intro ds rest hne hd hrest hX hx hr
    have hl : looksNumeric (ds ++ rest) = true := by
      cases ds with
      | nil => exact absurd rfl hne
      | cons c r => simp [looksNumeric, hd c (List.mem_cons_self c r)]
    rw [resolveOperand_numeric g _ hl, hX, hx]
    simp only [Bool.or_self, Bool.false_eq_true, if_false]
    rw [stoi_decimal_leading ds rest hne hd hrest hr]

/-! ## Lemmas: `std::string::find` and the scan of `replaceParameters` -/

theorem startsWith_eq (t p : Str) (h : startsWith t p = true) : t = p ++ t.drop p.length := by
  induction p generalizing t with
  | nil => simp
  | cons d p ih =>
    cases t with
    | nil => simp [startsWith] at h
    | cons e t =>
      simp only [startsWith, Bool.and_eq_true, beq_iff_eq] at h
      simp only [List.length_cons, List.drop_succ_cons, List.cons_append, List.cons.injEq]
      exact ⟨h.1, ih t h.2⟩

theorem findFrom0_spec (p s : Str) (k : Nat) (h : findFrom0 p s = some k) :
    k ≤ s.length ∧ startsWith (s.drop k) p = true := by
  induction s generalizing k with
  | nil =>
    simp only [findFrom0] at h
    split at h
    · rename_i hp
      simp only [Option.some.injEq] at h
      subst h
      rw [List.isEmpty_iff] at hp
      subst hp
      exact ⟨Nat.le_refl _, rfl⟩
    · simp at h
  | cons e s ih =>
    simp only [findFrom0] at h
    split at h
    · rename_i hs
      simp only [Option.some.injEq] at h
      subst h
      exact ⟨Nat.zero_le _, hs⟩
    · cases hf : findFrom0 p s with
      | none => simp [hf] at h
      | some j =>
        simp only [hf, Option.map_some', Option.some.injEq] at h
        subst h
        have := ih j hf
        exact ⟨by simp only [List.length_cons]; omega, by simpa using this.2⟩

theorem find_spec (s p : Str) (pos q : Nat) (h : find s p pos = some q) :
    pos ≤ q ∧ q ≤ s.length ∧ startsWith (s.drop q) p = true := by
  unfold find at h
  split at h
  · rename_i hle
    cases hf : findFrom0 p (s.drop pos) with
    | none => simp [hf] at h
    | some j =>
      simp only [hf, Option.map_some', Option.some.injEq] at h
      subst h
      have := findFrom0_spec p _ j hf
      refine ⟨Nat.le_add_left _ _, ?_, ?_⟩
      · have h1 := this.1
        simp only [List.length_drop] at h1
        omega
      · have h2 := this.2
        rw [List.drop_drop] at h2
        rw [Nat.add_comm]
        exact h2
  · simp at h

theorem find_none_of_gt (s p : Str) (pos : Nat) (h : s.length < pos) : find s p pos = none := by
  unfold find
  rw [if_neg (by omega)]

theorem isWordBoundary_spec (s : Str) (q n : Nat) (hq : q ≤ s.length)
    (h : isWordBoundary s q n = true) : wholeWordAt (s.take q) (s.drop (q + n)) := by
  unfold isWordBoundary at h
  have hB : boundaryBefore s q = true := by
    cases hb : boundaryBefore s q with
    | true => rfl
    | false => simp [hb] at h
  rw [hB] at h
  refine ⟨?_, ?_⟩
  · intro c hc
    rw [List.getLast?_take] at hc
    split at hc
    · simp at hc
    · rename_i hq0
      have hlt : q - 1 < s.length := by omega
      have hget : s[q - 1]? = some s[q - 1] := List.getElem?_eq_getElem hlt
      rw [hget] at hc
      simp only [Option.or_some, Option.some.injEq] at hc
      have hpos : q > 0 := by omega
      unfold boundaryBefore at hB
      simp only [hpos, if_true, List.get?_eq_getElem?, hget] at hB
      subst hc
      cases hb : isIdentChar s[q - 1] with
      | false => rfl
      | true => simp [hb] at hB
  · intro c hc
    rw [List.head?_drop] at hc
    have hlt : q + n < s.length := by
      by_contra hge
      rw [List.getElem?_eq_none (by omega)] at hc
      simp at hc
    cases hb : isIdentChar c with
    | false => rfl
    | true => simp [hlt, hc, hb] at h

theorem take_split (s : Str) (pos q : Nat) (h : pos ≤ q) :
    s.take q = s.take pos ++ (s.take q).drop pos := by
  have h1 : (s.take q).take pos = s.take pos := by
    rw [List.take_take, Nat.min_eq_left h]
  rw [← h1, List.take_append_drop]

theorem drop_split (s : Str) (pos q : Nat) (h : pos ≤ q) :
    s.drop pos = (s.take q).drop pos ++ s.drop q := by
  conv => lhs; rw [← List.take_append_drop q s]
  rw [List.drop_append_eq_append_drop]
  by_cases hq : q ≤ s.length
  · have : pos - (s.take q).length = 0 := by
      rw [List.length_take, Nat.min_eq_left hq]
      omega
    rw [this, List.drop_zero]
  · have : s.drop q = [] := List.drop_eq_nil_of_le (by omega)
    rw [this]
    simp

theorem scan_shift (param arg d m t out : Str)
    (h : WholeWordScan param arg (d ++ m) t out) : WholeWordScan param arg d (m ++ t) out := by
  generalize hs : d ++ m = sc at h
  cases h with
  | finish =>
    subst hs
    rw [List.append_assoc]
    exact WholeWordScan.finish d (m ++ t)
  | replace _ mid post _ hw hrest =>
    subst hs
    have e : m ++ (mid ++ param ++ post) = (m ++ mid) ++ param ++ post := by
      simp [List.append_assoc]
    rw [e]
    apply WholeWordScan.replace
    · rw [← List.append_assoc]; exact hw
    · rw [← List.append_assoc]; exact hrest

theorem replaceLoop_scan (param arg : Str) :
    ∀ (fuel : Nat) (result : Str) (pos : Nat) (out : Str),
      replaceLoop param arg fuel result pos = Except.ok out →
      WholeWordScan param arg (result.take pos) (result.drop pos) out := by
  intro fuel
  induction fuel with
  | zero =>
    intro result pos out h
    simp [replaceLoop] at h
  | succ fuel ih =>
    intro result pos out h
    simp only [replaceLoop] at h
    cases hf : find result param pos with
    | none =>
      simp only [hf, Except.ok.injEq] at h
      subst h
      have := @WholeWordScan.finish param arg (result.take pos) (result.drop pos)
      rw [List.take_append_drop] at this
      exact this
    | some pos1 =>
      simp only [hf] at h
      obtain ⟨hle, hlen, hsw⟩ := find_spec result param pos pos1 hf
      have hocc : result.drop pos1 = param ++ result.drop (pos1 + param.length) := by
        have := startsWith_eq _ _ hsw
        rw [List.drop_drop] at this
        exact this
      split at h
      · rename_i hb
        have hw := isWordBoundary_spec result pos1 param.length hlen hb
        have hrec := ih _ _ out h
        have hlt : (result.take pos1).length = pos1 := by
          rw [List.length_take, Nat.min_eq_left hlen]
        have e1 : (replaceAt result pos1 param.length arg).take (pos1 + arg.length)
            = result.take pos1 ++ arg := by
          unfold replaceAt
          exact List.take_left' (by rw [List.length_append, hlt])
        have e2 : (replaceAt result pos1 param.length arg).drop (pos1 + arg.length)
            = result.drop (pos1 + param.length) := by
          unfold replaceAt
          exact List.drop_left' (by rw [List.length_append, hlt])
        rw [e1, e2, take_split result pos pos1 hle] at hrec
        rw [take_split result pos pos1 hle] at hw
        have e3 : result.drop pos =
            (result.take pos1).drop pos ++ param ++ result.drop (pos1 + param.length) := by
          rw [drop_split result pos pos1 hle, hocc, List.append_assoc]
        rw [e3]
        exact WholeWordScan.replace _ _ _ _ hw hrec
      · have hrec := ih _ _ out h
        rw [take_split result pos (pos1 + 1) (by omega)] at hrec
        have := scan_shift param arg _ _ _ _ hrec
        rw [← drop_split result pos (pos1 + 1) (by omega)] at this
        exact this

theorem replaceParameters_single (fuel : Nat) (line param arg : Str) :
    replaceParameters fuel line [param] [arg] = replaceLoop param arg fuel line 0 := by
  simp only [replaceParameters]
  cases replaceLoop param arg fuel line 0 <;> rfl

theorem scan_unchanged (param arg line out : Str) (h : WholeWordScan param arg [] line out)
    (hno : noWholeWordOccurrence param line) : out = line := by
  generalize hs : ([] : Str) = sc at h
  cases h with
  | finish =>
    subst hs
    rfl
  | replace _ mid post _ hw hrest =>
    subst hs
    exact absurd hw (hno mid post rfl)

theorem replaceLoop_total (param arg : Str) (hp : param ≠ []) :
    ∀ (fuel : Nat) (result : Str) (pos : Nat), result.length + 1 - pos < fuel →
      ∃ out, replaceLoop param arg fuel result pos = Except.ok out := by
  intro fuel
  induction fuel with
  | zero => intro result pos h; omega
  | succ fuel ih =>
    intro result pos h
    simp only [replaceLoop]
    cases hf : find result param pos with
    | none => exact ⟨result, rfl⟩
    | some pos1 =>
      obtain ⟨hle, hlen, hsw⟩ := find_spec result param pos pos1 hf
      have hocc := startsWith_eq _ _ hsw
      have hn : 0 < param.length := List.length_pos.mpr hp
      have hfit : pos1 + param.length ≤ result.length := by
        have := congrArg List.length hocc
        simp only [List.length_drop, List.length_append] at this
        omega
      simp only
      split
      · apply ih
        unfold replaceAt
        simp only [List.length_append, List.length_take, List.length_drop]
        omega
      · apply ih
        omega

theorem getLast?_append_of_ne_nil (a m : Str) (h : m ≠ []) :
    (a ++ m).getLast? = m.getLast? := by
  rw [List.getLast?_append]
  cases hm : m.getLast? with
  | none => rw [List.getLast?_eq_none_iff] at hm; exact absurd hm h
  | some c => rfl

theorem replaceLoop_subst (param arg : Str) (hid : isIdentifierName param) :
    ∀ (fuel : Nat) (w : Str) (pos : Nat) (out a b r : Str),
      w = a ++ r → a.length ≤ pos →
      (a = b ∨ ∀ c, r.head? = some c → isIdentChar c = false) →
      replaceLoop param arg fuel w pos = Except.ok out →
      ∃ tail, out = a ++ tail ∧ WholeWordSubst param arg b r tail := by
  intro fuel
  induction fuel with
  | zero =>
    intro w pos out a b r _ _ _ h
    simp [replaceLoop] at h
  | succ fuel ih =>
    intro w pos out a b r hw hpos hctx h
    simp only [replaceLoop] at h
    cases hf : find w param pos with
    | none =>
      simp only [hf, Except.ok.injEq] at h
      exact ⟨r, by rw [← h, hw], WholeWordSubst.finish b r⟩
    | some q =>
      simp only [hf] at h
      obtain ⟨hle, hlen, hsw⟩ := find_spec w param pos q hf
      split at h
      · rename_i hb
        have hwb := isWordBoundary_spec w q param.length hlen hb
        obtain ⟨j, hj⟩ : ∃ j, q = a.length + j := ⟨q - a.length, by omega⟩
        have hdropq : w.drop q = r.drop j := by
          rw [hw, hj, List.drop_append]
        have htakeq : w.take q = a ++ r.take j := by
          rw [hw, hj, List.take_append]
        have hdropqn : w.drop (q + param.length) = r.drop (j + param.length) := by
          rw [hw, hj, Nat.add_assoc, List.drop_append]
        have hocc : r.drop j = param ++ r.drop (j + param.length) := by
          have := startsWith_eq _ _ hsw
          rw [List.drop_drop, hdropq, hdropqn] at this
          exact this
        have hr : r = r.take j ++ param ++ r.drop (j + param.length) := by
          have := (List.take_append_drop j r).symm
          rw [hocc, ← List.append_assoc] at this
          exact this
        rw [htakeq, hdropqn] at hwb
        have hwb2 : wholeWordAt (b ++ r.take j) (r.drop (j + param.length)) := by
          refine ⟨?_, hwb.2⟩
          by_cases hmid : r.take j = []
          · rcases hctx with hab | hhead
            · rw [← hab]; exact hwb.1
            · exfalso
              obtain ⟨c, pr, hpc⟩ : ∃ c pr, param = c :: pr := by
                cases hp : param with
                | nil => exact absurd hp hid.1
                | cons c pr => exact ⟨c, pr, rfl⟩
              have hrc : r.head? = some c := by
                rw [hr, hmid, hpc]
                rfl
              have h1 := hhead c hrc
              have h2 := hid.2 c (by rw [hpc]; exact List.mem_cons_self _ _)
              rw [h1] at h2
              exact absurd h2 (by decide)
          · have h1 := hwb.1
            rw [getLast?_append_of_ne_nil _ _ hmid] at h1
            rw [getLast?_append_of_ne_nil _ _ hmid]
            exact h1
        have hw2 : replaceAt w q param.length arg
            = (a ++ r.take j ++ arg) ++ r.drop (j + param.length) := by
          unfold replaceAt
          rw [htakeq, hdropqn]
        have hlen2 : (a ++ r.take j ++ arg).length ≤ q + arg.length := by
          have : (r.take j).length ≤ j := by
            rw [List.length_take]; exact Nat.min_le_left _ _
          simp only [List.length_append]
          omega
        obtain ⟨tail, ht, hs⟩ := ih _ _ out (a ++ r.take j ++ arg) (b ++ r.take j ++ param)
          (r.drop (j + param.length)) hw2 hlen2 (Or.inr hwb.2) h
        refine ⟨r.take j ++ arg ++ tail, by rw [ht]; simp [List.append_assoc], ?_⟩
        have := @WholeWordSubst.replace param arg b (r.take j)
          (r.drop (j + param.length)) tail hwb2 hs
        rw [← hr] at this
        exact this
      · exact ih w (q + 1) out a b r hw (by omega) hctx h

theorem wholeWordSubst_cases (param arg left todo out : Str)
    (h : WholeWordSubst param arg left todo out) :
    out = todo ∨ ∃ mid post tail, todo = mid ++ param ++ post ∧ out = mid ++ arg ++ tail ∧
      wholeWordAt (left ++ mid) post ∧ WholeWordSubst param arg (left ++ mid ++ param) post tail := by
  cases h with
  | finish => exact Or.inl rfl
  | replace _ mid post tail hw hrest => exact Or.inr ⟨mid, post, tail, rfl, rfl, hw, hrest⟩

/-- C10 fails for the parameter name `&A`, the argument `5+` and the body line `&A&A`:
`replaceParameters` returns `5+5+`. The second occurrence of `&A` stands immediately after
the letter `A` in the body line, so it is not at a whole-word boundary there, and it is
replaced all the same: when the scan reaches it, the first occurrence has been replaced
and the character before it in the scanned text is `+`. No substitution of whole-word
occurrences of the body line gives `5+5+`. -/
theorem C10_occurrence_after_letter_replaced :
    replaceParameters 8 "&A&A".toList ["&A".toList] ["5+".toList] = Except.ok "5+5+".toList ∧
    ¬ wholeWordAt "&A".toList [] ∧
    ¬ WholeWordSubst "&A".toList "5+".toList [] "&A&A".toList "5+5+".toList := by
  have hww : ¬ wholeWordAt "&A".toList [] := by
    intro h
    have := h.1 'A' rfl
    exact absurd this (by decide)
  refine ⟨rfl, hww, fun h => ?_⟩
  rcases wholeWordSubst_cases _ _ _ _ _ h with h1 | ⟨mid, post, tail, h1, h2, _, h4⟩
  · exact absurd h1 (by decide)
  · cases mid with
    | cons c m =>
      simp at h1 h2
      rw [← h1.1] at h2
      exact absurd h2.1 (by decide)
    | nil =>
      simp at h1 h2
      subst h1 h2
      rcases wholeWordSubst_cases _ _ _ _ _ h4 with h5 | ⟨mid, post, tail, h5, h6, h7, _⟩
      · exact absurd h5 (by decide)
      · cases mid with
        | cons c m =>
          simp at h5 h6
          rw [← h5.1] at h6
          exact absurd h6.1 (by decide)
        | nil =>
          simp at h5
          subst h5
          exact hww (by simpa using h7)
/-- C10 (amended): for every body line, parameter name and argument, whenever
`replaceParameters` returns `out`, `out` comes from the line by a left-to-right scan that
replaces only occurrences of the parameter name whose neighbouring characters (the one
immediately before and the one immediately after, where they exist) are neither
alphanumeric nor an underscore, in the text as it is scanned (arguments already inserted
stand before the occurrence); when the parameter name is written like an identifier
(not empty, alphanumerics and underscores only), these are the neighbouring characters
in the body line itself. When no occurrence in the body line is at a whole-word boundary
(each is embedded in a longer identifier), the line is returned unchanged. For a
non-empty parameter name the function does return (fuel `line.length + 2` is enough).
With parameter `SUM`, the text `SUMX` is unchanged, and in `ADD SUMX, SUM` only the
second occurrence is replaced. -/
theorem C10_whole_word_replacement (line param arg : Str) :
    (∀ (fuel : Nat) (out : Str), replaceParameters fuel line [param] [arg] = Except.ok out →
      WholeWordScan param arg [] line out ∧
      (isIdentifierName param → WholeWordSubst param arg [] line out) ∧
      (noWholeWordOccurrence param line → out = line)) ∧
    (param ≠ [] →
      ∃ out, replaceParameters (line.length + 2) line [param] [arg] = Except.ok out) ∧
    (param ≠ [] → noWholeWordOccurrence param line →
      replaceParameters (line.length + 2) line [param] [arg] = Except.ok line) ∧
    replaceParameters 6 "SUMX".toList ["SUM".toList] [arg] = Except.ok "SUMX".toList ∧
    replaceParameters 15 "ADD SUMX, SUM".toList ["SUM".toList] ["N1".toList]
      = Except.ok "ADD SUMX, N1".toList := by
  have hscan : ∀ (fuel : Nat) (out : Str),
      replaceParameters fuel line [param] [arg] = Except.ok out →
      WholeWordScan param arg [] line out := by
    intro fuel out h
    rw [replaceParameters_single] at h
    have := replaceLoop_scan param arg fuel line 0 out h
    simpa using this
  have htotal : param ≠ [] →
      ∃ out, replaceParameters (line.length + 2) line [param] [arg] = Except.ok out := by
    intro hp
    rw [replaceParameters_single]
    exact replaceLoop_total param arg hp _ line 0 (by omega)
  refine ⟨?_, htotal, ?_, rfl, rfl⟩
  · intro fuel out h
    refine ⟨hscan fuel out h, ?_,
      fun hno => scan_unchanged param arg line out (hscan fuel out h) hno⟩
    intro hid
    rw [replaceParameters_single] at h
    obtain ⟨tail, ht, hs⟩ := replaceLoop_subst param arg hid fuel line 0 out [] [] line rfl
      (Nat.le_refl _) (Or.inl rfl) h
    rw [ht]
    exact hs
  · intro hp hno
    obtain ⟨out, hout⟩ := htotal hp
    rw [hout, scan_unchanged param arg line out (hscan _ out hout) hno]

/-! ## Lemmas: the lexer's one-token buffer -/

theorem classifyWord_buffer (b : Token) (h : Bool) (lx : Lexer) (w : Str) :
    Lexer.classifyWord { lx with buffered_token := b, has_buffered_token := h } w =
      ((lx.classifyWord w).1,
        { (lx.classifyWord w).2 with buffered_token := b, has_buffered_token := h }) := by
  simp only [Lexer.classifyWord]
  repeat' split
  all_goals rfl

theorem readNextToken_buffer (b : Token) (h : Bool) :
    ∀ (fuel : Nat) (lx : Lexer),
      Lexer.readNextToken fuel { lx with buffered_token := b, has_buffered_token := h } =
        match Lexer.readNextToken fuel lx with
        | Except.ok (t, l) => Except.ok (t, { l with buffered_token := b, has_buffered_token := h })
        | Except.error e => Except.error e := by
  intro fuel
  induction fuel with
  | zero => intro lx; rfl
  | succ fuel ih =>
    intro lx
    rw [Lexer.readNextToken, Lexer.readNextToken]
    have hsk : Lexer.skipWhitespace { lx with buffered_token := b, has_buffered_token := h } =
        { lx.skipWhitespace with buffered_token := b, has_buffered_token := h } := rfl
    have hrw : Lexer.readWord { lx.skipWhitespace with buffered_token := b, has_buffered_token := h } =
        (lx.skipWhitespace.readWord.1,
          { lx.skipWhitespace.readWord.2 with buffered_token := b, has_buffered_token := h }) := rfl
    simp only [hsk, hrw, classifyWord_buffer]
    by_cases h1 : lx.current_line < lx.lines.length
    · simp only [h1, if_true]
      by_cases h2 : lx.current_pos ≥ lx.current_line_text.length
      · simp only [h2, if_true]
        by_cases h3 : lx.current_line + 1 < lx.lines.length
        · simp only [h3, if_true]
          exact ih { lx with current_line := lx.current_line + 1,
                             current_line_text := lx.lines.getD (lx.current_line + 1) [],
                             current_pos := 0 }
        · simp only [h3, if_false]
          exact ih { lx with current_line := lx.current_line + 1 }
      · simp only [h2, if_false]
        by_cases h4 : lx.skipWhitespace.current_pos ≥ lx.skipWhitespace.current_line_text.length
        · simp only [h4, if_true]
          exact ih lx.skipWhitespace
        · simp only [h4, if_false]
          by_cases h5 : lx.skipWhitespace.current_line_text.get? lx.skipWhitespace.current_pos
              = some ';'
          · simp only [h5, if_true]
            exact ih { lx.skipWhitespace with
              current_pos := lx.skipWhitespace.current_line_text.length }
          · simp only [h5, if_false]
            by_cases h6 : lx.skipWhitespace.current_line_text.get? lx.skipWhitespace.current_pos
                = some ','
            · simp only [h6, if_true]
            · simp only [h6, if_false]
              by_cases h7 : lx.skipWhitespace.readWord.1.isEmpty = true
              · simp only [h7, if_true]
                exact ih lx.skipWhitespace.readWord.2
              · simp [h7]
    · simp only [h1, if_false]


theorem readNextToken_keeps_buffer (fuel : Nat) (lx l : Lexer) (t : Token)
    (h : Lexer.readNextToken fuel lx = Except.ok (t, l)) :
    l.buffered_token = lx.buffered_token ∧ l.has_buffered_token = lx.has_buffered_token := by
  have h2 := readNextToken_buffer lx.buffered_token lx.has_buffered_token fuel lx
  have e : ({ lx with buffered_token := lx.buffered_token,
                      has_buffered_token := lx.has_buffered_token } : Lexer) = lx := rfl
  rw [e, h] at h2
  simp only [Except.ok.injEq, Prod.mk.injEq, true_and] at h2
  constructor
  · rw [h2]
  · rw [h2]

theorem getNextToken_sameStream (fuel : Nat) (a b : Lexer) (h : a.sameStream b) :
    match a.getNextToken fuel, b.getNextToken fuel with
    | Except.ok (ta, la), Except.ok (tb, lb) => ta = tb ∧ la.sameStream lb
    | Except.error ea, Except.error eb => ea = eb
    | _, _ => False := by
  obtain ⟨h1, h2, h3, h4, h5, h6⟩ := h
  unfold Lexer.getNextToken
  cases hb : a.has_buffered_token with
  | true =>
    rw [← h5, hb]
    simp only [if_true]
    exact ⟨h6 hb, h1, h2, h3, h4, rfl, by simp⟩
  | false =>
    rw [← h5, hb]
    simp only [Bool.false_eq_true, if_false]
    have hba : a = { b with buffered_token := a.buffered_token,
                            has_buffered_token := a.has_buffered_token } := by
      cases a; cases b; simp_all
    rw [hba, readNextToken_buffer]
    cases hr : Lexer.readNextToken fuel b with
    | error e => simp
    | ok r =>
      obtain ⟨t, l⟩ := r
      have hk := (readNextToken_keeps_buffer fuel b l t hr).2
      rw [← h5, hb] at hk
      simp only
      exact ⟨trivial, rfl, rfl, rfl, rfl, by simp [hb, hk], by simp [hb]⟩

theorem nextTokens_sameStream (fuel : Nat) :
    ∀ (n : Nat) (a b : Lexer), a.sameStream b →
      Lexer.nextTokens fuel n a = Lexer.nextTokens fuel n b := by
  intro n
  induction n with
  | zero => intro a b _; rfl
  | succ n ih =>
    intro a b h
    have hs := getNextToken_sameStream fuel a b h
    simp only [Lexer.nextTokens]
    cases ha : a.getNextToken fuel with
    | error ea =>
      cases hb : b.getNextToken fuel with
      | error eb => rw [ha, hb] at hs; simp only at hs; rw [hs]
      | ok rb => rw [ha, hb] at hs; exact absurd hs (by simp)
    | ok ra =>
      cases hb : b.getNextToken fuel with
      | error eb => rw [ha, hb] at hs; exact absurd hs (by simp)
      | ok rb =>
        obtain ⟨ta, la⟩ := ra
        obtain ⟨tb, lb⟩ := rb
        rw [ha, hb] at hs
        simp only at hs
        simp only [hs.1, ih la lb hs.2]

/-- C14 (counterexample): the lexer over `A B` has buffered `A` after a `peekNextToken`,
so its stream is `A`, `B`. After `putBackToken` of a comma token the calls return the
comma, then `B`, then END_OF_FILE: the buffered `A` is overwritten and the stream does
not continue from where it was. -/
theorem C14_putBack_overwrites_buffer :
    twoWordPeeked.has_buffered_token = true ∧
    (Lexer.nextTokens 8 2 twoWordPeeked).map (fun ts => ts.map (fun t => (t.type, t.value)))
      = Except.ok [(TokenType.OPERAND, "A".toList), (TokenType.OPERAND, "B".toList)] ∧
    (Lexer.nextTokens 8 3 (twoWordPeeked.putBackToken ⟨TokenType.COMMA, ",".toList, 1⟩)).map
        (fun ts => ts.map (fun t => (t.type, t.value)))
      = Except.ok [(TokenType.COMMA, ",".toList), (TokenType.OPERAND, "B".toList),
          (TokenType.END_OF_FILE, [])] := by
  refine ⟨rfl, rfl, rfl⟩

/-- C14 (amended): in every lexer state `peekNextToken` does not consume: when it returns
a token, the `getNextToken` made right after it returns the same token, which is also
what `getNextToken` returns without the peek, and all later calls return the same tokens
in both cases (when the peek fails, so does `getNextToken`). After `putBackToken(t)` the
next `getNextToken` returns `t` and the following calls return the tokens read from the
cursor; this is the stream from where it was when no token was buffered at the time of
the `putBackToken`, while a token that was buffered then is dropped. -/
theorem C14_peek_and_putBack (fuel : Nat) (lx : Lexer) :
    (∀ (t : Token) (lx1 : Lexer), lx.peekNextToken fuel = Except.ok (t, lx1) →
      ∃ lx2 lx3, lx1.getNextToken fuel = Except.ok (t, lx2) ∧
        lx.getNextToken fuel = Except.ok (t, lx3) ∧
        ∀ n, Lexer.nextTokens fuel n lx2 = Lexer.nextTokens fuel n lx3) ∧
    (∀ e, lx.peekNextToken fuel = Except.error e → lx.getNextToken fuel = Except.error e) ∧
    (∀ t : Token, ∃ lx1, (lx.putBackToken t).getNextToken fuel = Except.ok (t, lx1) ∧
      ∀ n, Lexer.nextTokens fuel n lx1
        = Lexer.nextTokens fuel n { lx with has_buffered_token := false }) ∧
    (lx.has_buffered_token = false → ∀ (t : Token) (n : Nat),
      Lexer.nextTokens fuel (n + 1) (lx.putBackToken t)
        = (Lexer.nextTokens fuel n lx).map (fun ts => t :: ts)) ∧
    (twoWordLexer.peekNextToken 8).map (fun r => (r.1.type, r.1.value, r.2.current_pos))
      = Except.ok (TokenType.OPERAND, "A".toList, 1) := by
  have hput : ∀ t : Token, ∃ lx1, (lx.putBackToken t).getNextToken fuel = Except.ok (t, lx1) ∧
      ∀ n, Lexer.nextTokens fuel n lx1
        = Lexer.nextTokens fuel n { lx with has_buffered_token := false } := by
    intro t
    refine ⟨{ lx with buffered_token := t, has_buffered_token := false }, rfl, ?_⟩
    intro n
    exact nextTokens_sameStream fuel n _ _ ⟨rfl, rfl, rfl, rfl, rfl, by simp⟩
  refine ⟨?_, ?_, hput, ?_, rfl⟩
  · intro t lx1 hp
    unfold Lexer.peekNextToken at hp
    cases hb : lx.has_buffered_token with
    | true =>
      simp only [hb, Bool.not_true, Bool.false_eq_true, if_false, Except.ok.injEq,
        Prod.mk.injEq] at hp
      obtain ⟨rfl, rfl⟩ := hp
      refine ⟨{ lx with has_buffered_token := false }, { lx with has_buffered_token := false },
        ?_, ?_, fun n => rfl⟩
      · simp [Lexer.getNextToken, hb]
      · simp [Lexer.getNextToken, hb]
    | false =>
      simp only [hb, Bool.not_false, if_true] at hp
      cases hr : Lexer.readNextToken fuel lx with
      | error e => simp [hr] at hp
      | ok r =>
        obtain ⟨t2, l⟩ := r
        simp only [hr, Except.ok.injEq, Prod.mk.injEq] at hp
        obtain ⟨rfl, rfl⟩ := hp
        have hk := (readNextToken_keeps_buffer fuel lx l t2 hr).2
        rw [hb] at hk
        refine ⟨{ l with buffered_token := t2, has_buffered_token := false }, l, ?_, ?_, ?_⟩
        · simp [Lexer.getNextToken]
        · simp [Lexer.getNextToken, hb, hr]
        · intro n
          exact nextTokens_sameStream fuel n _ _ ⟨rfl, rfl, rfl, rfl, by simp [hk], by simp⟩
  · intro e hp
    unfold Lexer.peekNextToken at hp
    cases hb : lx.has_buffered_token with
    | true => simp [hb] at hp
    | false =>
      simp only [hb, Bool.not_false, if_true] at hp
      cases hr : Lexer.readNextToken fuel lx with
      | error e2 =>
        simp only [hr, Except.error.injEq] at hp
        simp [Lexer.getNextToken, hb, hr, hp]
      | ok r => simp [hr] at hp
  · intro hb t n
    obtain ⟨lx1, h1, h2⟩ := hput t
    simp only [Lexer.nextTokens, h1, h2 n]
    have e : ({ lx with has_buffered_token := false } : Lexer) = lx := by
      cases lx; simp_all
    rw [e]
    cases Lexer.nextTokens fuel n lx <;> rfl


/-! ## Lemmas: reading a word -/

theorem drop_ne_nil_lt (text : Str) (pos : Nat) (s : Str) (h : text.drop pos = s) (hs : s ≠ []) :
    pos < text.length := by
  by_contra hge
  rw [List.drop_eq_nil_of_le (by omega)] at h
  exact hs h.symm

theorem get?_of_drop (text : Str) (pos : Nat) (c : Char) (s : Str)
    (h : text.drop pos = c :: s) : text.get? pos = some c := by
  have := List.head?_drop text pos
  rw [h] at this
  simp only [List.head?_cons] at this
  rw [List.get?_eq_getElem?, ← this]

theorem isBlank_isWordStop (c : Char) (h : (c == ' ' || c == '\t') = true) :
    isWordStop c = true := by
  simp only [Bool.or_eq_true, beq_iff_eq] at h
  rcases h with rfl | rfl <;> rfl

theorem readNextToken_word (fuel : Nat) (lx : Lexer) (blanks word rest : Str)
    (hline : lx.current_line < lx.lines.length)
    (htext : lx.current_line_text.drop lx.current_pos = blanks ++ word ++ rest)
    (hblank : ∀ c ∈ blanks, (c == ' ' || c == '\t') = true)
    (hne : word ≠ [])
    (hword : ∀ c ∈ word, isWordStop c = false)
    (hrest : ∀ c, rest.head? = some c → isWordStop c = true) :
    lx.readNextToken (fuel + 1) =
      Except.ok (Lexer.classifyWord
        { lx with current_pos := lx.current_pos + blanks.length + word.length } word) := by
  obtain ⟨w0, wr, rfl⟩ : ∃ w0 wr, word = w0 :: wr := by
    cases word with
    | nil => exact absurd rfl hne
    | cons a b => exact ⟨a, b, rfl⟩
  have hw0 := hword w0 (List.mem_cons_self _ _)
  have hlt : lx.current_pos < lx.current_line_text.length :=
    drop_ne_nil_lt _ _ _ htext (by simp)
  have hsk : lx.skipWhitespace =
      { lx with current_pos := lx.current_pos + blanks.length } := by
    unfold Lexer.skipWhitespace
    rw [htext, List.append_assoc, takeWhile_append_of_head _ blanks _ hblank]
    intro c hc
    simp only [List.cons_append, List.head?_cons, Option.some.injEq] at hc
    subst hc
    cases hb : (w0 == ' ' || w0 == '\t') with
    | false => rfl
    | true => rw [isBlank_isWordStop w0 hb] at hw0; exact absurd hw0 (by decide)
  have hdrop : lx.current_line_text.drop (lx.current_pos + blanks.length)
      = (w0 :: wr) ++ rest := by
    rw [← List.drop_drop, htext, List.append_assoc, List.drop_left]
  have hlt2 : lx.current_pos + blanks.length < lx.current_line_text.length :=
    drop_ne_nil_lt _ _ _ hdrop (by simp)
  have hget : lx.current_line_text.get? (lx.current_pos + blanks.length) = some w0 :=
    get?_of_drop _ _ w0 (wr ++ rest) hdrop
  have hrw : Lexer.readWord { lx with current_pos := lx.current_pos + blanks.length } =
      (w0 :: wr, { lx with current_pos := lx.current_pos + blanks.length + (w0 :: wr).length }) := by
    unfold Lexer.readWord
    simp only [hdrop]
    rw [takeWhile_append_of_head _ (w0 :: wr) rest (fun c hc => by simp [hword c hc])
      (fun c hc => by simp [hrest c hc])]
  rw [Lexer.readNextToken]
  simp only [hline, if_true, hsk, hrw]
  rw [if_neg (by omega), if_neg (by simp only [ge_iff_le, not_le]; exact hlt2), hget]
  have h1 : (some w0 = some ';') = False := by
    simp only [Option.some.injEq, eq_iff_iff, iff_false]
    rintro rfl
    exact absurd hw0 (by decide)
  have h2 : (some w0 = some ',') = False := by
    simp only [Option.some.injEq, eq_iff_iff, iff_false]
    rintro rfl
    exact absurd hw0 (by decide)
  simp only [h1, h2, if_false]
  rfl


theorem isValidLabel_iff (word : Str) : isValidLabel word = true ↔ validLabelName word := by
  cases word with
  | nil =>
    simp only [isValidLabel, Bool.false_eq_true, false_iff]
    rintro ⟨c, r, h, _⟩
    simp at h
  | cons c r =>
    simp only [isValidLabel, Bool.and_eq_true, Bool.or_eq_true, beq_iff_eq, List.all_eq_true]
    constructor
    · rintro ⟨h1, h2⟩
      exact ⟨c, r, rfl, h1, h2⟩
    · rintro ⟨c2, r2, h, h1, h2⟩
      simp only [List.cons.injEq] at h
      obtain ⟨rfl, rfl⟩ := h
      exact ⟨h1, h2⟩

theorem classifyWord_colon (lx : Lexer) (word rest : Str)
    (h : lx.current_line_text.drop lx.current_pos = ':' :: rest) :
    lx.classifyWord word =
      (if isValidLabel word = true then
        (⟨TokenType.LABEL, word, (lx.current_line : Int) + 1⟩ : Token)
       else ⟨TokenType.ERROR, "Invalid label: ".toList ++ word, (lx.current_line : Int) + 1⟩,
       { lx with current_pos := lx.current_pos + 1 }) := by
  have hlt := drop_ne_nil_lt _ _ _ h (by simp)
  have hget := get?_of_drop _ _ ':' rest h
  unfold Lexer.classifyWord
  simp only [hlt, hget, and_self, if_true]
  cases isValidLabel word <;> rfl

theorem classifyWord_keyword (lx : Lexer) (word rest : Str)
    (h : lx.current_line_text.drop lx.current_pos = rest)
    (hrest : ∀ c, rest.head? = some c → c ≠ ':') :
    lx.classifyWord word =
      (match keywordKind (toUpper word) with
        | some k => (⟨k, toUpper word, (lx.current_line : Int) + 1⟩ : Token)
        | none => ⟨TokenType.OPERAND, word, (lx.current_line : Int) + 1⟩,
       lx) := by
  have hc : ¬ (lx.current_pos < lx.current_line_text.length ∧
      lx.current_line_text.get? lx.current_pos = some ':') := by
    rintro ⟨h1, h2⟩
    rw [List.get?_eq_getElem?, ← List.head?_drop, h] at h2
    exact hrest ':' h2 rfl
  unfold Lexer.classifyWord keywordKind
  simp only [hc, if_false]
  by_cases h1 : toUpper word = "SECAO".toList ∨ toUpper word = "SECTION".toList
  · have : toUpper word ∈ ["SECAO".toList, "SECTION".toList] := by
      simpa using h1
    simp only [h1, this, if_true]
  · have : ¬ toUpper word ∈ ["SECAO".toList, "SECTION".toList] := by
      simpa using h1
    simp only [h1, this, if_false]
    by_cases h2 : toUpper word = "MACRO".toList
    · simp only [h2, if_true]
    · simp only [h2, if_false]
      by_cases h3 : toUpper word = "ENDMACRO".toList
      · simp only [h3, if_true]
      · simp only [h3, if_false]
        by_cases h4 : toUpper word ∈ mnemonics
        · have : isInstruction (toUpper word) = true := by
            simpa [isInstruction, INSTRUCTIONS, mnemonics] using h4
          simp only [this, h4, if_true]
        · have : isInstruction (toUpper word) = false := by
            cases hi : isInstruction (toUpper word) with
            | false => rfl
            | true =>
              exfalso
              apply h4
              simpa [isInstruction, INSTRUCTIONS, mnemonics] using hi
          simp only [this, h4, if_false, Bool.false_eq_true]
          by_cases h5 : toUpper word ∈ ["SPACE".toList, "CONST".toList]
          · have : isDirective (toUpper word) = true := by
              simp only [List.mem_cons, List.mem_singleton, List.not_mem_nil, or_false] at h5
              rcases h5 with h5 | h5 <;> rw [h5] <;> rfl
            simp only [this, h5, if_true]
          · have : isDirective (toUpper word) = false := by
              cases hi : isDirective (toUpper word) with
              | false => rfl
              | true =>
                exfalso
                simp only [isDirective, DIRECTIVES, List.contains_eq_any_beq, List.any_cons,
                  List.any_nil, Bool.or_false, Bool.or_eq_true, beq_iff_eq] at hi
                simp only [List.mem_cons, List.mem_singleton, List.not_mem_nil, or_false,
                  not_or] at h5
                rcases hi with hi | hi | hi | hi | hi | hi
                · exact h5.1 hi
                · exact h5.2 hi
                · exact h2 hi
                · exact h3 hi
                · exact h1 (Or.inl hi)
                · exact h1 (Or.inr hi)
            simp only [this, h5, if_false, Bool.false_eq_true]


/-- C15: when the lexer reads, after blanks, a non-empty word that is immediately followed
by `:`, the token is LABEL carrying the word unchanged if the word starts with a letter or
an underscore and all its other characters are alphanumeric or underscores, and
otherwise it is an ERROR token whose text is `Invalid label: ` followed by the word; in
both cases the cursor ends after the colon. -/
theorem C15_label_token (fuel : Nat) (lx : Lexer) (blanks word rest : Str)
    (hline : lx.current_line < lx.lines.length)
    (htext : lx.current_line_text.drop lx.current_pos = blanks ++ word ++ ':' :: rest)
    (hblank : ∀ c ∈ blanks, (c == ' ' || c == '\t') = true)
    (hne : word ≠ [])
    (hword : ∀ c ∈ word, isWordStop c = false) :
    (validLabelName word →
      lx.readNextToken (fuel + 1) =
        Except.ok (⟨TokenType.LABEL, word, (lx.current_line : Int) + 1⟩,
          { lx with current_pos := lx.current_pos + blanks.length + word.length + 1 })) ∧
    (¬ validLabelName word →
      lx.readNextToken (fuel + 1) =
        Except.ok (⟨TokenType.ERROR, "Invalid label: ".toList ++ word,
            (lx.current_line : Int) + 1⟩,
          { lx with current_pos := lx.current_pos + blanks.length + word.length + 1 })) := by
  have hread := readNextToken_word fuel lx blanks word (':' :: rest) hline htext hblank hne
    hword (by intro c hc; simp only [List.head?_cons, Option.some.injEq] at hc; rw [← hc]; rfl)
  have hdrop : lx.current_line_text.drop (lx.current_pos + blanks.length + word.length)
      = ':' :: rest := by
    rw [Nat.add_assoc, ← List.drop_drop, htext, ← List.length_append, List.drop_left]
  have hcl := classifyWord_colon
    { lx with current_pos := lx.current_pos + blanks.length + word.length } word rest hdrop
  rw [hread, hcl]
  constructor
  · intro hv
    rw [if_pos ((isValidLabel_iff word).mpr hv)]
  · intro hv
    rw [if_neg (fun h => hv ((isValidLabel_iff word).mp h))]

/-- C15 on the line `  x1: LOAD N ; c`: the word `x1` gives a LABEL token. -/
theorem C15_label_token_witness :
    validLabelName "x1".toList ∧
    labelLineLexer.readNextToken 1 =
      Except.ok (⟨TokenType.LABEL, "x1".toList, 1⟩, { labelLineLexer with current_pos := 5 }) :=
  ⟨⟨'x', ['1'], rfl, Or.inl rfl, by decide⟩,
   (C15_label_token 0 labelLineLexer "  ".toList "x1".toList " LOAD N ; c".toList
      (by decide) (by rfl) (by decide) (by decide) (by decide)).1
      ⟨'x', ['1'], rfl, Or.inl rfl, by decide⟩⟩

/-- C16: when the lexer reads, after blanks, a non-empty word that is not followed by `:`,
the token is decided by the upper-cased word: `SECAO`/`SECTION` give SECTION, `MACRO`
gives MACRO_DEF, `ENDMACRO` gives MACRO_END, each of the 14 mnemonics gives INSTRUCTION,
`SPACE`/`CONST` give DIRECTIVE, in any letter case and with the upper-cased word as token
text; every other word gives OPERAND with the word as it is written. -/
theorem C16_keyword_classification (fuel : Nat) (lx : Lexer) (blanks word rest : Str)
    (hline : lx.current_line < lx.lines.length)
    (htext : lx.current_line_text.drop lx.current_pos = blanks ++ word ++ rest)
    (hblank : ∀ c ∈ blanks, (c == ' ' || c == '\t') = true)
    (hne : word ≠ [])
    (hword : ∀ c ∈ word, isWordStop c = false)
    (hrest : ∀ c, rest.head? = some c → isWordStop c = true ∧ c ≠ ':') :
    lx.readNextToken (fuel + 1) =
      Except.ok
        (match keywordKind (toUpper word) with
          | some k => (⟨k, toUpper word, (lx.current_line : Int) + 1⟩ : Token)
          | none => ⟨TokenType.OPERAND, word, (lx.current_line : Int) + 1⟩,
         { lx with current_pos := lx.current_pos + blanks.length + word.length }) := by
  have hread := readNextToken_word fuel lx blanks word rest hline htext hblank hne
    hword (fun c hc => (hrest c hc).1)
  have hdrop : lx.current_line_text.drop (lx.current_pos + blanks.length + word.length)
      = rest := by
    rw [Nat.add_assoc, ← List.drop_drop, htext, ← List.length_append, List.drop_left]
  rw [hread, classifyWord_keyword
    { lx with current_pos := lx.current_pos + blanks.length + word.length } word rest hdrop
    (fun c hc => (hrest c hc).2)]

/-- C16 on the line `  Load N`: the word `Load` gives the INSTRUCTION token `LOAD`. -/
theorem C16_keyword_classification_witness :
    keywordLineLexer.readNextToken 1 =
      Except.ok (⟨TokenType.INSTRUCTION, "LOAD".toList, 1⟩,
        { keywordLineLexer with current_pos := 6 }) :=
  C16_keyword_classification 0 keywordLineLexer "  ".toList "Load".toList " N".toList
    (by decide) (by rfl) (by decide) (by decide) (by decide) (by decide)


/-! ## Lemmas: errors of the operand loop -/

theorem expectComma_errors (fuel : Nat) (token : Token) (i : Nat) (p p1 : Parser) (b : Bool)
    (h : p.expectComma fuel token i = Except.ok (p1, b)) :
    (b = true → p1.errors = p.errors) ∧
    (b = false → p.oneSyntacticError p1 token.line_number) := by
  unfold Parser.expectComma at h
  split at h
  · split at h
    · split at h
      · simp at h
      · split at h
        · simp only [Except.ok.injEq, Prod.mk.injEq] at h
          obtain ⟨rfl, rfl⟩ := h
          exact ⟨by simp, fun _ => ⟨_, rfl⟩⟩
        · simp only [Except.ok.injEq, Prod.mk.injEq] at h
          obtain ⟨rfl, rfl⟩ := h
          exact ⟨fun _ => rfl, by simp⟩
    · simp only [Except.ok.injEq, Prod.mk.injEq] at h
      obtain ⟨rfl, rfl⟩ := h
      exact ⟨fun _ => rfl, by simp⟩
  · simp only [Except.ok.injEq, Prod.mk.injEq] at h
    obtain ⟨rfl, rfl⟩ := h
    exact ⟨fun _ => rfl, by simp⟩

theorem readOperand_errors (fuel : Nat) (token : Token) (p p1 : Parser) (inst : Instruction)
    (r : Option Instruction) (h : p.readOperand fuel token inst = Except.ok (p1, r)) :
    (∀ inst1, r = some inst1 →
      p1.errors = p.errors ∧ inst1.operands.length = inst.operands.length + 1) ∧
    (r = none → p.oneSyntacticError p1 token.line_number) := by
  unfold Parser.readOperand at h
  split at h
  · split at h
    · simp at h
    · split at h
      · simp only [Except.ok.injEq, Prod.mk.injEq] at h
        obtain ⟨rfl, rfl⟩ := h
        refine ⟨?_, by simp⟩
        intro inst1 h1
        simp only [Option.some.injEq] at h1
        subst h1
        exact ⟨rfl, by simp⟩
      · simp only [Except.ok.injEq, Prod.mk.injEq] at h
        obtain ⟨rfl, rfl⟩ := h
        exact ⟨by simp, fun _ => ⟨_, rfl⟩⟩
  · simp only [Except.ok.injEq, Prod.mk.injEq] at h
    obtain ⟨rfl, rfl⟩ := h
    exact ⟨by simp, fun _ => ⟨_, rfl⟩⟩

theorem readOperands_errors (fuel : Nat) (token : Token) :
    ∀ (n i : Nat) (p : Parser) (inst : Instruction) (p1 : Parser) (r : Option Instruction),
      Parser.readOperands fuel token n i p inst = Except.ok (p1, r) →
      (∀ inst1, r = some inst1 →
        p1.errors = p.errors ∧ inst1.operands.length = inst.operands.length + n) ∧
      (r = none → p.oneSyntacticError p1 token.line_number) := by
  intro n
  induction n with
  | zero =>
    intro i p inst p1 r h
    simp only [Parser.readOperands, Except.ok.injEq, Prod.mk.injEq] at h
    obtain ⟨rfl, rfl⟩ := h
    refine ⟨?_, by simp⟩
    intro inst1 h1
    simp only [Option.some.injEq] at h1
    subst h1
    exact ⟨rfl, rfl⟩
  | succ n ih =>
    intro i p inst p1 r h
    simp only [Parser.readOperands] at h
    split at h
    · simp at h
    · rename_i q hq
      simp only [Except.ok.injEq, Prod.mk.injEq] at h
      obtain ⟨rfl, rfl⟩ := h
      exact ⟨by simp, fun _ => (expectComma_errors fuel token i p _ _ hq).2 rfl⟩
    · rename_i q hq
      have hc := (expectComma_errors fuel token i p _ _ hq).1 rfl
      split at h
      · simp at h
      · rename_i q2 hq2
        simp only [Except.ok.injEq, Prod.mk.injEq] at h
        obtain ⟨rfl, rfl⟩ := h
        refine ⟨by simp, fun _ => ?_⟩
        obtain ⟨msg, hm⟩ := (readOperand_errors fuel token _ _ _ _ hq2).2 rfl
        exact ⟨msg, by rw [hm, hc]⟩
      · rename_i q2 inst2 hq2
        have hr := (readOperand_errors fuel token _ _ _ _ hq2).1 inst2 rfl
        have hrec := ih (i + 1) q2 inst2 p1 r h
        constructor
        · intro inst1 h1
          have := hrec.1 inst1 h1
          exact ⟨by rw [this.1, hr.1, hc], by rw [this.2, hr.2]; omega⟩
        · intro h1
          obtain ⟨msg, hm⟩ := hrec.2 h1
          exact ⟨msg, by rw [hm, hr.1, hc]⟩


theorem parseInstruction_first_operand (fuel : Nat) (p : Parser) (token t : Token) (lx : Lexer)
    (hvalid : getInstructionType token.value ≠ InstructionType.INVALID)
    (har : 0 < expectedOperands (getInstructionType token.value))
    (hmore : p.lexer.hasMoreTokens = true)
    (hget : p.lexer.getNextToken fuel = Except.ok (t, lx))
    (hty : t.type ≠ TokenType.OPERAND) :
    p.parseInstruction fuel token =
      Except.ok { p with lexer := lx, errors := p.errors ++
        [⟨ErrorType.SYNTACTIC, "Expected operand for ".toList ++ token.value,
          token.line_number⟩] } := by
  obtain ⟨n, hn⟩ : ∃ n, expectedOperands (getInstructionType token.value) = n + 1 :=
    ⟨_, (Nat.succ_pred_eq_of_pos har).symm⟩
  unfold Parser.parseInstruction
  simp only [hvalid, if_false, hn, Parser.readOperands, Parser.expectComma, Parser.readOperand,
    hmore, hget, hty, if_true, gt_iff_lt, Nat.lt_irrefl]

theorem parseInstruction_no_token (fuel : Nat) (p : Parser) (token : Token)
    (hvalid : getInstructionType token.value ≠ InstructionType.INVALID)
    (har : 0 < expectedOperands (getInstructionType token.value))
    (hmore : p.lexer.hasMoreTokens = false) :
    p.parseInstruction fuel token =
      Except.ok { p with errors := p.errors ++
        [⟨ErrorType.SYNTACTIC, "Missing operand for ".toList ++ token.value,
          token.line_number⟩] } := by
  obtain ⟨n, hn⟩ : ∃ n, expectedOperands (getInstructionType token.value) = n + 1 :=
    ⟨_, (Nat.succ_pred_eq_of_pos har).symm⟩
  unfold Parser.parseInstruction
  simp only [hvalid, if_false, hn, Parser.readOperands, Parser.expectComma, Parser.readOperand,
    hmore, if_true, gt_iff_lt, Nat.lt_irrefl, Bool.false_eq_true]

theorem parseInstruction_no_comma (fuel : Nat) (p : Parser) (token t1 t2 : Token)
    (lx1 lx2 : Lexer)
    (hcopy : getInstructionType token.value = InstructionType.COPY)
    (hmore : p.lexer.hasMoreTokens = true)
    (hget : p.lexer.getNextToken fuel = Except.ok (t1, lx1))
    (hty : t1.type = TokenType.OPERAND)
    (hmore1 : lx1.hasMoreTokens = true)
    (hget1 : lx1.getNextToken fuel = Except.ok (t2, lx2))
    (hty2 : t2.type ≠ TokenType.COMMA) :
    p.parseInstruction fuel token =
      Except.ok { p with lexer := lx2, errors := p.errors ++
        [⟨ErrorType.SYNTACTIC, "Expected comma between operands".toList,
          token.line_number⟩] } := by
  have hv : getInstructionType token.value ≠ InstructionType.INVALID := by
    rw [hcopy]; decide
  unfold Parser.parseInstruction
  simp only [hv, if_false]
  simp only [hcopy, expectedOperands, Parser.readOperands, Parser.expectComma,
    Parser.readOperand, hmore, hget, hty, if_true, gt_iff_lt, Nat.lt_irrefl, if_false,
    Nat.zero_add, Nat.lt_add_one, hmore1, hget1, hty2, ne_eq, not_false_eq_true]

theorem parseInstruction_no_second (fuel : Nat) (p : Parser) (token t1 t2 t3 : Token)
    (lx1 lx2 lx3 : Lexer)
    (hcopy : getInstructionType token.value = InstructionType.COPY)
    (hmore : p.lexer.hasMoreTokens = true)
    (hget : p.lexer.getNextToken fuel = Except.ok (t1, lx1))
    (hty : t1.type = TokenType.OPERAND)
    (hmore1 : lx1.hasMoreTokens = true)
    (hget1 : lx1.getNextToken fuel = Except.ok (t2, lx2))
    (hty2 : t2.type = TokenType.COMMA)
    (hmore2 : lx2.hasMoreTokens = true)
    (hget2 : lx2.getNextToken fuel = Except.ok (t3, lx3))
    (hty3 : t3.type ≠ TokenType.OPERAND) :
    p.parseInstruction fuel token =
      Except.ok { p with lexer := lx3, errors := p.errors ++
        [⟨ErrorType.SYNTACTIC, "Expected operand for ".toList ++ token.value,
          token.line_number⟩] } := by
  have hv : getInstructionType token.value ≠ InstructionType.INVALID := by
    rw [hcopy]; decide
  unfold Parser.parseInstruction
  simp only [hv, if_false]
  simp only [hcopy, expectedOperands, Parser.readOperands, Parser.expectComma,
    Parser.readOperand, hmore, hget, hty, if_true, gt_iff_lt, Nat.lt_irrefl, if_false,
    Nat.zero_add, Nat.lt_add_one, hmore1, hget1, hty2, ne_eq, not_true_eq_false,
    hmore2, hget2, hty3]

theorem parseInstruction_dichotomy (fuel : Nat) (p p1 : Parser) (token : Token)
    (hvalid : getInstructionType token.value ≠ InstructionType.INVALID)
    (h : p.parseInstruction fuel token = Except.ok p1) :
    (∃ q inst, p1 = q.pushInstruction inst ∧ p.sameCore q ∧ q.errors = p.errors ∧
      inst.operands.length = expectedOperands (getInstructionType token.value)) ∨
    (p.sameCore p1 ∧ p.oneSyntacticError p1 token.line_number) := by
  unfold Parser.parseInstruction at h
  simp only [hvalid, if_false] at h
  split at h
  · simp at h
  · rename_i q hq
    simp only [Except.ok.injEq] at h
    subst h
    exact Or.inr ⟨(readOperands_frame fuel token _ _ _ _ _ _ hq).1,
      (readOperands_errors fuel token _ _ _ _ _ _ hq).2 rfl⟩
  · rename_i q inst2 hq
    simp only [Except.ok.injEq] at h
    subst h
    have he := (readOperands_errors fuel token _ _ _ _ _ _ hq).1 inst2 rfl
    refine Or.inl ⟨q, inst2, rfl, (readOperands_frame fuel token _ _ _ _ _ _ hq).1, he.1, ?_⟩
    rw [he.2]
    simp [Instruction.new]


/-- C17: for every instruction mnemonic, `parseInstruction` appends an instruction only
with all the operands of its arity; otherwise it appends exactly one SYNTACTIC error and
leaves the instruction list, `current_address` and the symbol table unchanged. This is
what happens for an arity of 1 or 2 when no token is left or the next token is not an
OPERAND, and for `COPY` when the token after the first operand is not a COMMA (as in
`COPY A`) or the token after the comma is not an OPERAND. -/
theorem C17_arity_enforcement (fuel : Nat) (p : Parser) (token : Token)
    (hvalid : getInstructionType token.value ≠ InstructionType.INVALID) :
    (∀ p1, p.parseInstruction fuel token = Except.ok p1 →
      (∃ q inst, p1 = q.pushInstruction inst ∧ p.sameCore q ∧ q.errors = p.errors ∧
        inst.operands.length = expectedOperands (getInstructionType token.value)) ∨
      (p1.instructions = p.instructions ∧ p1.current_address = p.current_address ∧
        p1.symbol_table = p.symbol_table ∧ p.oneSyntacticError p1 token.line_number)) ∧
    (0 < expectedOperands (getInstructionType token.value) →
      (p.lexer.hasMoreTokens = false →
        p.parseInstruction fuel token =
          Except.ok { p with errors := p.errors ++
            [⟨ErrorType.SYNTACTIC, "Missing operand for ".toList ++ token.value,
              token.line_number⟩] }) ∧
      (∀ (t : Token) (lx : Lexer), p.lexer.hasMoreTokens = true →
        p.lexer.getNextToken fuel = Except.ok (t, lx) → t.type ≠ TokenType.OPERAND →
        p.parseInstruction fuel token =
          Except.ok { p with lexer := lx, errors := p.errors ++
            [⟨ErrorType.SYNTACTIC, "Expected operand for ".toList ++ token.value,
              token.line_number⟩] })) ∧
    (getInstructionType token.value = InstructionType.COPY →
      ∀ (t1 t2 : Token) (lx1 lx2 : Lexer), p.lexer.hasMoreTokens = true →
        p.lexer.getNextToken fuel = Except.ok (t1, lx1) → t1.type = TokenType.OPERAND →
        lx1.hasMoreTokens = true → lx1.getNextToken fuel = Except.ok (t2, lx2) →
        (t2.type ≠ TokenType.COMMA →
          p.parseInstruction fuel token =
            Except.ok { p with lexer := lx2, errors := p.errors ++
              [⟨ErrorType.SYNTACTIC, "Expected comma between operands".toList,
                token.line_number⟩] }) ∧
        (t2.type = TokenType.COMMA → ∀ (t3 : Token) (lx3 : Lexer),
          lx2.hasMoreTokens = true → lx2.getNextToken fuel = Except.ok (t3, lx3) →
          t3.type ≠ TokenType.OPERAND →
          p.parseInstruction fuel token =
            Except.ok { p with lexer := lx3, errors := p.errors ++
              [⟨ErrorType.SYNTACTIC, "Expected operand for ".toList ++ token.value,
                token.line_number⟩] })) := by
  refine ⟨?_, ?_, ?_⟩
  · intro p1 h
    rcases parseInstruction_dichotomy fuel p p1 token hvalid h with h1 | ⟨h1, h2⟩
    · exact Or.inl h1
    · exact Or.inr ⟨h1.1, h1.2.1, h1.2.2, h2⟩
  · intro har
    exact ⟨parseInstruction_no_token fuel p token hvalid har,
      fun t lx hm hg ht => parseInstruction_first_operand fuel p token t lx hvalid har hm hg ht⟩
  · intro hcopy t1 t2 lx1 lx2 hm hg ht hm1 hg1
    exact ⟨parseInstruction_no_comma fuel p token t1 t2 lx1 lx2 hcopy hm hg ht hm1 hg1,
      fun ht2 t3 lx3 hm2 hg2 ht3 =>
        parseInstruction_no_second fuel p token t1 t2 t3 lx1 lx2 lx3 hcopy hm hg ht hm1 hg1 ht2
          hm2 hg2 ht3⟩

/-- C17 on the program `COPY A`: after the mnemonic, the operand `A` is followed by the
end of the input instead of a comma; one SYNTACTIC error is recorded and no instruction
is appended. -/
theorem C17_arity_enforcement_witness :
    getInstructionType copyOneOperandToken.value ≠ InstructionType.INVALID ∧
    (copyOneOperandParser.parseInstruction 8 copyOneOperandToken).map
        (fun q => (q.instructions, q.current_address, q.symbol_table.symbols, q.errors))
      = Except.ok ([], 0, [],
          [⟨ErrorType.SYNTACTIC, "Expected comma between operands".toList, 1⟩]) :=
  ⟨by decide, by
    rw [((C17_arity_enforcement 8 copyOneOperandParser copyOneOperandToken (by decide)).2.2
      (by decide)
      (tokenOr (copyOneOperandParser.lexer.getNextToken 8)).1
      (tokenOr ((tokenOr (copyOneOperandParser.lexer.getNextToken 8)).2.getNextToken 8)).1
      (tokenOr (copyOneOperandParser.lexer.getNextToken 8)).2
      (tokenOr ((tokenOr (copyOneOperandParser.lexer.getNextToken 8)).2.getNextToken 8)).2
      (by decide) (by rfl) (by decide) (by decide) (by rfl)).1 (by decide)]
    rfl⟩


/-! ## Statements C18 to C20 -/

/-- C18 (counterexample): after `Parser::parse` on `STOP X` the instruction list is not
empty and `current_address` is 1, not 0. -/
theorem C18_stop_operand_not_aborted :
    ((Parser.new stopOperandSource).parse 8).map
        (fun p => (p.instructions.length, p.current_address))
      = Except.ok (1, 1) := by
  rfl

/-- C18 (amended): `parseInstruction` for `STOP` reads no further token and appends the
instruction, in every parser state; on the source `STOP X` the STOP instruction is
appended at address 0 with size 1, `current_address` becomes 1, and the operand `X`, met
at the top level, is recorded as the one SYNTACTIC error `Unexpected operand at top
level: X`. -/
theorem C18_stop_with_operand :
    (∀ (fuel : Nat) (p : Parser) (token : Token),
      getInstructionType token.value = InstructionType.STOP →
      p.parseInstruction fuel token =
        Except.ok (p.pushInstruction
          { type := InstructionType.STOP, opcode := 14, operands := [], size := 1,
            address := p.current_address, line_number := token.line_number })) ∧
    ((Parser.new stopOperandSource).parse 8).map
        (fun p => (p.instructions.map (fun i => (i.type, i.operands, i.address, i.size)),
          p.current_address, p.errors))
      = Except.ok ([(InstructionType.STOP, [], 0, 1)], 1,
          [⟨ErrorType.SYNTACTIC, "Unexpected operand at top level: X".toList, 1⟩]) := by
  refine ⟨?_, rfl⟩
  intro fuel p token h
  unfold Parser.parseInstruction
  simp only [h]
  rfl

theorem parseLabel_keeps_symbol (p : Parser) (token : Token) (name : Str)
    (h : p.symbol_table.isSymbolDefined name = true) :
    (p.parseLabel token).symbol_table.isSymbolDefined name = true ∧
    (p.parseLabel token).symbol_table.getSymbolAddress name
      = p.symbol_table.getSymbolAddress name := by
  unfold Parser.parseLabel
  simp only
  split
  · exact ⟨h, rfl⟩
  · rename_i hnd
    have hne : name ≠ token.value := by
      rintro rfl
      exact hnd h
    have e := mapFind_mapInsert_other token.value name
      (⟨token.value, p.current_address, true⟩ : Symbol) p.symbol_table.symbols hne
    unfold SymbolTable.isSymbolDefined at h ⊢
    unfold SymbolTable.getSymbolAddress
    simp only [SymbolTable.defineSymbol, e]
    exact ⟨h, trivial⟩

theorem dispatch_keeps_symbol (fuel : Nat) (p p1 : Parser) (token : Token) (name : Str)
    (h : p.symbol_table.isSymbolDefined name = true)
    (hd : p.dispatch fuel token = Except.ok p1) :
    p1.symbol_table.isSymbolDefined name = true ∧
    p1.symbol_table.getSymbolAddress name = p.symbol_table.getSymbolAddress name := by
  unfold Parser.dispatch at hd
  split at hd
  · simp only [Except.ok.injEq] at hd
    subst hd
    exact parseLabel_keeps_symbol p token name h
  · rcases parseInstruction_cases fuel p p1 token hd with hs | ⟨q, inst, hq, rfl, _⟩
    · rw [hs.2.2]; exact ⟨h, rfl⟩
    · simp only [Parser.pushInstruction]
      rw [hq.2.2]; exact ⟨h, rfl⟩
  · obtain ⟨q, inst, hq, rfl, _⟩ := parseDirective_cases fuel p p1 token hd
    simp only [Parser.pushInstruction]
    rw [hq.2.2]; exact ⟨h, rfl⟩
  · rw [(parseSection_frame fuel p p1 token hd).2.2]; exact ⟨h, rfl⟩
  all_goals
    simp only [Except.ok.injEq] at hd
    subst hd
    exact ⟨h, rfl⟩

theorem parseLoop_keeps_symbol (fuel : Nat) (name : Str) :
    ∀ (n : Nat) (p p1 : Parser), p.symbol_table.isSymbolDefined name = true →
      Parser.parseLoop fuel n p = Except.ok p1 →
      p1.symbol_table.isSymbolDefined name = true ∧
      p1.symbol_table.getSymbolAddress name = p.symbol_table.getSymbolAddress name := by
  intro n
  induction n with
  | zero =>
    intro p p1 _ h
    simp [Parser.parseLoop] at h
  | succ n ih =>
    intro p p1 hl h
    simp only [Parser.parseLoop] at h
    split at h
    · split at h
      · simp at h
      · rename_i token lx hq
        split at h
        · simp only [Except.ok.injEq] at h
          subst h
          exact ⟨hl, rfl⟩
        · split at h
          · simp at h
          · rename_i p2 hd
            have h2 := dispatch_keeps_symbol fuel { p with lexer := lx } p2 token name hl hd
            have h3 := ih p2 p1 h2.1 h
            exact ⟨h3.1, h3.2.trans h2.2⟩
    · simp only [Except.ok.injEq] at h
      subst h
      exact ⟨hl, rfl⟩

theorem parse_of_parseLoop (fuel : Nat) (p pf : Parser) (h : p.parse fuel = Except.ok pf) :
    ∃ p1, Parser.parseLoop fuel fuel p = Except.ok p1 ∧ pf.symbol_table = p1.symbol_table ∧
      pf.instructions = p1.instructions ∧ pf.current_address = p1.current_address := by
  unfold Parser.parse at h
  split at h
  · simp at h
  · rename_i p1 h1
    simp only [Except.ok.injEq] at h
    subst h
    exact ⟨p1, h1, rfl, rfl, rfl⟩

theorem dispatch_symbols (fuel : Nat) (p p1 : Parser) (token : Token)
    (hd : p.dispatch fuel token = Except.ok p1) :
    (token.type ≠ TokenType.LABEL → p1.symbol_table = p.symbol_table) ∧
    (∀ name : Str, name ≠ token.value →
      p1.symbol_table.isSymbolDefined name = p.symbol_table.isSymbolDefined name) := by
  have hsame : p1.symbol_table = p.symbol_table →
      ∀ name : Str, name ≠ token.value →
      p1.symbol_table.isSymbolDefined name = p.symbol_table.isSymbolDefined name := by
    intro h name _
    rw [h]
  unfold Parser.dispatch at hd
  split at hd
  · rename_i hty
    simp only [Except.ok.injEq] at hd
    subst hd
    refine ⟨fun h => absurd hty h, fun name hne => ?_⟩
    unfold Parser.parseLabel
    simp only
    split
    · rfl
    · have e := mapFind_mapInsert_other token.value name
        (⟨token.value, p.current_address, true⟩ : Symbol) p.symbol_table.symbols hne
      unfold SymbolTable.isSymbolDefined
      simp only [SymbolTable.defineSymbol, e]
  · have e : p1.symbol_table = p.symbol_table := by
      rcases parseInstruction_cases fuel p p1 token hd with hs | ⟨q, inst, hq, rfl, _⟩
      · exact hs.2.2
      · simp only [Parser.pushInstruction]
        exact hq.2.2
    exact ⟨fun _ => e, hsame e⟩
  · have e : p1.symbol_table = p.symbol_table := by
      obtain ⟨q, inst, hq, rfl, _⟩ := parseDirective_cases fuel p p1 token hd
      simp only [Parser.pushInstruction]
      exact hq.2.2
    exact ⟨fun _ => e, hsame e⟩
  · have e : p1.symbol_table = p.symbol_table := (parseSection_frame fuel p p1 token hd).2.2
    exact ⟨fun _ => e, hsame e⟩
  all_goals
    simp only [Except.ok.injEq] at hd
    subst hd
    exact ⟨fun _ => rfl, fun _ _ => rfl⟩

/-- C19 fails on `LOAD` / `A: STOP` / `A: STOP`: the first LABEL token `A` (line 2) is
read by `parseInstruction`, which looks for the operand of `LOAD`, while
`current_address` is 0; it defines nothing. The second LABEL token `A` (line 3) is the
one that defines `A`, at address 1, and no duplicate is reported: after the parse the
address of `A` is 1, not the value 0 that `current_address` had at the first LABEL token
with that name. -/
theorem C19_first_label_not_defining :
    (Lexer.nextTokens 16 5 (Lexer.new labelTwiceAfterLoadSource)).map
        (fun ts => ts.map (fun t => (t.type, t.value, t.line_number)))
      = Except.ok [(TokenType.INSTRUCTION, "LOAD".toList, 1), (TokenType.LABEL, "A".toList, 2),
          (TokenType.INSTRUCTION, "STOP".toList, 2), (TokenType.LABEL, "A".toList, 3),
          (TokenType.INSTRUCTION, "STOP".toList, 3)] ∧
    (Parser.dispatch 16
        { Parser.new labelTwiceAfterLoadSource with
          lexer := (tokenOr ((Parser.new labelTwiceAfterLoadSource).lexer.getNextToken 16)).2 }
        (tokenOr ((Parser.new labelTwiceAfterLoadSource).lexer.getNextToken 16)).1).map
        (fun q => (q.current_address, q.instructions, q.symbol_table.symbols,
          (tokenOr (q.lexer.getNextToken 16)).1))
      = Except.ok (0, [], [], ⟨TokenType.INSTRUCTION, "STOP".toList, 2⟩) ∧
    ((Parser.new labelTwiceAfterLoadSource).parse 16).map
        (fun p => (p.errors, p.instructions.map (fun i => (i.type, i.address)),
          p.symbol_table.isSymbolDefined "A".toList,
          p.symbol_table.getSymbolAddress "A".toList))
      = Except.ok ([⟨ErrorType.SYNTACTIC, "Expected operand for LOAD".toList, 1⟩],
          [(InstructionType.STOP, 0), (InstructionType.STOP, 1)], true, 1) := by
  refine ⟨rfl, rfl, rfl⟩
/-- C19 (amended): when a LABEL token names a symbol that is already defined,
`parseLabel` appends a SEMANTIC error and changes nothing else, the symbol table included;
when the name is not yet defined, it is defined at `current_address`. A defined symbol
keeps its address through the rest of the parse, and a symbol table changes only when the
loop of `Parser::parse` dispatches a LABEL token, and then only at the name of that token
(a LABEL token taken by `parseInstruction` or `parseSection` as a missing operand, comma
or section name is not dispatched and defines nothing). So at the end of `Parser::parse`
the address of a label is the value `current_address` had when the loop read the first
LABEL token with that name. In `A: STOP` / `A: STOP` the second `A:` is reported and `A`
stays at 0. -/
theorem C19_duplicate_label (fuel : Nat) (p : Parser) (token : Token) :
    (p.symbol_table.isSymbolDefined token.value = true →
      p.parseLabel token = { p with errors := p.errors ++
        [⟨ErrorType.SEMANTIC, "Duplicate label: ".toList ++ token.value,
          token.line_number⟩] }) ∧
    (p.symbol_table.isSymbolDefined token.value = false →
      (p.parseLabel token).symbol_table.isSymbolDefined token.value = true ∧
      (p.parseLabel token).symbol_table.getSymbolAddress token.value = p.current_address ∧
      (p.parseLabel token).errors = p.errors) ∧
    (∀ (name : Str) (pf : Parser), p.symbol_table.isSymbolDefined name = true →
      p.parse fuel = Except.ok pf →
      pf.symbol_table.isSymbolDefined name = true ∧
      pf.symbol_table.getSymbolAddress name = p.symbol_table.getSymbolAddress name) ∧
    (∀ (n : Nat) (lx : Lexer) (pf : Parser), p.lexer.hasMoreTokens = true →
      p.lexer.getNextToken fuel = Except.ok (token, lx) → token.type = TokenType.LABEL →
      p.symbol_table.isSymbolDefined token.value = false →
      Parser.parseLoop fuel (n + 1) p = Except.ok pf →
      pf.symbol_table.isSymbolDefined token.value = true ∧
      pf.symbol_table.getSymbolAddress token.value = p.current_address) ∧
    (∀ (lx : Lexer) (p1 : Parser),
      Parser.dispatch fuel { p with lexer := lx } token = Except.ok p1 →
      (token.type ≠ TokenType.LABEL → p1.symbol_table = p.symbol_table) ∧
      (∀ name : Str, name ≠ token.value →
        p1.symbol_table.isSymbolDefined name = p.symbol_table.isSymbolDefined name)) ∧
    ((Parser.new duplicateLabelSource).parse 8).map
        (fun q => (q.errors, q.symbol_table.getSymbolAddress "A".toList,
          q.instructions.map (fun i => i.address)))
      = Except.ok ([⟨ErrorType.SEMANTIC, "Duplicate label: A".toList, 2⟩], 0, [0, 1]) := by
  refine ⟨?_, ?_, ?_, ?_, fun lx p1 hd => dispatch_symbols fuel { p with lexer := lx } p1 token hd, rfl⟩
  · intro h
    simp [Parser.parseLabel, h]
  · intro h
    have hd := getSymbolAddress_defineSymbol p.symbol_table token.value p.current_address
    simp only [Parser.parseLabel, h, Bool.false_eq_true, if_false]
    exact ⟨hd.2, hd.1, trivial⟩
  · intro name pf hdef hp
    obtain ⟨p1, h1, h2, _⟩ := parse_of_parseLoop fuel p pf hp
    rw [h2]
    exact parseLoop_keeps_symbol fuel name fuel p p1 hdef h1
  · intro n lx pf hmore hget hty hnew hloop
    rw [Parser.parseLoop] at hloop
    simp only [hmore, if_true, hget, hty] at hloop
    have hd := getSymbolAddress_defineSymbol p.symbol_table token.value p.current_address
    have hlab : Parser.dispatch fuel { p with lexer := lx } token =
        Except.ok ({ p with
          lexer := lx
          symbol_table := p.symbol_table.defineSymbol token.value p.current_address } :
            Parser) := by
      simp [Parser.dispatch, hty, Parser.parseLabel, hnew]
    rw [hlab] at hloop
    simp only [reduceCtorEq, if_false] at hloop
    have := parseLoop_keeps_symbol fuel token.value n _ pf hd.2 hloop
    exact ⟨this.1, this.2.trans hd.1⟩


/-- C20 (counterexample): on the program `FOO X` the errors that `Parser::parse` records
are two SYNTACTIC errors; no SEMANTIC error is recorded. What is recorded for the line
`FOO X` depends on who reads the word: after a `LOAD` without operand, `parseInstruction`
takes `FOO` as the operand of `LOAD`, the LOAD is appended and no error at all is recorded
for `FOO`; after a `SECTION` without name, `parseSection` takes `FOO` as the section name
and records the SEMANTIC error `Unknown section: FOO` at line 1. -/
theorem C20_unknown_mnemonic_not_semantic :
    ((Parser.new unknownMnemonicSource).parse 8).map
        (fun p => (p.errors.map (fun e => e.type),
          p.errors.any (fun e => e.type == ErrorType.SEMANTIC)))
      = Except.ok ([ErrorType.SYNTACTIC, ErrorType.SYNTACTIC], false) ∧
    ((Parser.new unknownAfterLoadSource).parse 8).map
        (fun p => (p.errors, p.instructions.map (fun i => (i.type, i.address, i.operands))))
      = Except.ok ([⟨ErrorType.SYNTACTIC, "Unexpected operand at top level: X".toList, 2⟩],
          [(InstructionType.LOAD, 0, ["FOO".toList])]) ∧
    ((Parser.new unknownAfterSectionSource).parse 8).map
        (fun p => (p.errors, p.instructions))
      = Except.ok ([⟨ErrorType.SEMANTIC, "Unknown section: FOO".toList, 1⟩,
          ⟨ErrorType.SYNTACTIC, "Unexpected operand at top level: X".toList, 2⟩], []) := by
  refine ⟨rfl, rfl, rfl⟩

/-- C20 (amended): when the word is what the loop of `Parser::parse` reads next (the loop
is at the top of an iteration, no token is buffered, and the lexer stands before the
word: no statement before it has taken the word as its operand or section name), and the
word is not followed by `:` and is no keyword in any letter case (none of the 14
mnemonics, no directive, section or macro keyword), this iteration of the loop reads it as
an OPERAND, appends the SYNTACTIC error `Unexpected operand at top level: ` followed by
the word, and changes nothing else: no instruction is appended and no SEMANTIC error is
recorded. -/
theorem C20_unknown_mnemonic (fuel n : Nat) (p : Parser) (blanks word rest : Str)
    (hbuf : p.lexer.has_buffered_token = false)
    (hline : p.lexer.current_line < p.lexer.lines.length)
    (htext : p.lexer.current_line_text.drop p.lexer.current_pos = blanks ++ word ++ rest)
    (hblank : ∀ c ∈ blanks, (c == ' ' || c == '\t') = true)
    (hne : word ≠ [])
    (hword : ∀ c ∈ word, isWordStop c = false)
    (hrest : ∀ c, rest.head? = some c → isWordStop c = true ∧ c ≠ ':')
    (hkw : keywordKind (toUpper word) = none) :
    Parser.parseLoop (fuel + 1) (n + 1) p =
      Parser.parseLoop (fuel + 1) n
        { p with
          lexer := { p.lexer with
            current_pos := p.lexer.current_pos + blanks.length + word.length }
          errors := p.errors ++
            [⟨ErrorType.SYNTACTIC, "Unexpected operand at top level: ".toList ++ word,
              (p.lexer.current_line : Int) + 1⟩] } := by
  have hread := readNextToken_word fuel p.lexer blanks word rest hline htext hblank hne
    hword (fun c hc => (hrest c hc).1)
  have hdrop : p.lexer.current_line_text.drop
      (p.lexer.current_pos + blanks.length + word.length) = rest := by
    rw [Nat.add_assoc, ← List.drop_drop, htext, ← List.length_append, List.drop_left]
  rw [classifyWord_keyword
    { p.lexer with current_pos := p.lexer.current_pos + blanks.length + word.length } word rest
    hdrop (fun c hc => (hrest c hc).2), hkw] at hread
  have hmore : p.lexer.hasMoreTokens = true := by
    simp [Lexer.hasMoreTokens, hline]
  have hget : p.lexer.getNextToken (fuel + 1) =
      Except.ok (⟨TokenType.OPERAND, word, (p.lexer.current_line : Int) + 1⟩,
        { p.lexer with
          current_pos := p.lexer.current_pos + blanks.length + word.length }) := by
    unfold Lexer.getNextToken
    rw [hbuf]
    simp only [Bool.false_eq_true, if_false]
    exact hread
  rw [Parser.parseLoop]
  simp only [hmore, if_true, hget, reduceCtorEq, if_false, Parser.dispatch]

/-- C20 (amended) on the program `FOO X`: the first iteration of the parse loop records the error
for `FOO`; at the end of the parse the errors are this one and the same for `X`, and the
instruction list is empty. -/
theorem C20_unknown_mnemonic_witness :
    ((Parser.new unknownMnemonicSource).parse 8).map (fun p => (p.errors, p.instructions))
      = Except.ok
        ([⟨ErrorType.SYNTACTIC, "Unexpected operand at top level: FOO".toList, 1⟩,
          ⟨ErrorType.SYNTACTIC, "Unexpected operand at top level: X".toList, 1⟩], []) ∧
    keywordKind (toUpper "FOO".toList) = none ∧
    Parser.parseLoop 1 1 (Parser.new unknownMnemonicSource) =
      Parser.parseLoop 1 0
        { Parser.new unknownMnemonicSource with
          lexer := { (Parser.new unknownMnemonicSource).lexer with current_pos := 3 }
          errors := [⟨ErrorType.SYNTACTIC, "Unexpected operand at top level: FOO".toList, 1⟩] } :=
  ⟨by rfl, by decide,
   C20_unknown_mnemonic 0 0 (Parser.new unknownMnemonicSource) [] "FOO".toList " X".toList
    (by decide) (by decide) (by rfl) (by decide) (by decide) (by decide) (by decide)
    (by decide)⟩


/-! ## Statement C11: the substitution of parameters -/

theorem startsWith_eq_isPrefixOf (s p : Str) : startsWith s p = p.isPrefixOf s := by
  induction p generalizing s with
  | nil => cases s <;> rfl
  | cons d p ih =>
    cases s with
    | nil => rfl
    | cons c s =>
      simp only [startsWith, List.isPrefixOf, ih]
      rw [Bool.beq_comm]

theorem findFrom0_min (p s : Str) (k : Nat) (h : findFrom0 p s = some k) :
    ∀ j, j < k → startsWith (s.drop j) p = false := by
  induction s generalizing k with
  | nil =>
    simp only [findFrom0] at h
    split at h
    · simp only [Option.some.injEq] at h
      subst h
      intro j hj
      omega
    · simp at h
  | cons e s ih =>
    simp only [findFrom0] at h
    split at h
    · simp only [Option.some.injEq] at h
      subst h
      intro j hj
      omega
    · rename_i hs
      cases hf : findFrom0 p s with
      | none => simp [hf] at h
      | some i =>
        simp only [hf, Option.map_some', Option.some.injEq] at h
        subst h
        intro j hj
        cases j with
        | zero => simpa using hs
        | succ j =>
          simp only [List.drop_succ_cons]
          exact ih i hf j (by omega)

theorem findFrom0_none (p s : Str) (h : findFrom0 p s = none) :
    ∀ j, j ≤ s.length → startsWith (s.drop j) p = false := by
  induction s with
  | nil =>
    simp only [findFrom0] at h
    split at h
    · simp at h
    · rename_i hp
      intro j _
      cases p with
      | nil => simp at hp
      | cons a b => simp [startsWith]
  | cons e s ih =>
    simp only [findFrom0] at h
    split at h
    · simp at h
    · rename_i hs
      have hf : findFrom0 p s = none := by
        cases hf : findFrom0 p s with
        | none => rfl
        | some i => simp [hf] at h
      intro j hj
      cases j with
      | zero => simpa using hs
      | succ j =>
        simp only [List.drop_succ_cons]
        exact ih hf j (by simpa using hj)

theorem find_some_from0 (w p : Str) (pos q : Nat) (h : find w p pos = some q) :
    ∃ k, findFrom0 p (w.drop pos) = some k ∧ q = pos + k := by
  unfold find at h
  split at h
  · cases hf : findFrom0 p (w.drop pos) with
    | none => simp [hf] at h
    | some k =>
      simp only [hf, Option.map_some', Option.some.injEq] at h
      exact ⟨k, rfl, by omega⟩
  · simp at h

theorem find_none_from0 (w p : Str) (pos : Nat) (hpos : pos ≤ w.length)
    (h : find w p pos = none) : findFrom0 p (w.drop pos) = none := by
  unfold find at h
  rw [if_pos hpos] at h
  cases hf : findFrom0 p (w.drop pos) with
  | none => rfl
  | some k => simp [hf] at h


theorem substWord_skip (param arg : Str) (prev : Option Char) :
    ∀ (s : Str) (k : Nat), substWord param arg prev k s = substWord param arg prev 0 (s.drop k) := by
  intro s
  induction s with
  | nil => intro k; cases k <;> simp [substWord]
  | cons c s ih =>
    intro k
    cases k with
    | zero => rfl
    | succ k =>
      rw [substWord, List.drop_succ_cons]
      exact ih k

theorem substWord_pass (param arg : Str) :
    ∀ (k : Nat) (r : Str) (prev : Option Char), k ≤ r.length →
      (∀ j, j < k → startsWith (r.drop j) param = false) →
      substWord param arg prev 0 r =
        r.take k ++ substWord param arg ((r.take k).getLast?.or prev) 0 (r.drop k) := by
  intro k
  induction k with
  | zero => intro r prev _ _; simp
  | succ k ih =>
    intro r prev hk hno
    cases r with
    | nil => simp at hk
    | cons c s =>
      have h0 := hno 0 (by omega)
      simp only [List.drop_zero] at h0
      rw [startsWith_eq_isPrefixOf] at h0
      rw [substWord]
      simp only [h0, Bool.false_and, Bool.false_eq_true, if_false, List.take_succ_cons,
        List.drop_succ_cons, List.cons_append, List.cons.injEq, true_and]
      rw [ih s (some c) (by simpa using hk)
        (fun j hj => by simpa using hno (j + 1) (by omega))]
      congr 2
      rw [List.getLast?_cons]
      cases (List.take k s).getLast? <;> rfl

theorem isWordBoundary_eq (w : Str) (q n : Nat) (hq : q ≤ w.length) :
    isWordBoundary w q n =
      (notIdentChar (w.take q).getLast? && notIdentChar (w.drop (q + n)).head?) := by
  have hb : boundaryBefore w q = notIdentChar (w.take q).getLast? := by
    unfold boundaryBefore
    rw [List.getLast?_take]
    by_cases h0 : q = 0
    · subst h0
      simp [notIdentChar]
    · have hlt : q - 1 < w.length := by omega
      have hget : w[q - 1]? = some w[q - 1] := List.getElem?_eq_getElem hlt
      have hpos : q > 0 := by omega
      simp only [hpos, if_true, List.get?_eq_getElem?, hget, h0, if_false, Option.or_some,
        notIdentChar]
  unfold isWordBoundary
  rw [hb, List.head?_drop]
  by_cases hlt : q + n < w.length
  · have hget : w[q + n]? = some w[q + n] := List.getElem?_eq_getElem hlt
    have hs : notIdentChar (some w[q + n]) = !isIdentChar w[q + n] := rfl
    simp only [hlt, decide_True, Bool.and_true, List.get?_eq_getElem?, hget, hs]
    cases notIdentChar (List.take q w).getLast? <;> simp
  · have hget : w[q + n]? = none := List.getElem?_eq_none (by omega)
    have hs : notIdentChar none = true := rfl
    simp only [hlt, decide_False, Bool.and_false, Bool.false_eq_true, if_false, hget,
      hs, Bool.and_true]


theorem take_succ_of_drop (w : Str) (q : Nat) (c : Char) (s : Str) (h : w.drop q = c :: s) :
    w.take (q + 1) = w.take q ++ [c] ∧ w.drop (q + 1) = s := by
  have h1 : w[q]? = some c := by
    have := congrArg List.head? h
    rw [List.head?_drop] at this
    simpa using this
  refine ⟨?_, ?_⟩
  · rw [List.take_succ, h1]
    rfl
  · have := congrArg List.tail h
    rw [List.tail_drop] at this
    simpa using this

theorem replaceLoop_eq_substWord (param arg : Str) (hid : isIdentifierName param) :
    ∀ (fuel : Nat) (w : Str) (pos : Nat) (out : Str) (prev : Option Char),
      pos ≤ w.length →
      (prev = (w.take pos).getLast? ∨
        ∀ c, (w.drop pos).head? = some c → isIdentChar c = false) →
      replaceLoop param arg fuel w pos = Except.ok out →
      out = w.take pos ++ substWord param arg prev 0 (w.drop pos) := by
  intro fuel
  induction fuel with
  | zero =>
    intro w pos out prev _ _ h
    simp [replaceLoop] at h
  | succ fuel ih =>
    intro w pos out prev hpos hprev h
    simp only [replaceLoop] at h
    cases hf : find w param pos with
    | none =>
      rw [hf] at h
      simp only [Except.ok.injEq] at h
      subst h
      have hn := findFrom0_none param _ (find_none_from0 w param pos hpos hf)
      have := substWord_pass param arg (w.drop pos).length (w.drop pos) prev (Nat.le_refl _)
        (fun j hj => hn j (Nat.le_of_lt hj))
      rw [this, List.take_length, List.drop_length, substWord, List.append_nil,
        List.take_append_drop]
    | some q =>
      rw [hf] at h
      simp only at h
      obtain ⟨k, hk, hq⟩ := find_some_from0 w param pos q hf
      obtain ⟨_, hqlen, hsw⟩ := find_spec w param pos q hf
      have hocc := startsWith_eq _ _ hsw
      obtain ⟨hne, hall⟩ := hid
      obtain ⟨c, pr, hparam⟩ := List.exists_cons_of_ne_nil hne
      have hmin := findFrom0_min param _ k hk
      have hklen : k ≤ (w.drop pos).length := by
        simp only [List.length_drop]
        omega
      have hpass := substWord_pass param arg k (w.drop pos) prev hklen hmin
      have hdk : (w.drop pos).drop k = w.drop q := by
        rw [List.drop_drop, hq, Nat.add_comm]
      have htq : w.take q = w.take pos ++ (w.drop pos).take k := by
        rw [hq, List.take_add]
      have hpost : (w.drop q).drop param.length = w.drop (q + param.length) := by
        rw [List.drop_drop, Nat.add_comm]
      rw [hpost] at hocc
      have hcs : w.drop q = c :: (pr ++ w.drop (q + param.length)) := by
        rw [hocc, hparam]
        rfl
      have hcid : isIdentChar c = true := hall c (by rw [hparam]; simp)
      have hpv : ((w.drop pos).take k).getLast?.or prev = (w.take q).getLast? := by
        rw [htq, List.getLast?_append]
        by_cases hk0 : k = 0
        · subst hk0
          simp only [List.take_zero, List.getLast?_nil, Option.none_or]
          rcases hprev with hp | hp
          · exact hp
          · exfalso
            have h0 : (w.drop pos).head? = some c := by
              have : w.drop pos = w.drop q := by simpa using hdk
              rw [this, hcs]
              rfl
            have h1 := hp c h0
            rw [h1] at hcid
            cases hcid
        · have hnn : (w.drop pos).take k ≠ [] := by
            intro he
            have := congrArg List.length he
            simp only [List.length_take, List.length_drop, List.length_nil] at this
            omega
          cases hl : ((w.drop pos).take k).getLast? with
          | none => rw [List.getLast?_eq_none_iff] at hl; exact absurd hl hnn
          | some x => rfl
      rw [hpass, hpv, hdk, ← List.append_assoc, ← htq]
      have hB := isWordBoundary_eq w q param.length hqlen
      have hsucc := take_succ_of_drop w q c _ hcs
      have hprl : param.length - 1 = pr.length := by rw [hparam]; simp
      have hstep : substWord param arg (w.take q).getLast? 0 (w.drop q) =
          if isWordBoundary w q param.length then
            arg ++ substWord param arg param.getLast? 0 (w.drop (q + param.length))
          else c :: substWord param arg (some c) 0 (w.drop (q + 1)) := by
        conv => lhs; rw [hcs, substWord]
        rw [← hcs, ← startsWith_eq_isPrefixOf, hsw, hpost, Bool.true_and, ← hB,
          substWord_skip, hprl, List.drop_left, hsucc.2]
      rw [hstep]
      by_cases hb : isWordBoundary w q param.length = true
      · simp only [hb, if_true] at h ⊢
        have hlen : (w.take q ++ arg).length = q + arg.length := by
          simp only [List.length_append, List.length_take]
          omega
        have hra : replaceAt w q param.length arg =
            (w.take q ++ arg) ++ w.drop (q + param.length) := rfl
        have ht : (replaceAt w q param.length arg).take (q + arg.length) = w.take q ++ arg := by
          rw [hra, ← hlen, List.take_left]
        have hd : (replaceAt w q param.length arg).drop (q + arg.length) =
            w.drop (q + param.length) := by
          rw [hra, ← hlen, List.drop_left]
        have hafter : ∀ d, (w.drop (q + param.length)).head? = some d → isIdentChar d = false := by
          intro d hd1
          rw [hB, hd1] at hb
          simp only [Bool.and_eq_true, notIdentChar, Bool.not_eq_true'] at hb
          exact hb.2
        have := ih (replaceAt w q param.length arg) (q + arg.length) out param.getLast?
          (by rw [hra, List.length_append, hlen]; omega)
          (Or.inr (by rw [hd]; exact hafter)) h
        rw [this, ht, hd, List.append_assoc]
      · simp only [hb, if_false, Bool.false_eq_true] at h ⊢
        have hfit : q + 1 ≤ w.length := by
          have := congrArg List.length hcs
          simp only [List.length_drop, List.length_cons] at this
          omega
        have := ih w (q + 1) out (some c) hfit
          (Or.inl (by rw [hsucc.1]; simp)) h
        rw [this, hsucc.1, List.append_assoc]
        rfl


theorem replaceLoop_value (param arg : Str) (hid : isIdentifierName param) (line : Str)
    (fuel : Nat) (h : line.length + 1 < fuel) :
    replaceLoop param arg fuel line 0 = Except.ok (substWord param arg none 0 line) := by
  obtain ⟨out, hout⟩ := replaceLoop_total param arg hid.1 fuel line 0 (by omega)
  have := replaceLoop_eq_substWord param arg hid fuel line 0 out none (Nat.zero_le _)
    (Or.inl rfl) hout
  rw [hout, this]
  rfl

theorem replaceParameters_sound :
    ∀ (params args : List Str) (line : Str) (fuel : Nat) (out : Str),
      (∀ p ∈ params, isIdentifierName p) →
      replaceParameters fuel line params args = Except.ok out →
      out = sequentialSubst params args line := by
  intro params
  induction params with
  | nil =>
    intro args line fuel out _ h
    simp only [replaceParameters, Except.ok.injEq] at h
    rw [← h]
    rfl
  | cons p ps ih =>
    intro args line fuel out hid h
    cases args with
    | nil =>
      simp only [replaceParameters, Except.ok.injEq] at h
      rw [← h]
      rfl
    | cons a as =>
      simp only [replaceParameters] at h
      cases hl : replaceLoop p a fuel line 0 with
      | error e => simp [hl] at h
      | ok r =>
        rw [hl] at h
        simp only at h
        have hr := replaceLoop_eq_substWord p a (hid p (List.mem_cons_self _ _)) fuel line 0 r none
          (Nat.zero_le _) (Or.inl rfl) hl
        have := ih as r fuel out (fun q hq => hid q (List.mem_cons_of_mem _ hq)) h
        rw [this, hr]
        rfl

theorem replaceParameters_complete :
    ∀ (params args : List Str) (line : Str),
      (∀ p ∈ params, isIdentifierName p) →
      ∃ N, ∀ fuel, N ≤ fuel →
        replaceParameters fuel line params args = Except.ok (sequentialSubst params args line) := by
  intro params
  induction params with
  | nil =>
    intro args line _
    exact ⟨0, fun fuel _ => rfl⟩
  | cons p ps ih =>
    intro args line hid
    cases args with
    | nil => exact ⟨0, fun fuel _ => rfl⟩
    | cons a as =>
      obtain ⟨N, hN⟩ := ih as (substWord p a none 0 line)
        (fun q hq => hid q (List.mem_cons_of_mem _ hq))
      refine ⟨max (line.length + 2) N, fun fuel hfuel => ?_⟩
      have h1 : line.length + 1 < fuel := by
        have := Nat.le_max_left (line.length + 2) N
        omega
      have h2 : N ≤ fuel := Nat.le_trans (Nat.le_max_right _ _) hfuel
      simp only [replaceParameters,
        replaceLoop_value p a (hid p (List.mem_cons_self _ _)) line fuel h1]
      exact hN fuel h2

theorem simultaneousSubst_single (param arg : Str) (hne : param ≠ []) :
    ∀ (s : Str) (prev : Option Char) (k : Nat),
      simultaneousSubst [param] [arg] prev k s = substWord param arg prev k s := by
  intro s
  induction s with
  | nil => intro prev k; cases k <;> rfl
  | cons c s ih =>
    intro prev k
    cases k with
    | succ k =>
      rw [simultaneousSubst, substWord]
      exact ih prev k
    | zero =>
      rw [simultaneousSubst, substWord]
      have hemp : param.isEmpty = false := by
        cases param with
        | nil => exact absurd rfl hne
        | cons _ _ => rfl
      simp only [firstMatch, hemp, Bool.not_false, Bool.true_and]
      by_cases hc : (param.isPrefixOf (c :: s) && notIdentChar prev &&
          notIdentChar ((c :: s).drop param.length).head?) = true
      · simp only [hc, if_true, ih]
      · simp only [hc, if_false, ih, Bool.false_eq_true]

/-- C11, as stated, fails: with the parameters `A`, `B` and the arguments `B`, `A`, the
body line `COPY A, B` is rewritten to `COPY A, A`, whereas the simultaneous positional
substitution of the original body line is `COPY B, A`. The `B` that was inserted for `A`
is read again, and replaced, when the turn of the parameter `B` comes. -/
theorem C11_inserted_argument_rescanned :
    replaceParameters 16 "COPY A, B".toList ["A".toList, "B".toList] ["B".toList, "A".toList]
        = Except.ok "COPY A, A".toList ∧
      simultaneousSubst ["A".toList, "B".toList] ["B".toList, "A".toList] none 0
        "COPY A, B".toList = "COPY B, A".toList ∧
      ¬ ∀ (fuel : Nat) (line : Str) (params args : List Str) (out : Str),
          replaceParameters fuel line params args = Except.ok out →
          out = simultaneousSubst params args none 0 line := by
  refine ⟨rfl, by decide, fun h => ?_⟩
  have := h 16 "COPY A, B".toList ["A".toList, "B".toList] ["B".toList, "A".toList]
    "COPY A, A".toList rfl
  revert this
  decide

/-- C11, amended: for parameters written like identifiers, `replaceParameters` is the
substitution of the parameters one after the other, in list order, each over the text that
the previous substitution left (`sequentialSubst`): whatever it returns is that text, and
with enough fuel it returns it. Within the turn of one parameter the text inserted for it
is not read again, so that for a single parameter the result is the simultaneous
substitution; the text inserted for a parameter is read again in the turns of the
parameters that follow it (`COPY A, B` with `A`, `B` for `B`, `A` gives `COPY A, A`). -/
theorem C11_sequential_substitution (line : Str) (params args : List Str)
    (hid : ∀ p ∈ params, isIdentifierName p) :
    (∀ (fuel : Nat) (out : Str), replaceParameters fuel line params args = Except.ok out →
        out = sequentialSubst params args line) ∧
      (∃ N, ∀ fuel, N ≤ fuel →
        replaceParameters fuel line params args
          = Except.ok (sequentialSubst params args line)) ∧
      (∀ (param arg : Str), isIdentifierName param →
        sequentialSubst [param] [arg] line = simultaneousSubst [param] [arg] none 0 line) ∧
      sequentialSubst ["A".toList, "B".toList] ["B".toList, "A".toList] "COPY A, B".toList
        = "COPY A, A".toList := by
  refine ⟨fun fuel out h => replaceParameters_sound params args line fuel out hid h,
    replaceParameters_complete params args line hid, fun param arg hp => ?_, by decide⟩
  rw [simultaneousSubst_single param arg hp.1]
  rfl

/-- C11 on the body line `COPY SRC, DST ; SRC1` with `DST`, `N+1` for `SRC`, `DST`: the
`DST` inserted for `SRC` is replaced in the turn of `DST`, and `SRC1` is left alone. -/
theorem C11_sequential_substitution_witness :
    (∀ p ∈ ["SRC".toList, "DST".toList], isIdentifierName p) ∧
      replaceParameters 32 "COPY SRC, DST ; SRC1".toList ["SRC".toList, "DST".toList]
        ["DST".toList, "N+1".toList] = Except.ok "COPY N+1, N+1 ; SRC1".toList ∧
      sequentialSubst ["SRC".toList, "DST".toList] ["DST".toList, "N+1".toList]
        "COPY SRC, DST ; SRC1".toList = "COPY N+1, N+1 ; SRC1".toList := by
  have hid : ∀ p ∈ ["SRC".toList, "DST".toList], isIdentifierName p := by
    intro p hp
    simp only [List.mem_cons, List.mem_singleton, List.not_mem_nil, or_false] at hp
    rcases hp with rfl | rfl
    · exact ⟨by decide, by decide⟩
    · exact ⟨by decide, by decide⟩
  have h := C11_sequential_substitution "COPY SRC, DST ; SRC1".toList
    ["SRC".toList, "DST".toList] ["DST".toList, "N+1".toList] hid
  exact ⟨hid, rfl, (h.1 32 _ rfl).symm⟩

/-! ## Statement C12: the lines that `preprocess` returns -/

/-- C12 fails on the source `M: MACRO X, Y` / `LOAD Y` / `ENDMACRO` / `M A, ,B`:
`splitParameters` tests `current.empty()` before it trims, so that the blank between the
two commas becomes the empty argument (the arguments are `A`, the empty text and `B`), and
the expansion of `LOAD Y` is `LOAD ` with a trailing space: the one line that `preprocess`
returns is not trimmed. -/
theorem C12_blank_argument_untrimmed :
    splitParameters "A, ,B".toList = ["A".toList, [], "B".toList] ∧
      splitParameters "A,,B".toList = ["A".toList, "B".toList] ∧
      preprocess 16 blankArgumentSource = Except.ok ["LOAD ".toList] ∧
      "LOAD ".toList.getLast? = some ' ' ∧
      trim "LOAD ".toList ≠ "LOAD ".toList := by
  refine ⟨by decide, by decide, rfl, rfl, by decide⟩

/-! ## Statement C13: the expansion of a call -/

theorem mem_dropWhile_or {P : Char → Bool} (c : Char) (t : Str) (h : c ∈ t) :
    P c = true ∨ c ∈ t.dropWhile P := by
  induction t with
  | nil => simp at h
  | cons d t ih =>
    by_cases hd : P d = true
    · rw [List.dropWhile_cons_of_pos hd]
      rcases List.mem_cons.mp h with rfl | h1
      · exact Or.inl hd
      · exact ih h1
    · rw [List.dropWhile_cons_of_neg hd]
      exact Or.inr h

theorem mem_trim (c : Char) (t : Str) (h : c ∈ t) : isTrimChar c = true ∨ c ∈ trim t := by
  rcases mem_dropWhile_or c t h with h1 | h1
  · exact Or.inl h1
  · rcases mem_dropWhile_or c _ (List.mem_reverse.mpr h1) with h2 | h2
    · exact Or.inl h2
    · exact Or.inr (List.mem_reverse.mpr h2)

theorem removeComments_of_not_mem (t : Str) (h : ';' ∉ t) : removeComments t = t := by
  have := containsStr_false_of_not_mem t ";".toList ';' (by decide) h
  unfold containsStr at this
  unfold removeComments
  cases hf : find t ";".toList 0 with
  | none => rfl
  | some q => rw [hf] at this; cases this

theorem cleanLine_of_terminator (t : Str) (h : toUpper (trim t) = "ENDMACRO".toList) :
    cleanLine t = trim t := by
  have hno : ';' ∉ t := by
    intro hm
    rcases mem_trim ';' t hm with h1 | h1
    · revert h1
      decide
    · have : toUpperChar ';' ∈ toUpper (trim t) := List.mem_map_of_mem _ h1
      rw [h] at this
      revert this
      decide
  unfold cleanLine
  rw [removeComments_of_not_mem t hno]

theorem isMacroDefinition_of_terminator (l : Str) (h : toUpper l = "ENDMACRO".toList) :
    isMacroDefinition l = false := by
  unfold isMacroDefinition
  simp only [h]
  decide

theorem isEmpty_of_isMacroDefinition (l : Str) (h : isMacroDefinition l = true) :
    l.isEmpty = false := by
  cases l with
  | nil => revert h; decide
  | cons _ _ => rfl

theorem isEmpty_of_terminator (l : Str) (h : toUpper l = "ENDMACRO".toList) :
    l.isEmpty = false := by
  cases l with
  | nil => revert h; decide
  | cons _ _ => rfl

theorem raw_not_terminator (b : Str) (h : toUpper (cleanLine b) ≠ "ENDMACRO".toList) :
    toUpper (trim b) ≠ "ENDMACRO".toList := by
  intro he
  rw [cleanLine_of_terminator b he] at h
  exact h he

theorem foldl_defStep_body (body : List Str)
    (hbody : ∀ b ∈ body, isMacroDefinition (cleanLine b) = false ∧
      toUpper (cleanLine b) ≠ "ENDMACRO".toList) :
    ∀ (m : Macro) (ms : List (Str × Macro)),
      body.foldl defStep { in_macro_def := true, current := m, macros := ms } =
        { in_macro_def := true, current := { m with body := m.body ++ storedBody body },
          macros := ms } := by
  induction body with
  | nil =>
    intro m ms
    simp [storedBody]
  | cons b body ih =>
    intro m ms
    have hb := hbody b (List.mem_cons_self _ _)
    have hrest := ih (fun x hx => hbody x (List.mem_cons_of_mem _ hx))
    rw [List.foldl_cons]
    by_cases he : (cleanLine b).isEmpty = true
    · have h1 : defStep { in_macro_def := true, current := m, macros := ms } b =
          { in_macro_def := true, current := m, macros := ms } := by
        unfold defStep
        simp only [← cleanLine.eq_1, he, if_true]
      rw [h1, hrest]
      simp [storedBody, he]
    · have h1 : defStep { in_macro_def := true, current := m, macros := ms } b =
          { in_macro_def := true, current := { m with body := m.body ++ [cleanLine b] },
            macros := ms } := by
        unfold defStep
        simp only [← cleanLine.eq_1, he, hb.1, hb.2, if_false, Bool.false_eq_true,
          Bool.true_and, if_true, decide_False]
      rw [h1, hrest]
      simp [storedBody, he]


theorem expandPass_skip (fuel : Nat) (macros : List (Str × Macro)) (body : List Str)
    (hbody : ∀ b ∈ body, toUpper (cleanLine b) ≠ "ENDMACRO".toList)
    (rest out : List Str) :
    expandPass fuel macros (body ++ rest) true out = expandPass fuel macros rest true out := by
  induction body with
  | nil => rfl
  | cons b body ih =>
    have hb := raw_not_terminator b (hbody b (List.mem_cons_self _ _))
    rw [List.cons_append, expandPass, if_pos hb]
    exact ih (fun x hx => hbody x (List.mem_cons_of_mem _ hx))

theorem collectMacros_single (header terminator call : Str) (body : List Str)
    (hheader : isMacroDefinition (cleanLine header) = true)
    (hbody : ∀ b ∈ body, isMacroDefinition (cleanLine b) = false ∧
      toUpper (cleanLine b) ≠ "ENDMACRO".toList)
    (hterm : toUpper (trim terminator) = "ENDMACRO".toList)
    (hcall : isMacroDefinition (cleanLine call) = false) :
    collectMacros (header :: body ++ [terminator, call]) =
      [((parseHeader (cleanLine header)).name,
        { parseHeader (cleanLine header) with body := storedBody body })] := by
  have hct := cleanLine_of_terminator terminator hterm
  have h0 : defStep { in_macro_def := false, current := Macro.named [], macros := [] } header =
      { in_macro_def := true, current := parseHeader (cleanLine header), macros := [] } := by
    unfold defStep
    simp only [← cleanLine.eq_1, isEmpty_of_isMacroDefinition _ hheader, hheader, if_true,
      if_false, Bool.false_eq_true]
  have hpb : (parseHeader (cleanLine header)).body = [] := rfl
  have h2 : ∀ (m : Macro) (ms : List (Str × Macro)),
      defStep { in_macro_def := true, current := m, macros := ms } terminator =
        { in_macro_def := false, current := Macro.named [], macros := mapInsert m.name m ms } := by
    intro m ms
    unfold defStep
    have e1 : (trim terminator).isEmpty = false := isEmpty_of_terminator _ hterm
    simp only [← cleanLine.eq_1, hct, e1, isMacroDefinition_of_terminator _ hterm, hterm,
      if_true, if_false, Bool.false_eq_true, Bool.true_and, decide_True]
  have h3 : ∀ (m : Macro) (ms : List (Str × Macro)),
      defStep { in_macro_def := false, current := m, macros := ms } call =
        { in_macro_def := false, current := m, macros := ms } := by
    intro m ms
    unfold defStep
    simp only [← cleanLine.eq_1, hcall, if_false, Bool.false_eq_true, Bool.false_and,
      ite_self]
  unfold collectMacros
  rw [List.cons_append, List.foldl_cons, h0, List.foldl_append, foldl_defStep_body body hbody,
    List.foldl_cons, h2, List.foldl_cons, h3, List.foldl_nil, hpb, List.nil_append]
  rfl


theorem expandPass_single (fuel : Nat) (macros : List (Str × Macro))
    (header terminator call : Str) (body : List Str) ( m : Macro)
    (hheader : isMacroDefinition (cleanLine header) = true)
    (hbody : ∀ b ∈ body, toUpper (cleanLine b) ≠ "ENDMACRO".toList)
    (hterm : toUpper (trim terminator) = "ENDMACRO".toList)
    (hne : cleanLine call ≠ [])
    (hcall : isMacroDefinition (cleanLine call) = false)
    (hfind : mapFind (firstWord (cleanLine call)) macros = some m) :
    expandPass fuel macros (header :: body ++ [terminator, call]) false [] =
      expandMacro fuel (cleanLine call) m := by
  have hraw : toUpper (trim header) ≠ "ENDMACRO".toList := by
    intro he
    have h1 := cleanLine_of_terminator header he
    rw [h1, isMacroDefinition_of_terminator _ he] at hheader
    cases hheader
  have hce : (cleanLine call).isEmpty = false := by
    cases hc : cleanLine call with
    | nil => exact absurd hc hne
    | cons _ _ => rfl
  have hmc : isMacroCall macros (cleanLine call) = true := by
    unfold isMacroCall
    rw [hfind]
    rfl
  rw [List.cons_append, expandPass]
  simp only [← cleanLine.eq_1, isEmpty_of_isMacroDefinition _ hheader, hheader, if_true,
    if_false, Bool.false_eq_true, hraw, ne_eq, not_false_eq_true]
  rw [expandPass_skip fuel macros body hbody, expandPass]
  simp only [hterm, ne_eq, not_true_eq_false, if_false]
  rw [expandPass]
  simp only [← cleanLine.eq_1, hce, hcall, hmc, hfind, if_true, if_false, Bool.false_eq_true]
  cases expandMacro fuel (cleanLine call) m with
  | error e => rfl
  | ok xs => simp [expandPass]

theorem mapM_replaceParameters_complete (params args : List Str)
    (hid : ∀ p ∈ params, isIdentifierName p) :
    ∀ (ls : List Str), ∃ N, ∀ fuel, N ≤ fuel →
      ls.mapM (fun b => replaceParameters fuel b params args) =
        Except.ok (ls.map (sequentialSubst params args)) := by
  intro ls
  induction ls with
  | nil => exact ⟨0, fun fuel _ => rfl⟩
  | cons l ls ih =>
    obtain ⟨N1, h1⟩ := replaceParameters_complete params args l hid
    obtain ⟨N2, h2⟩ := ih
    refine ⟨max N1 N2, fun fuel hfuel => ?_⟩
    have e1 := h1 fuel (Nat.le_trans (Nat.le_max_left _ _) hfuel)
    have e2 := h2 fuel (Nat.le_trans (Nat.le_max_right _ _) hfuel)
    rw [List.mapM_cons, e1, e2]
    rfl

theorem expandMacro_eq (fuel : Nat) (line : Str) ( m : Macro) :
    expandMacro fuel line m =
      m.body.mapM (fun b => replaceParameters fuel b m.parameters (callArguments line)) := rfl

/-- C13, as stated, fails when the call line holds the text `MACRO`: in the source
`M: MACRO X` / `LOAD X` / `ENDMACRO` / `M MACRO1` the first word of the last line is the
macro's name and `replaceParameters` gives `LOAD MACRO1` for the body line, but the line
is taken for a macro header and `preprocess` emits nothing. Likewise a body line that
holds `MACRO` (`LOAD MACROS`) is taken for a header in the first loop, which then stores a
macro `LOAD` instead of `M`, and the call `M A` is emitted unexpanded. -/
theorem C13_call_taken_for_header :
    firstWord (cleanLine "M MACRO1".toList) = "M".toList ∧
      replaceParameters 16 "LOAD X".toList ["X".toList] (callArguments "M MACRO1".toList)
        = Except.ok "LOAD MACRO1".toList ∧
      preprocess 16 macroWordCallSource = Except.ok [] ∧
      preprocess 16 macroWordBodySource = Except.ok ["M A".toList] := by
  refine ⟨by decide, rfl, rfl, rfl⟩

/-- C13, amended: the source is a header line (a line that `isMacroDefinition` accepts),
body lines of which none is taken for a header nor reads `ENDMACRO`, a line that reads
`ENDMACRO` (any letter case, blanks around it), and a non-empty call line that is not
taken for a header and whose first word is the macro's name. Then the first loop stores
exactly that macro, with the cleaned non-empty body lines, and `preprocess` returns for
the whole source exactly `replaceParameters` of each stored body line, in order, with the
macro's parameters and the comma-split arguments of the call; with parameters written like
identifiers and enough fuel it does return these lines. The lines are emitted as they are:
in `INC: MACRO` / `ADD ONE` / `ENDMACRO` / `TWICE: MACRO` / `INC` / `INC` / `ENDMACRO` /
`TWICE` the call gives `INC`, `INC`. -/
theorem C13_macro_call_expansion (header terminator call : Str) (body : List Str)
    (hheader : isMacroDefinition (cleanLine header) = true)
    (hbody : ∀ b ∈ body, isMacroDefinition (cleanLine b) = false ∧
      toUpper (cleanLine b) ≠ "ENDMACRO".toList)
    (hterm : toUpper (trim terminator) = "ENDMACRO".toList)
    (hne : cleanLine call ≠ [])
    (hcall : isMacroDefinition (cleanLine call) = false)
    (hname : firstWord (cleanLine call) = (parseHeader (cleanLine header)).name) :
    collectMacros (header :: body ++ [terminator, call]) =
        [((parseHeader (cleanLine header)).name,
          { parseHeader (cleanLine header) with body := storedBody body })] ∧
      (∀ fuel, preprocess fuel (header :: body ++ [terminator, call]) =
        (storedBody body).mapM (fun b => replaceParameters fuel b
          (parseHeader (cleanLine header)).parameters (callArguments (cleanLine call)))) ∧
      ((∀ p ∈ (parseHeader (cleanLine header)).parameters, isIdentifierName p) →
        ∃ N, ∀ fuel, N ≤ fuel →
          preprocess fuel (header :: body ++ [terminator, call]) =
            Except.ok ((storedBody body).map
              (sequentialSubst (parseHeader (cleanLine header)).parameters
                (callArguments (cleanLine call))))) ∧
      preprocess 16 nestedMacroSource = Except.ok ["INC".toList, "INC".toList] := by
  have hcm := collectMacros_single header terminator call body hheader hbody hterm hcall
  have hpre : ∀ fuel, preprocess fuel (header :: body ++ [terminator, call]) =
      (storedBody body).mapM (fun b => replaceParameters fuel b
        (parseHeader (cleanLine header)).parameters (callArguments (cleanLine call))) := by
    intro fuel
    unfold preprocess
    rw [hcm]
    rw [expandPass_single fuel _ header terminator call body
      { parseHeader (cleanLine header) with body := storedBody body }
      hheader (fun b hb => (hbody b hb).2) hterm hne hcall
      (by rw [hname]; simp [mapFind])]
    rw [expandMacro_eq]
  refine ⟨hcm, hpre, fun hid => ?_, rfl⟩
  obtain ⟨N, hN⟩ := mapM_replaceParameters_complete
    (parseHeader (cleanLine header)).parameters (callArguments (cleanLine call)) hid
    (storedBody body)
  exact ⟨N, fun fuel hfuel => by rw [hpre fuel, hN fuel hfuel]⟩

/-- C13 on a definition of `M` whose second body line names `M` itself, closed by
`EndMacro`, and the call `M A, B`: the two stored body lines are emitted with `A` for `X`,
and the line `M A` is not expanded again. -/
theorem C13_macro_call_expansion_witness :
    preprocess 16 (selfNamingHeader :: selfNamingBody ++ ["EndMacro ".toList, selfNamingCall])
        = Except.ok ["LOAD A".toList, "M A".toList] ∧
      (storedBody selfNamingBody).mapM (fun b => replaceParameters 16 b
          (parseHeader (cleanLine selfNamingHeader)).parameters
          (callArguments (cleanLine selfNamingCall)))
        = Except.ok ["LOAD A".toList, "M A".toList] := by
  have hbody : ∀ b ∈ selfNamingBody, isMacroDefinition (cleanLine b) = false ∧
      toUpper (cleanLine b) ≠ "ENDMACRO".toList := by
    intro b hb
    simp only [selfNamingBody, List.mem_cons, List.mem_singleton, List.not_mem_nil,
      or_false] at hb
    have e1 : toUpper (cleanLine "  LOAD X ; first".toList) = "LOAD X".toList := rfl
    have e2 : toUpper (cleanLine "".toList) = [] := rfl
    have e3 : toUpper (cleanLine "  M X".toList) = "M X".toList := rfl
    rcases hb with rfl | rfl | rfl
    · exact ⟨rfl, by rw [e1]; decide⟩
    · exact ⟨rfl, by rw [e2]; decide⟩
    · exact ⟨rfl, by rw [e3]; decide⟩
  have hne : cleanLine selfNamingCall ≠ [] := by
    have e : cleanLine selfNamingCall = "M A, B".toList := rfl
    rw [e]
    decide
  have h := (C13_macro_call_expansion selfNamingHeader "EndMacro ".toList selfNamingCall
    selfNamingBody rfl hbody rfl hne rfl rfl).2.1 16
  exact ⟨rfl, h ▸ rfl⟩

/-! ## Statement C21: `Parser::parse` and the exceptions of `std::stoi` -/

/-- C21 fails on the source `SPACE 99999999999`: `isNumber` accepts the operand, `parseNumber`
passes it to `std::stoi`, which throws `std::out_of_range`, and nothing in
`Parser::parseDirective` or `Parser::parse` catches it: with any fuel that lets the lexer
read the two tokens, `parse` ends with that exception and returns no parser state and no
`ParseError`. -/
theorem C21_space_count_out_of_range :
    isNumber "99999999999".toList = true ∧
      parseNumber "99999999999".toList = Except.error Fault.out_of_range ∧
      (∀ fuel, (Parser.new spaceOverflowSource).parse (fuel + 1)
        = Except.error Fault.out_of_range) ∧
      (∀ fuel p, (Parser.new spaceOverflowSource).parse fuel ≠ Except.ok p) := by
  have h : ∀ fuel, (Parser.new spaceOverflowSource).parse (fuel + 1)
      = Except.error Fault.out_of_range := fun fuel => rfl
  refine ⟨rfl, rfl, h, fun fuel p hp => ?_⟩
  cases fuel with
  | zero =>
    have h0 : (Parser.new spaceOverflowSource).parse 0 = Except.error Fault.fuel := rfl
    rw [h0] at hp
    cases hp
  | succ n => rw [h n] at hp; cases hp

/-! ## Statements C26 and C27: what the two loops of `preprocess` take for a terminator
and for the keyword of a header -/

/-- C26 fails on `M: MACRO` / `ADD ONE` / `ENDMACRO ; end of M` / `LOAD X`: the first loop
removes the comment and ends the definition of `M` at the third line, but the skip loop of
the second pass compares the raw line, comment included, with `ENDMACRO`, does not stop
there and skips `LOAD X` as well: nothing is returned. Without the comment the line
`LOAD X` is returned. -/
theorem C26_commented_terminator_not_matched :
    collectMacros commentedTerminatorSource
        = [("M".toList, { name := "M".toList, parameters := [], body := ["ADD ONE".toList] })] ∧
      (∀ fuel, preprocess fuel commentedTerminatorSource = Except.ok []) ∧
      (∀ fuel, preprocess fuel plainTerminatorSource = Except.ok ["LOAD X".toList]) := by
  refine ⟨rfl, fun _ => rfl, fun _ => rfl⟩

/-- C27 fails on the header `M: Macro X`: `isMacroDefinition` takes it for a header, but
both `find("MACRO")` and `find("macro")` fail, so that `pos` is `npos`: the name is the
whole line `M: Macro X`, and `pos + 5` wraps around to 4, so that the one parameter is
`acro X`. With the keyword written `MACRO` or `macro` the name is `M` and the parameter
`X`. -/
theorem C27_mixed_case_keyword :
    isMacroDefinition mixedCaseHeader = true ∧
      parseHeader mixedCaseHeader
        = { name := "M: Macro X".toList, parameters := ["acro X".toList], body := [] } ∧
      parseHeader "M: MACRO X".toList
        = { name := "M".toList, parameters := ["X".toList], body := [] } ∧
      parseHeader "M: macro X".toList
        = { name := "M".toList, parameters := ["X".toList], body := [] } ∧
      collectMacros [mixedCaseHeader, "LOAD X".toList, "ENDMACRO".toList]
        = [("M: Macro X".toList,
            { name := "M: Macro X".toList, parameters := ["acro X".toList],
              body := ["LOAD X".toList] })] := by
  refine ⟨rfl, rfl, rfl, rfl, rfl⟩

/-! ## Statement C28: a comma at the top level -/

/-- C28 (counterexample): on the source `,` the parse loop meets the COMMA token at the top
level and `Parser::parse` ends with an empty error list. -/
theorem C28_comma_adds_no_error :
    ((Parser.new commaSource).parse 8).map (fun p => (p.errors, p.instructions))
      = Except.ok ([], []) := by
  rfl

/-- C28 (amended): in every parser state the `switch` of `Parser::parse` skips a COMMA
token: the state is returned as it is, so that the error list, the instruction list,
`current_address` and the symbol table are unchanged; in the parse loop the only change of
such an iteration is that the lexer has consumed the token. -/
theorem C28_comma_skipped (fuel : Nat) (p : Parser) (value : Str) (line : Int) :
    p.dispatch fuel ⟨TokenType.COMMA, value, line⟩ = Except.ok p ∧
      (∀ (n : Nat) (lx : Lexer), p.lexer.hasMoreTokens = true →
        p.lexer.getNextToken fuel = Except.ok (⟨TokenType.COMMA, value, line⟩, lx) →
        Parser.parseLoop fuel (n + 1) p = Parser.parseLoop fuel n { p with lexer := lx }) := by
  refine ⟨rfl, fun n lx hm hg => ?_⟩
  rw [Parser.parseLoop]
  simp only [hm, hg, if_true]
  rfl

/-! ## Statement C22: `getSymbolAddress` in the reachable tables -/

theorem agrees_empty : SymbolTable.empty.agrees (fun _ => none) := by
  intro name
  simp [SymbolTable.empty, mapFind]

theorem agrees_insert_defined (st : SymbolTable) (d : Str → Option Int) (n : Str) (a : Int)
    (h : st.agrees d) :
    SymbolTable.agrees { st with symbols := mapInsert n ⟨n, a, true⟩ st.symbols }
      (fun k => if k = n then some a else d k) := by
  intro name
  by_cases hk : name = n
  · subst hk
    simp only [mapFind_mapInsert_self, if_true]
  · simp only [mapFind_mapInsert_other n name _ _ hk, hk, if_false]
    exact h name

theorem agrees_applyOp (st : SymbolTable) (d : Str → Option Int) (op : TableOp)
    (h : st.agrees d) : (st.applyOp op).agrees (definedStep d op) := by
  cases op with
  | defineSymbol n a => exact agrees_insert_defined st d n a h
  | addSymbol n a =>
    have hn := h n
    cases hf : mapFind n st.symbols with
    | none =>
      rw [hf] at hn
      simp only at hn
      have e : definedStep d (TableOp.addSymbol n a) = fun k => if k = n then some a else d k := by
        funext k
        simp only [definedStep, hn]
      have e2 : st.applyOp (TableOp.addSymbol n a)
          = { st with symbols := mapInsert n ⟨n, a, true⟩ st.symbols } := by
        simp only [SymbolTable.applyOp, SymbolTable.addSymbol, hf]
      rw [e, e2]
      exact agrees_insert_defined st d n a h
    | some s =>
      rw [hf] at hn
      simp only at hn
      by_cases hd : s.defined = true
      · simp only [hd, if_true] at hn
        have e : definedStep d (TableOp.addSymbol n a) = d := by
          funext k
          simp only [definedStep, hn]
          split
          · rename_i hk
            rw [hk, hn]
          · rfl
        have e2 : st.applyOp (TableOp.addSymbol n a) = st := by
          simp only [SymbolTable.applyOp, SymbolTable.addSymbol, hf, hd, if_true]
        rw [e, e2]
        exact h
      · simp only [hd, if_false, Bool.false_eq_true] at hn
        have e : definedStep d (TableOp.addSymbol n a)
            = fun k => if k = n then some a else d k := by
          funext k
          simp only [definedStep, hn.1]
        have e2 : st.applyOp (TableOp.addSymbol n a)
            = { st with symbols := mapInsert n ⟨n, a, true⟩ st.symbols } := by
          simp only [SymbolTable.applyOp, SymbolTable.addSymbol, hf, hd, if_false,
            Bool.false_eq_true]
        rw [e, e2]
        exact agrees_insert_defined st d n a h
  | addPendingReference a n l =>
    have e : definedStep d (TableOp.addPendingReference a n l) = d := rfl
    rw [e]
    cases hf : mapFind n st.symbols with
    | some s =>
      have e2 : (st.applyOp (TableOp.addPendingReference a n l)).symbols = st.symbols := by
        simp only [SymbolTable.applyOp, SymbolTable.addPendingReference, hf]
      intro name
      rw [e2]
      exact h name
    | none =>
      have hn := h n
      rw [hf] at hn
      simp only at hn
      have e2 : (st.applyOp (TableOp.addPendingReference a n l)).symbols
          = mapInsert n ⟨n, -1, false⟩ st.symbols := by
        simp only [SymbolTable.applyOp, SymbolTable.addPendingReference, hf]
      intro name
      rw [e2]
      by_cases hk : name = n
      · subst hk
        simp only [mapFind_mapInsert_self, Bool.false_eq_true, if_false]
        exact ⟨hn, trivial⟩
      · simp only [mapFind_mapInsert_other n name _ _ hk]
        exact h name

theorem agrees_foldl (ops : List TableOp) :
    ∀ (st : SymbolTable) (d : Str → Option Int), st.agrees d →
      (ops.foldl SymbolTable.applyOp st).agrees (ops.foldl definedStep d) := by
  induction ops with
  | nil => intro st d h; exact h
  | cons op ops ih =>
    intro st d h
    exact ih _ _ (agrees_applyOp st d op h)

theorem agrees_run (ops : List TableOp) : (SymbolTable.run ops).agrees (definedAddress ops) :=
  agrees_foldl ops _ _ agrees_empty

/-- C22: in every table reached from the empty table by `addSymbol`, `defineSymbol` and
`addPendingReference` calls, `getSymbolAddress` returns -1 for a name that has no entry
and for a name whose entry is undefined, and for a defined name it returns the address of
the entry, which is the address at which the calls defined the name (`definedAddress`).
In the history of a reference to `X`, `addSymbol(Y, 7)`, `addSymbol(Y, 9)` and a reference
to `Y`, the addresses of `X`, `Y` and `Z` are -1, 7 and -1. -/
theorem C22_getSymbolAddress_reachable (ops : List TableOp) (name : Str) :
    (mapFind name (SymbolTable.run ops).symbols = none →
      (SymbolTable.run ops).getSymbolAddress name = -1) ∧
    (∀ s, mapFind name (SymbolTable.run ops).symbols = some s → s.defined = false →
      (SymbolTable.run ops).getSymbolAddress name = -1 ∧ definedAddress ops name = none) ∧
    (∀ s, mapFind name (SymbolTable.run ops).symbols = some s → s.defined = true →
      (SymbolTable.run ops).getSymbolAddress name = s.address ∧
      definedAddress ops name = some s.address) ∧
    (SymbolTable.run ops).getSymbolAddress name = (definedAddress ops name).getD (-1) ∧
    (SymbolTable.run ops).isSymbolDefined name = (definedAddress ops name).isSome ∧
    ["X".toList, "Y".toList, "Z".toList].map (SymbolTable.run tableHistory).getSymbolAddress
      = [-1, 7, -1] := by
  have h := agrees_run ops name
  unfold SymbolTable.getSymbolAddress SymbolTable.isSymbolDefined
  cases hf : mapFind name (SymbolTable.run ops).symbols with
  | none =>
    rw [hf] at h
    simp only at h
    refine ⟨fun _ => rfl, fun s hs _ => (by cases hs), fun s hs _ => (by cases hs), ?_, ?_,
      (by decide)⟩
    · rw [h]; rfl
    · rw [h]; rfl
  | some s =>
    rw [hf] at h
    simp only at h
    by_cases hd : s.defined = true
    · simp only [hd, if_true] at h
      refine ⟨fun hn => (by cases hn), fun s1 hs hd1 => ?_, fun s1 hs _ => ?_, ?_, ?_,
        (by decide)⟩
      · simp only [Option.some.injEq] at hs
        subst hs
        rw [hd] at hd1
        cases hd1
      · simp only [Option.some.injEq] at hs
        subst hs
        exact ⟨rfl, h⟩
      · rw [h]; rfl
      · rw [h]; exact hd
    · simp only [hd, if_false, Bool.false_eq_true] at h
      refine ⟨fun hn => (by cases hn), fun s1 hs _ => ?_, fun s1 hs hd1 => ?_, ?_, ?_,
        (by decide)⟩
      · simp only [Option.some.injEq] at hs
        subst hs
        exact ⟨h.2, h.1⟩
      · simp only [Option.some.injEq] at hs
        subst hs
        exact absurd hd1 hd
      · rw [h.1]; exact h.2
      · rw [h.1]
        simpa using hd

/-! ## Statement C23: `resolvePendingReferences` -/

theorem foldl_resolveStep (st : SymbolTable) (refs : List PendingReference) :
    ∀ acc : List (Int × Int),
      refs.foldl resolveStep (acc, st) =
        (acc ++ (refs.filter (fun ref => st.isSymbolDefined ref.symbol_name)).map
          (fun ref => (ref.instruction_address, st.getSymbolAddress ref.symbol_name)), st) := by
  induction refs with
  | nil => intro acc; simp
  | cons r refs ih =>
    intro acc
    rw [List.foldl_cons]
    by_cases hd : st.isSymbolDefined r.symbol_name = true
    · have e : resolveStep (acc, st) r
          = (acc ++ [(r.instruction_address, st.getSymbolAddress r.symbol_name)], st) := by
        simp only [resolveStep, hd, if_true]
      rw [e, ih]
      simp only [List.filter_cons, hd, if_true, List.map_cons, List.append_assoc,
        List.singleton_append]
    · have e : resolveStep (acc, st) r = (acc, st) := by
        simp only [resolveStep, hd, if_false, Bool.false_eq_true]
      rw [e, ih]
      simp only [List.filter_cons, hd, if_false, Bool.false_eq_true]

/-- C23: for every table, the loop of `resolvePendingReferences` returns exactly the pairs
(position, address of the symbol) of the pending references whose symbol is defined, in
the order of the pending list, a pair being returned for a reference exactly when its
symbol is defined, and it leaves the table, symbols and pending list, as it was. The
function `resolvePendingReferences` used by the code generator is that list. -/
theorem C23_resolvePendingReferences (st : SymbolTable) :
    st.resolveLoop.1 = resolvedPairs st ∧
      st.resolveLoop.2 = st ∧
      st.resolvePendingReferences = resolvedPairs st ∧
      (∀ pair, pair ∈ st.resolveLoop.1 ↔
        ∃ ref ∈ st.pending_references, st.isSymbolDefined ref.symbol_name = true ∧
          pair = (ref.instruction_address, st.getSymbolAddress ref.symbol_name)) ∧
      (SymbolTable.run tableHistory).resolveLoop.1 = [(4, 7)] := by
  have h := foldl_resolveStep st st.pending_references []
  have h1 : st.resolveLoop.1 = resolvedPairs st := by
    unfold SymbolTable.resolveLoop
    rw [h]
    rfl
  refine ⟨h1, ?_, ?_, ?_, by decide⟩
  · unfold SymbolTable.resolveLoop
    rw [h]
  · unfold SymbolTable.resolvePendingReferences resolvedPairs
    generalize st.pending_references = refs
    induction refs with
    | nil => rfl
    | cons r refs ih =>
      by_cases hd : st.isSymbolDefined r.symbol_name = true
      · simp only [List.filterMap_cons, List.filter_cons, hd, if_true, List.map_cons, ih]
      · simp only [List.filterMap_cons, List.filter_cons, hd, if_false, Bool.false_eq_true, ih]
  · intro pair
    rw [h1]
    unfold resolvedPairs
    simp only [List.mem_map, List.mem_filter]
    constructor
    · rintro ⟨ref, ⟨hm, hd⟩, rfl⟩
      exact ⟨ref, hm, hd, rfl⟩
    · rintro ⟨ref, hm, hd, rfl⟩
      exact ⟨ref, ⟨hm, hd⟩, rfl⟩

/-! ## Statement C24: opcodes and sizes of the mnemonics -/

theorem parseDirective_kind (fuel : Nat) (p p1 : Parser) (token : Token)
    (h : p.parseDirective fuel token = Except.ok p1) :
    ∃ q inst, p.sameCore q ∧ p1 = q.pushInstruction inst ∧ isMnemonicType inst.type = false := by
  unfold Parser.parseDirective at h
  simp only at h
  split at h
  · split at h
    · split at h
      · simp at h
      · split at h
        · split at h
          · simp at h
          · split at h
            · split at h
              · simp at h
              · simp only [Except.ok.injEq] at h
                exact ⟨_, _, by exact ⟨rfl, rfl, rfl⟩, h.symm, rfl⟩
            · simp only [Except.ok.injEq] at h
              exact ⟨_, _, by exact ⟨rfl, rfl, rfl⟩, h.symm, rfl⟩
        · simp only [Except.ok.injEq] at h
          exact ⟨_, _, by exact ⟨rfl, rfl, rfl⟩, h.symm, rfl⟩
    · simp only [Except.ok.injEq] at h
      exact ⟨_, _, by exact ⟨rfl, rfl, rfl⟩, h.symm, rfl⟩
  · split at h
    · split at h
      · split at h
        · simp at h
        · split at h
          · simp only [Except.ok.injEq] at h
            exact ⟨_, _, by exact ⟨rfl, rfl, rfl⟩, h.symm, rfl⟩
          · simp only [Except.ok.injEq] at h
            exact ⟨_, _, by exact ⟨rfl, rfl, rfl⟩, h.symm, rfl⟩
      · simp only [Except.ok.injEq] at h
        exact ⟨_, _, by exact ⟨rfl, rfl, rfl⟩, h.symm, rfl⟩
    · simp only [Except.ok.injEq] at h
      exact ⟨_, _, by exact ⟨rfl, rfl, rfl⟩, h.symm, rfl⟩

theorem tableOk_of_sameCore {p q : Parser} (h : p.sameCore q) (ht : p.tableOk) : q.tableOk := by
  unfold Parser.tableOk at *
  rw [h.1]
  exact ht

theorem tableOk_push (q : Parser) (inst : Instruction) (hq : q.tableOk) (hi : inst.tableOk) :
    (q.pushInstruction inst).tableOk := by
  intro x hx
  simp only [Parser.pushInstruction, List.mem_append, List.mem_singleton] at hx
  rcases hx with hx | rfl
  · exact hq x hx
  · exact hi

theorem dispatch_tableOk (fuel : Nat) (p p1 : Parser) (token : Token) (ht : p.tableOk)
    (h : p.dispatch fuel token = Except.ok p1) : p1.tableOk := by
  unfold Parser.dispatch at h
  split at h
  · simp only [Except.ok.injEq] at h
    subst h
    intro x hx
    rw [(parseLabel_layout p token).1] at hx
    exact ht x hx
  · rcases parseInstruction_cases fuel p p1 token h with hs | ⟨q, inst, hq, rfl, _, h1, h2, h3, _⟩
    · exact tableOk_of_sameCore hs ht
    · exact tableOk_push q inst (tableOk_of_sameCore hq ht)
        (fun _ => ⟨by rw [h2, h1], by rw [h3, h1]⟩)
  · obtain ⟨q, inst, hq, rfl, hk⟩ := parseDirective_kind fuel p p1 token h
    exact tableOk_push q inst (tableOk_of_sameCore hq ht)
      (fun hm => by rw [hk] at hm; cases hm)
  · exact tableOk_of_sameCore (parseSection_frame fuel p p1 token h) ht
  all_goals
    simp only [Except.ok.injEq] at h
    subst h
    exact ht

theorem parseLoop_tableOk (fuel : Nat) :
    ∀ (n : Nat) (p p1 : Parser), p.tableOk → Parser.parseLoop fuel n p = Except.ok p1 →
      p1.tableOk := by
  intro n
  induction n with
  | zero =>
    intro p p1 _ h
    simp [Parser.parseLoop] at h
  | succ n ih =>
    intro p p1 hl h
    simp only [Parser.parseLoop] at h
    split at h
    · split at h
      · simp at h
      · rename_i token lx hq
        split at h
        · simp only [Except.ok.injEq] at h
          subst h
          exact hl
        · split at h
          · simp at h
          · rename_i p2 hd
            exact ih p2 p1 (dispatch_tableOk fuel { p with lexer := lx } p2 token hl hd) h
    · simp only [Except.ok.injEq] at h
      subst h
      exact hl

theorem parse_tableOk (fuel : Nat) (lines : List Str) (p : Parser)
    (h : (Parser.new lines).parse fuel = Except.ok p) : p.tableOk := by
  unfold Parser.parse at h
  split at h
  · simp at h
  · rename_i p1 h1
    simp only [Except.ok.injEq] at h
    subst h
    have h0 : (Parser.new lines).tableOk := by
      intro x hx
      simp [Parser.new] at hx
    exact parseLoop_tableOk fuel fuel _ p1 h0 h1

theorem opcode_in_table (t : InstructionType) (hm : isMnemonicType t = true) :
    (∃ entry ∈ opcodeTable, getInstructionType entry.1 = t ∧ getOpcode t = entry.2) ∧
      1 ≤ getOpcode t ∧ getOpcode t ≤ 14 ∧ getInstructionSize t = mnemonicSize t := by
  cases t <;> first | (exact absurd hm (by decide)) | decide

theorem resolveOperand_object_code (g : CodeGenerator) (operand : Str) :
    (g.resolveOperand operand).2.object_code = g.object_code := by
  unfold CodeGenerator.resolveOperand CodeGenerator.resolveSymbol
  split
  · split
    · split <;> rfl
    · split <;> rfl
  · split <;> rfl

theorem generateInstructionCode_words (g : CodeGenerator) (inst : Instruction)
    (hm : isMnemonicType inst.type = true) :
    ∃ words, (g.generateInstructionCode inst).object_code
        = g.object_code ++ inst.opcode :: words ∧
      (words.length : Int) + 1 = getInstructionSize inst.type := by
  unfold CodeGenerator.generateInstructionCode
  cases ht : inst.type <;> rw [ht] at hm <;>
    first
    | (exact absurd hm (by decide))
    | skip
  all_goals simp only
  case STOP => exact ⟨[], rfl, by decide⟩
  case COPY =>
    cases inst.operands with
    | nil => exact ⟨[-1, -1], by simp [CodeGenerator.push], by decide⟩
    | cons op0 t =>
      cases t with
      | nil => exact ⟨[-1, -1], by simp [CodeGenerator.push], by decide⟩
      | cons op1 t1 =>
        exact ⟨[((g.push inst.opcode).resolveOperand op0).1,
            (((g.push inst.opcode).resolveOperand op0).2.resolveOperand op1).1], by
          simp [CodeGenerator.push, resolveOperand_object_code], rfl⟩
  all_goals
    cases inst.operands with
    | nil => exact ⟨[-1], by simp [CodeGenerator.push], by decide⟩
    | cons op t =>
      exact ⟨[((g.push inst.opcode).resolveOperand op).1], by
        simp [CodeGenerator.push, resolveOperand_object_code], rfl⟩

/-- C24: whenever `Parser::parse` completes on a list of source lines, every instruction of
a mnemonic type in its list carries the opcode that the fixed table gives for a mnemonic
of that type, an opcode within 1..14, and the size 1 for STOP, 3 for COPY and 2
otherwise; the first word that `generateInstructionCode` writes for it is that opcode,
and the words written are as many as its size. -/
theorem C24_opcode_table (fuel : Nat) (lines : List Str) (p : Parser)
    (h : (Parser.new lines).parse fuel = Except.ok p) :
    ∀ inst ∈ p.instructions, isMnemonicType inst.type = true →
      (∃ entry ∈ opcodeTable, getInstructionType entry.1 = inst.type ∧
        inst.opcode = entry.2) ∧
      1 ≤ inst.opcode ∧ inst.opcode ≤ 14 ∧
      inst.size = mnemonicSize inst.type ∧
      ∀ g : CodeGenerator, ∃ words,
        (g.generateInstructionCode inst).object_code = g.object_code ++ inst.opcode :: words ∧
        (words.length : Int) + 1 = inst.size := by
  intro inst hi hm
  obtain ⟨ho, hs⟩ := parse_tableOk fuel lines p h inst hi hm
  obtain ⟨h1, h2, h3, h4⟩ := opcode_in_table inst.type hm
  rw [ho, hs]
  exact ⟨h1, h2, h3, h4, fun g => by
    obtain ⟨words, hw, hl⟩ := generateInstructionCode_words g inst hm
    exact ⟨words, by rw [hw, ho], hl⟩⟩

/-- C24 at the end-to-end scenario, on which `Parser::parse` completes: the mnemonic
instructions are LOAD, ADD, STORE and STOP with the opcodes 10, 1, 11, 14 and the sizes
2, 2, 2, 1. -/
theorem C24_opcode_table_witness :
    (Parser.new endToEndSource).parse 64 = Except.ok endToEndParsed ∧
      ((endToEndParsed.instructions.filter (fun i => isMnemonicType i.type)).map
        (fun i => (i.type, i.opcode, i.size))
        = [(InstructionType.LOAD, 10, 2), (InstructionType.ADD, 1, 2),
           (InstructionType.STORE, 11, 2), (InstructionType.STOP, 14, 1)]) ∧
      ∀ inst ∈ endToEndParsed.instructions, isMnemonicType inst.type = true →
        1 ≤ inst.opcode ∧ inst.opcode ≤ 14 ∧ inst.size = mnemonicSize inst.type :=
  ⟨by decide, by decide, fun inst hi hm =>
    have h := C24_opcode_table 64 endToEndSource endToEndParsed (by decide) inst hi hm
    ⟨h.2.1, h.2.2.1, h.2.2.2.1⟩⟩

/-! ## Statement C25: a source without macros -/

theorem removeComments_eq_takeWhile (l : Str) :
    removeComments l = l.takeWhile (fun c => c != ';') := by
  have h : ∀ s : Str, (match findFrom0 ";".toList s with
      | some q => s.take q
      | none => s) = s.takeWhile (fun c => c != ';') := by
    intro s
    induction s with
    | nil => rfl
    | cons d s ih =>
      by_cases hd : d = ';'
      · subst hd
        have h1 : startsWith (';' :: s) ";".toList = true := by
          simp [startsWith]
        simp only [findFrom0, h1, if_true, List.take_zero, List.takeWhile_cons]
        simp
      · have h1 : startsWith (d :: s) ";".toList = false := by
          simp [startsWith, hd]
        have h2 : (d != ';') = true := by simp [hd]
        simp only [findFrom0, h1, Bool.false_eq_true, if_false, List.takeWhile_cons, h2, if_true]
        cases hf : findFrom0 ";".toList s with
        | none =>
          rw [hf] at ih
          simp only [Option.map_none']
          rw [← ih]
        | some q =>
          rw [hf] at ih
          simp only [Option.map_some', List.take_succ_cons]
          rw [← ih]
  have := h l
  unfold removeComments find substr
  simp only [Nat.zero_le, if_true, List.drop_zero]
  cases hf : findFrom0 ";".toList l with
  | none =>
    rw [hf] at this
    simpa using this
  | some q =>
    rw [hf] at this
    simpa using this

theorem trim_split (x : Str) : ∃ a b, x = a ++ trim x ++ b := by
  refine ⟨x.takeWhile isTrimChar,
    ((x.dropWhile isTrimChar).reverse.takeWhile isTrimChar).reverse, ?_⟩
  unfold trim
  rw [List.append_assoc, ← List.reverse_append, List.takeWhile_append_dropWhile,
    List.reverse_reverse, List.takeWhile_append_dropWhile]

theorem startsWith_append_self (p t : Str) : startsWith (p ++ t) p = true := by
  induction p with
  | nil => cases t <;> rfl
  | cons c p ih => simp [startsWith, ih]

theorem containsStr_of_split (pre p post : Str) : containsStr (pre ++ p ++ post) p = true := by
  cases h : containsStr (pre ++ p ++ post) p with
  | true => rfl
  | false =>
    exfalso
    unfold containsStr at h
    have hn : find (pre ++ p ++ post) p 0 = none := by
      cases hf : find (pre ++ p ++ post) p 0 with
      | none => rfl
      | some q => rw [hf] at h; cases h
    have h0 := find_none_from0 _ p 0 (Nat.zero_le _) hn
    rw [List.drop_zero] at h0
    have h1 := findFrom0_none p _ h0 pre.length (by simp)
    rw [List.append_assoc, List.drop_left, startsWith_append_self] at h1
    cases h1

theorem split_of_containsStr (s p : Str) (h : containsStr s p = true) :
    ∃ pre post, s = pre ++ p ++ post := by
  unfold containsStr at h
  cases hf : find s p 0 with
  | none => rw [hf] at h; cases h
  | some q =>
    obtain ⟨_, _, hsw⟩ := find_spec s p 0 q hf
    refine ⟨s.take q, (s.drop q).drop p.length, ?_⟩
    rw [List.append_assoc, ← startsWith_eq _ _ hsw, List.take_append_drop]

theorem containsStr_toUpper_trim (x p : Str) (h : containsStr (toUpper x) p = false) :
    containsStr (toUpper (trim x)) p = false := by
  cases hc : containsStr (toUpper (trim x)) p with
  | false => rfl
  | true =>
    exfalso
    obtain ⟨pre, post, hs⟩ := split_of_containsStr _ _ hc
    obtain ⟨a, b, hx⟩ := trim_split x
    have : toUpper x = (toUpper a ++ pre) ++ p ++ (post ++ toUpper b) := by
      conv => lhs; rw [hx]
      unfold toUpper at hs ⊢
      rw [List.map_append, List.map_append, hs]
      simp only [List.append_assoc]
    rw [this, containsStr_of_split] at h
    cases h

theorem isMacroDefinition_of_no_keyword (l : Str)
    (h : containsStr (toUpper (removeComments l)) "MACRO".toList = false) :
    isMacroDefinition (cleanLine l) = false := by
  unfold isMacroDefinition cleanLine
  simp only [containsStr_toUpper_trim _ _ h, Bool.false_and]

theorem foldl_defStep_plain (lines : List Str)
    (h : ∀ l ∈ lines, isMacroDefinition (cleanLine l) = false) (st : DefState)
    (hs : st.in_macro_def = false) : lines.foldl defStep st = st := by
  induction lines with
  | nil => rfl
  | cons l lines ih =>
    have h1 : defStep st l = st := by
      unfold defStep
      simp only [← cleanLine.eq_1, h l (List.mem_cons_self _ _), hs, if_false,
        Bool.false_eq_true, Bool.false_and, ite_self]
    rw [List.foldl_cons, h1]
    exact ih (fun x hx => h x (List.mem_cons_of_mem _ hx))

theorem expandPass_plain (fuel : Nat) (lines : List Str)
    (h : ∀ l ∈ lines, isMacroDefinition (cleanLine l) = false) :
    ∀ out : List Str, expandPass fuel [] lines false out =
      Except.ok (out ++ (lines.map cleanLine).filter (fun l => !l.isEmpty)) := by
  induction lines with
  | nil => intro out; simp [expandPass]
  | cons l lines ih =>
    intro out
    have hrest := ih (fun x hx => h x (List.mem_cons_of_mem _ hx))
    rw [expandPass]
    by_cases he : (cleanLine l).isEmpty = true
    · simp only [← cleanLine.eq_1, he, if_true, hrest, List.map_cons, List.filter_cons,
        Bool.not_true, Bool.false_eq_true, if_false]
    · have hcall : isMacroCall [] (cleanLine l) = false := rfl
      simp only [← cleanLine.eq_1, he, h l (List.mem_cons_self _ _), hcall, if_false,
        Bool.false_eq_true, hrest, List.map_cons, List.filter_cons, Bool.not_eq_true,
        Bool.not_false, if_true, List.append_assoc, List.singleton_append]

/-- C25: when no line of the input contains `MACRO`, in any letter case, once its comment
is removed, `preprocess` stores no macro and returns, whatever the fuel, exactly the input
lines each cut at its first `;` and trimmed, the lines that become empty being dropped,
in the original order. A line that looks like the call of a macro is among them as it
is. -/
theorem C25_macro_free_source (lines : List Str)
    (h : ∀ l ∈ lines, containsStr (toUpper (removeComments l)) "MACRO".toList = false) :
    collectMacros lines = [] ∧
      (∀ fuel, preprocess fuel lines =
        Except.ok ((lines.map (fun l => trim (l.takeWhile (fun c => c != ';')))).filter
          (fun l => !l.isEmpty))) := by
  have hd : ∀ l ∈ lines, isMacroDefinition (cleanLine l) = false :=
    fun l hl => isMacroDefinition_of_no_keyword l (h l hl)
  have hc : collectMacros lines = [] := by
    unfold collectMacros
    rw [foldl_defStep_plain lines hd _ rfl]
  refine ⟨hc, fun fuel => ?_⟩
  unfold preprocess
  rw [hc, expandPass_plain fuel lines hd, List.nil_append]
  have e : (fun l => trim (l.takeWhile (fun c => c != ';'))) = cleanLine := by
    funext l
    unfold cleanLine
    rw [removeComments_eq_takeWhile]
  rw [e]

/-- C25 on a comment line, the line `  FOO A, B ; no such macro`, an empty line and
`STOP`: the two lines `FOO A, B` and `STOP` are returned. -/
theorem C25_macro_free_source_witness :
    preprocess 4 macroFreeSource = Except.ok ["FOO A, B".toList, "STOP".toList] := by
  have h : ∀ l ∈ macroFreeSource,
      containsStr (toUpper (removeComments l)) "MACRO".toList = false := by
    intro l hl
    simp only [macroFreeSource, List.mem_cons, List.mem_singleton, List.not_mem_nil,
      or_false] at hl
    rcases hl with rfl | rfl | rfl | rfl <;> rfl
  rw [(C25_macro_free_source macroFreeSource h).2 4]
  rfl

/-! ## Statements C29 and C30: the directives -/

theorem peekNextToken_buffered (fuel : Nat) (lx lx1 : Lexer) (next : Token)
    (h : lx.peekNextToken fuel = Except.ok (next, lx1)) :
    lx1.has_buffered_token = true ∧ lx1.buffered_token = next := by
  unfold Lexer.peekNextToken at h
  by_cases hb : lx.has_buffered_token = true
  · simp only [hb, Bool.not_true, Bool.false_eq_true, if_false, Except.ok.injEq,
      Prod.mk.injEq] at h
    obtain ⟨h1, h2⟩ := h
    subst h2
    exact ⟨hb, h1⟩
  · simp only [hb, Bool.not_false, if_true] at h
    split at h
    · cases h
    · simp only [Except.ok.injEq, Prod.mk.injEq] at h
      obtain ⟨h1, h2⟩ := h
      subst h2
      exact ⟨rfl, h1⟩

theorem getNextToken_buffered (fuel : Nat) (lx : Lexer) (h : lx.has_buffered_token = true) :
    lx.getNextToken fuel = Except.ok (lx.buffered_token, { lx with has_buffered_token := false }) := by
  unfold Lexer.getNextToken
  rw [if_pos h]

theorem isNumber_eq (s : Str) :
    isNumber s = (!(stripSign s).isEmpty &&
      (if (stripSign s).take 2 = "0X".toList ∨ (stripSign s).take 2 = "0x".toList then
        ((stripSign s).drop 2).all isXDigit
      else (stripSign s).all isDigit)) := by
  cases s with
  | nil => rfl
  | cons c r =>
    by_cases hm : c = '-'
    · subst hm
      cases r with
      | nil => rfl
      | cons d t =>
        simp [isNumber, stripSign, substr]
    · by_cases hp : c = '+'
      · subst hp
        cases r with
        | nil => rfl
        | cons d t =>
          simp [isNumber, stripSign, substr]
      · have hs : stripSign (c :: r) = c :: r := by
          unfold stripSign
          split
          · rename_i h; simp at h; exact absurd h.1 hp
          · rename_i h; simp at h; exact absurd h.1 hm
          · rfl
        rw [hs]
        simp [isNumber, substr, hm, hp]

theorem take_two_ne_of_digits (ds : Str) (hd : ∀ c ∈ ds, isDigit c = true) (x : Char)
    (hx : isDigit x = false) : ds.take 2 ≠ ['0', x] := by
  intro h
  have hm : x ∈ ds := by
    have : x ∈ ds.take 2 := by rw [h]; simp
    exact List.mem_of_mem_take this
  rw [hd x hm] at hx
  cases hx

theorem stripSign_of_isDigit (c : Char) (r : Str) (h : isDigit c = true) :
    stripSign (c :: r) = c :: r := by
  unfold stripSign
  split
  · rename_i h1; simp at h1; rw [h1.1] at h; exact absurd h (by decide)
  · rename_i h1; simp at h1; rw [h1.1] at h; exact absurd h (by decide)
  · rfl

theorem isNumber_digits (pre ds : Str) (hpre : pre = [] ∨ pre = ['+'] ∨ pre = ['-'])
    (hne : ds ≠ []) (hd : ∀ c ∈ ds, isDigit c = true) : isNumber (pre ++ ds) = true := by
  have hs : stripSign (pre ++ ds) = ds := by
    rcases hpre with rfl | rfl | rfl
    · cases ds with
      | nil => exact absurd rfl hne
      | cons c r => exact stripSign_of_isDigit c r (hd c (List.mem_cons_self c r))
    · rfl
    · rfl
  rw [isNumber_eq, hs]
  have h1 : ds.isEmpty = false := by
    cases ds with
    | nil => exact absurd rfl hne
    | cons _ _ => rfl
  have h2 : ¬ (ds.take 2 = "0X".toList ∨ ds.take 2 = "0x".toList) := by
    rintro (h | h)
    · exact take_two_ne_of_digits ds hd 'X' (by decide) h
    · exact take_two_ne_of_digits ds hd 'x' (by decide) h
  rw [h1, if_neg h2]
  simp only [Bool.not_false, Bool.true_and, List.all_eq_true]
  exact hd

theorem parseNumber_digits (pre ds : Str) (hpre : pre = [] ∨ pre = ['+'] ∨ pre = ['-'])
    (hd : ∀ c ∈ ds, isDigit c = true) : parseNumber (pre ++ ds) = stoi (pre ++ ds) 10 := by
  have hX := take_two_ne_of_digits ds hd 'X' (by decide)
  have hx := take_two_ne_of_digits ds hd 'x' (by decide)
  unfold parseNumber
  rw [if_neg]
  rcases hpre with rfl | rfl | rfl
  · simp only [substr, List.drop_zero, List.nil_append]
    rintro (h | h | h | h)
    · exact hX h
    · exact hx h
    · have h3 : '-' ∈ ds := List.mem_of_mem_take (by rw [h]; simp)
      exact absurd (hd _ h3) (by decide)
    · have h3 : '-' ∈ ds := List.mem_of_mem_take (by rw [h]; simp)
      exact absurd (hd _ h3) (by decide)
  · simp [substr]
  · simp only [substr, List.drop_zero]
    rintro (h | h | h | h)
    · simp at h
    · simp at h
    · simp at h
      exact hX h
    · simp at h
      exact hx h

theorem isNumber_hex (pre : Str) (x : Char) (hs : Str) (hpre : pre = [] ∨ pre = ['+'] ∨ pre = ['-'])
    (hx : x = 'x' ∨ x = 'X') (hd : ∀ c ∈ hs, isXDigit c = true) :
    isNumber (pre ++ '0' :: x :: hs) = true := by
  have hsg : stripSign (pre ++ '0' :: x :: hs) = '0' :: x :: hs := by
    rcases hpre with rfl | rfl | rfl <;> rfl
  rw [isNumber_eq, hsg]
  have h2 : ('0' :: x :: hs).take 2 = "0X".toList ∨ ('0' :: x :: hs).take 2 = "0x".toList := by
    rcases hx with rfl | rfl
    · exact Or.inr rfl
    · exact Or.inl rfl
  rw [if_pos h2]
  simp only [List.isEmpty_cons, Bool.not_false, Bool.true_and, List.drop_succ_cons,
    List.drop_zero, List.all_eq_true]
  exact hd

theorem parseNumber_hex (pre : Str) (x : Char) (hs : Str) (hpre : pre = [] ∨ pre = ['-'])
    (hx : x = 'x' ∨ x = 'X') :
    parseNumber (pre ++ '0' :: x :: hs) = stoi (pre ++ '0' :: x :: hs) 16 := by
  unfold parseNumber
  rw [if_pos]
  rcases hpre with rfl | rfl <;> rcases hx with rfl | rfl <;> simp [substr]

theorem isNumber_false (s : Str) (hdec : isDecimalLiteral s = false)
    (hhex : isHexLiteral s = false) (hx : stripSign s ≠ "0x".toList)
    (hX : stripSign s ≠ "0X".toList) : isNumber s = false := by
  rw [isNumber_eq]
  unfold isDecimalLiteral at hdec
  unfold isHexLiteral at hhex
  generalize stripSign s = body at *
  cases body with
  | nil => rfl
  | cons a r =>
    simp only [List.isEmpty_cons, Bool.not_false, Bool.true_and] at hdec ⊢
    split
    · rename_i h
      cases r with
      | nil => simp at h
      | cons b t =>
        have ha : a = '0' := by
          rcases h with h | h <;> simp at h <;> exact h.1
        have hb : b = 'X' ∨ b = 'x' := by
          rcases h with h | h <;> simp at h
          · exact Or.inl h.2
          · exact Or.inr h.2
        subst ha
        cases t with
        | nil =>
          rcases hb with rfl | rfl
          · exact absurd rfl hX
          · exact absurd rfl hx
        | cons d u =>
          simp only [List.drop_succ_cons, List.drop_zero]
          rcases hb with rfl | rfl <;> simpa using hhex
    · exact hdec

theorem parseDirective_space_count (fuel : Nat) (p : Parser) (token next : Token)
    (lx : Lexer) (n : Int) (hspace : token.value = "SPACE".toList)
    (hm : p.lexer.hasMoreTokens = true)
    (hpeek : p.lexer.peekNextToken fuel = Except.ok (next, lx))
    (hop : next.type = TokenType.OPERAND) (hnum : isNumber next.value = true)
    (hval : parseNumber next.value = Except.ok n) :
    p.parseDirective fuel token = Except.ok (p.afterSpaceCount token next lx n) := by
  obtain ⟨hb, hbt⟩ := peekNextToken_buffered fuel _ lx next hpeek
  have hget : lx.getNextToken fuel
      = Except.ok (next, { lx with has_buffered_token := false }) := by
    rw [getNextToken_buffered fuel lx hb, hbt]
  unfold Parser.parseDirective
  simp only [hspace, hm, hpeek, hop, hget, hnum, hval, if_true]
  rfl

/-- C29 (counterexample): on `STOP` / `SPACE 2147483647` the SPACE directive is parsed at
`current_address` 1 with the count 2147483647 and without error; afterwards
`current_address` is -2147483648, not 1 + 2147483647: the addition is done in `int` and
wraps around. Besides, on `SPACE +0x10` the operand, a hexadecimal literal that denotes
16, is accepted by `isNumber` and consumed, but the size is 0: `parseNumber` takes base 16
only for the prefixes `0x`, `0X`, `-0x` and `-0X`. -/
theorem C29_space_address_wraps :
    ((Parser.new spaceAtOneSource).parse 8).map
        (fun p => (p.errors, p.instructions.map (fun i => (i.type, i.address, i.size)),
          p.current_address))
      = Except.ok ([], [(InstructionType.STOP, 0, 1), (InstructionType.SPACE, 1, 2147483647)],
          -2147483648) ∧
    (-2147483648 : Int) ≠ 1 + 2147483647 ∧
    ((Parser.new spacePlusHexSource).parse 8).map
        (fun p => (p.errors, p.instructions.map (fun i => (i.type, i.operands, i.size)),
          p.current_address))
      = Except.ok ([], [(InstructionType.SPACE, ["+0x10".toList], 0)], 0) ∧
    isHexLiteral "+0x10".toList = true ∧ numeralValue 16 "10".toList = 16 := by
  refine ⟨rfl, by decide, rfl, by decide, by decide⟩

/-- C29 (amended): in every parser state `parseDirective` on a `SPACE` token appends one
SPACE instruction at `current_address`. When no token is left, or when the next token (as
`peekNextToken` returns it) is not an OPERAND, the size is 1, nothing is added to the
error list, and that token stays buffered: it is what the next `getNextToken` returns.
When it is an OPERAND written as a run of decimal digits, alone or after `+` or `-`, or as
`0x`/`0X` and a run of hexadecimal digits, alone or after `-`, and the number `n` that it
denotes fits an `int`, the operand is consumed, it is the one operand of the instruction,
the size is `n`, and `current_address` becomes `current_address + n` as computed in `int`
(`wrapInt`), which is the sum itself whenever the sum lies in `INT_MIN .. INT_MAX` (the
last conjunct). When it is an OPERAND that is neither a decimal nor a hexadecimal literal
nor `0x`/`0X` without digits (alone or after a sign), the operand is consumed, one
SYNTACTIC error is recorded, and the size stays 1. Nothing is stated here about a
hexadecimal literal written with `+` and about `0x`/`0X` without digits. -/
theorem C29_space_directive (fuel : Nat) (p : Parser) (token : Token)
    (hspace : token.value = "SPACE".toList) :
    (p.lexer.hasMoreTokens = false →
      p.parseDirective fuel token
        = Except.ok (p.pushInstruction (directiveInstruction p token InstructionType.SPACE))) ∧
    (∀ (next : Token) (lx : Lexer), p.lexer.hasMoreTokens = true →
      p.lexer.peekNextToken fuel = Except.ok (next, lx) →
      (next.type ≠ TokenType.OPERAND →
        p.parseDirective fuel token
          = Except.ok (Parser.pushInstruction { p with lexer := lx }
              (directiveInstruction p token InstructionType.SPACE)) ∧
        ∀ fuel1, lx.getNextToken fuel1
          = Except.ok (next, { lx with has_buffered_token := false })) ∧
      (next.type = TokenType.OPERAND →
        (∀ ds : Str, ds ≠ [] → (∀ c ∈ ds, isDigit c = true) →
          (next.value = ds ∨ next.value = '+' :: ds →
            (numeralValue 10 ds : Int) ≤ INT_MAX →
            p.parseDirective fuel token
              = Except.ok (p.afterSpaceCount token next lx (numeralValue 10 ds : Int))) ∧
          (next.value = '-' :: ds → INT_MIN ≤ -(numeralValue 10 ds : Int) →
            p.parseDirective fuel token
              = Except.ok (p.afterSpaceCount token next lx (-(numeralValue 10 ds : Int))))) ∧
        (∀ (x : Char) (hs : Str), x = 'x' ∨ x = 'X' → hs ≠ [] →
          (∀ c ∈ hs, isXDigit c = true) →
          (next.value = '0' :: x :: hs → (numeralValue 16 hs : Int) ≤ INT_MAX →
            p.parseDirective fuel token
              = Except.ok (p.afterSpaceCount token next lx (numeralValue 16 hs : Int))) ∧
          (next.value = '-' :: '0' :: x :: hs → INT_MIN ≤ -(numeralValue 16 hs : Int) →
            p.parseDirective fuel token
              = Except.ok (p.afterSpaceCount token next lx (-(numeralValue 16 hs : Int))))) ∧
        (isDecimalLiteral next.value = false → isHexLiteral next.value = false →
          stripSign next.value ≠ "0x".toList → stripSign next.value ≠ "0X".toList →
          p.parseDirective fuel token
            = Except.ok
                { p with
                  lexer := { lx with has_buffered_token := false }
                  errors := p.errors ++
                    [⟨ErrorType.SYNTACTIC, "SPACE requires numeric operand".toList,
                      token.line_number⟩]
                  instructions := p.instructions ++
                    [directiveInstruction p token InstructionType.SPACE]
                  current_address := wrapInt (p.current_address + 1) }))) ∧
    (∀ n : Int, INT_MIN ≤ p.current_address + n → p.current_address + n ≤ INT_MAX →
      wrapInt (p.current_address + n) = p.current_address + n) := by
  refine ⟨fun hm => ?_, fun next lx hm hpeek => ?_, fun n h1 h2 => wrapInt_of_range _ h1 h2⟩
  · unfold Parser.parseDirective
    simp only [hspace, hm, if_true, if_false, Bool.false_eq_true]
    rfl
  · obtain ⟨hb, hbt⟩ := peekNextToken_buffered fuel _ lx next hpeek
    have hget : ∀ fuel1, lx.getNextToken fuel1
        = Except.ok (next, { lx with has_buffered_token := false }) := by
      intro fuel1
      rw [getNextToken_buffered fuel1 lx hb, hbt]
    have h0 : ∀ (base : Nat) (s : Str), (0 : Int) ≤ (numeralValue base s : Int) :=
      fun _ _ => Int.natCast_nonneg _
    refine ⟨fun hno => ⟨?_, hget⟩, fun hop => ⟨fun ds hne hd => ⟨?_, ?_⟩,
      fun x hs hx hne hd => ⟨?_, ?_⟩, fun hdec hhex hx hX => ?_⟩⟩
    · unfold Parser.parseDirective
      simp only [hspace, hm, hpeek, hno, if_true, if_false]
      rfl
    · intro hv hr
      apply parseDirective_space_count fuel p token next lx _ hspace hm hpeek hop
      · rcases hv with hv | hv <;> rw [hv]
        · exact isNumber_digits [] ds (Or.inl rfl) hne hd
        · exact isNumber_digits ['+'] ds (Or.inr (Or.inl rfl)) hne hd
      · rcases hv with hv | hv <;> rw [hv]
        · exact (parseNumber_digits [] ds (Or.inl rfl) hd).trans
            (stoi_decimal_unsigned ds hne hd hr)
        · exact (parseNumber_digits ['+'] ds (Or.inr (Or.inl rfl)) hd).trans
            (stoi_decimal_plus ds hne hd hr)
    · intro hv hr
      apply parseDirective_space_count fuel p token next lx _ hspace hm hpeek hop
      · rw [hv]
        exact isNumber_digits ['-'] ds (Or.inr (Or.inr rfl)) hne hd
      · rw [hv]
        exact (parseNumber_digits ['-'] ds (Or.inr (Or.inr rfl)) hd).trans
          (stoi_decimal_minus ds hne hd hr)
    · intro hv hr
      apply parseDirective_space_count fuel p token next lx _ hspace hm hpeek hop
      · rw [hv]
        exact isNumber_hex [] x hs (Or.inl rfl) hx hd
      · rw [hv]
        refine (parseNumber_hex [] x hs (Or.inl rfl) hx).trans ?_
        have := stoi_hex [] false x hs (stoiSign_of_isDigit '0' _ (by decide))
          (dropWhile_isSpace_of_isDigit '0' _ (by decide)) hx hne hd
          (by
            have := h0 16 hs
            simp only [INT_MIN, INT_MAX] at *
            simp only [Bool.false_eq_true, if_false]; omega)
        simpa using this
    · intro hv hr
      apply parseDirective_space_count fuel p token next lx _ hspace hm hpeek hop
      · rw [hv]
        exact isNumber_hex ['-'] x hs (Or.inr (Or.inr rfl)) hx hd
      · rw [hv]
        refine (parseNumber_hex ['-'] x hs (Or.inr rfl) hx).trans ?_
        have := stoi_hex ['-'] true x hs rfl (by simp [List.dropWhile, isSpace]) hx hne hd
          (by
            have := h0 16 hs
            simp only [INT_MIN, INT_MAX] at *
            simp only [if_true]; omega)
        simpa using this
    · have hnum := isNumber_false next.value hdec hhex hx hX
      unfold Parser.parseDirective
      simp only [hspace, hm, hpeek, hop, hget fuel, hnum, if_true, if_false,
        Bool.false_eq_true]
      rfl

/-- C29 (amended) on a lexer that stands before ` 3` and the line `STOP`: the SPACE
instruction gets the operand `3` and the size 3, `current_address` becomes 3, and the next
token read is `STOP`. -/
theorem C29_space_directive_witness :
    (countThenStopParser.parseDirective 4 spaceToken).map
        (fun q => (q.instructions.map (fun i => (i.type, i.operands, i.size, i.address)),
          q.current_address, q.errors,
          (tokenOr (q.lexer.getNextToken 4)).1.value))
      = Except.ok ([(InstructionType.SPACE, ["3".toList], 3, 0)], 3, [], "STOP".toList) := by
  rw [((((C29_space_directive 4 countThenStopParser spaceToken rfl).2.1
    (tokenOr (countThenStopParser.lexer.peekNextToken 4)).1
    (tokenOr (countThenStopParser.lexer.peekNextToken 4)).2 rfl rfl).2 rfl).1
      "3".toList (by decide) (by decide)).1 (Or.inl rfl) (by decide)]
  rfl
theorem readNextToken_strayColon : ∀ fuel : Nat,
    Lexer.readNextToken fuel strayColonAtColon = Except.error Fault.fuel := by
  intro fuel
  induction fuel with
  | zero => rfl
  | succ n ih =>
    have h : Lexer.readNextToken (n + 1) strayColonAtColon
        = Lexer.readNextToken n strayColonAtColon := rfl
    rw [h, ih]

theorem readNextToken_leadingColon : ∀ fuel : Nat,
    Lexer.readNextToken fuel (Lexer.new [":".toList]) = Except.error Fault.fuel := by
  intro fuel
  induction fuel with
  | zero => rfl
  | succ n ih =>
    have h : Lexer.readNextToken (n + 1) (Lexer.new [":".toList])
        = Lexer.readNextToken n (Lexer.new [":".toList]) := rfl
    rw [h, ih]

/-- C34 fails on the line `A : CONST 1`: the first `getNextToken` returns the word `A` and
leaves the cursor after it; in the next call `readNextToken` skips the blank, finds at the
colon neither `;` nor `,`, gets the empty word from `readWord` and goes on (`continue`)
with the cursor where it was: the iteration at the colon neither returns nor advances, and
whatever the fuel no token is returned. The same happens at once on a line that starts
with `:`. -/
theorem C34_stray_colon_never_returns :
    strayColonLexer.getNextToken 1
        = Except.ok (⟨TokenType.OPERAND, "A".toList, 1⟩, strayColonAfterWord) ∧
      strayColonAtColon.skipWhitespace = strayColonAtColon ∧
      strayColonAtColon.readWord = ([], strayColonAtColon) ∧
      (∀ fuel, Lexer.readNextToken (fuel + 1) strayColonAtColon
        = Lexer.readNextToken fuel strayColonAtColon) ∧
      (∀ fuel, strayColonAfterWord.getNextToken fuel = Except.error Fault.fuel) ∧
      (∀ fuel, (Lexer.new [":".toList]).getNextToken fuel = Except.error Fault.fuel) := by
  refine ⟨rfl, rfl, rfl, fun _ => rfl, fun fuel => ?_, fun fuel => ?_⟩
  · cases fuel with
    | zero => rfl
    | succ n =>
      have h : strayColonAfterWord.getNextToken (n + 1)
          = Lexer.readNextToken n strayColonAtColon := rfl
      rw [h, readNextToken_strayColon]
  · have h : (Lexer.new [":".toList]).getNextToken fuel
        = Lexer.readNextToken fuel (Lexer.new [":".toList]) := rfl
    rw [h, readNextToken_leadingColon]

/-! ## Statement C35: the scan loop of `replaceParameters` with an empty parameter name -/

theorem replaceLoop_empty_stuck : ∀ fuel : Nat,
    replaceLoop [] [] fuel "COPY X, B".toList 7 = Except.error Fault.fuel := by
  intro fuel
  induction fuel with
  | zero => rfl
  | succ n ih =>
    have h : replaceLoop [] [] (n + 1) "COPY X, B".toList 7
        = replaceLoop [] [] n "COPY X, B".toList 7 := rfl
    rw [h, ih]

theorem replaceParameters_empty_name : ∀ fuel : Nat,
    replaceParameters fuel "COPY A, B".toList ["A".toList, [], "B".toList]
      ["X".toList, [], "Z".toList] = Except.error Fault.fuel := by
  intro fuel
  rcases fuel with _ | _ | _ | _ | _ | _ | _ | _ | f
  · rfl
  · rfl
  · rfl
  · rfl
  · rfl
  · rfl
  · rfl
  · rfl
  · have h : replaceParameters (f + 8) "COPY A, B".toList ["A".toList, [], "B".toList]
        ["X".toList, [], "Z".toList] =
        match replaceLoop [] [] f "COPY X, B".toList 7 with
        | Except.error e => Except.error e
        | Except.ok result => replaceParameters (f + 8) result ["B".toList] ["Z".toList] := rfl
    rw [h, replaceLoop_empty_stuck]

/-- C35 fails on `M: MACRO A, ,B` / `COPY A, B` / `ENDMACRO` / `M X, ,Z`: `splitParameters`
gives the parameters `A`, the empty name and `B`, and the arguments `X`, the empty text and
`Z`. After `A` was replaced, the scan for the empty name finds it at every position; at
position 7 of `COPY X, B`, between the comma and the blank, the match is at a word
boundary, the replacement by the empty argument changes nothing and `pos` is advanced by
0: the iteration leaves text and position as they were, and whatever the fuel
`replaceParameters` and `preprocess` do not return. -/
theorem C35_empty_parameter_name_loops :
    collectMacros emptyNameSource
        = [("M".toList, { name := "M".toList, parameters := ["A".toList, [], "B".toList],
                          body := ["COPY A, B".toList] })] ∧
      callArguments (cleanLine "M X, ,Z".toList) = ["X".toList, [], "Z".toList] ∧
      find "COPY X, B".toList [] 7 = some 7 ∧
      isWordBoundary "COPY X, B".toList 7 0 = true ∧
      replaceAt "COPY X, B".toList 7 0 [] = "COPY X, B".toList ∧
      (∀ fuel, replaceLoop [] [] (fuel + 1) "COPY X, B".toList 7
        = replaceLoop [] [] fuel "COPY X, B".toList 7) ∧
      (∀ fuel, replaceParameters fuel "COPY A, B".toList ["A".toList, [], "B".toList]
        ["X".toList, [], "Z".toList] = Except.error Fault.fuel) ∧
      (∀ fuel, preprocess fuel emptyNameSource = Except.error Fault.fuel) := by
  refine ⟨rfl, rfl, rfl, rfl, rfl, fun _ => rfl, replaceParameters_empty_name, fun fuel => ?_⟩
  have hm : collectMacros emptyNameSource
      = [("M".toList, { name := "M".toList, parameters := ["A".toList, [], "B".toList],
                        body := ["COPY A, B".toList] })] := rfl
  have h : preprocess fuel emptyNameSource =
      expandMacro fuel "M X, ,Z".toList
        { name := "M".toList, parameters := ["A".toList, [], "B".toList],
          body := ["COPY A, B".toList] } := by
    unfold preprocess
    rw [hm]
    have e := expandPass_single fuel
      [("M".toList, { name := "M".toList, parameters := ["A".toList, [], "B".toList],
                      body := ["COPY A, B".toList] })]
      "M: MACRO A, ,B".toList "ENDMACRO".toList "M X, ,Z".toList ["COPY A, B".toList]
      { name := "M".toList, parameters := ["A".toList, [], "B".toList],
        body := ["COPY A, B".toList] }
      rfl
      (by
        intro b hb
        simp only [List.mem_singleton] at hb
        subst hb
        have e1 : toUpper (cleanLine "COPY A, B".toList) = "COPY A, B".toList := rfl
        rw [e1]
        decide)
      rfl
      (by
        have e1 : cleanLine "M X, ,Z".toList = "M X, ,Z".toList := rfl
        rw [e1]
        decide)
      rfl rfl
    exact e
  rw [h, expandMacro_eq]
  have hc : callArguments "M X, ,Z".toList = ["X".toList, [], "Z".toList] := rfl
  simp only [hc, List.mapM_cons, replaceParameters_empty_name]
  rfl

/-! ## Statement C32: what `generateFinalCode` changes -/

theorem patch_length (code : List Int) (r : Int × Int) : (patch code r).length = code.length := by
  unfold patch
  split
  · exact List.length_set _ _ _
  · rfl

theorem patch_get (code : List Int) (r : Int × Int) (i : Nat) :
    (patch code r).get? i = code.get? i ∨
      (r.1 = (i : Int) ∧ i < code.length ∧ (patch code r).get? i = some r.2) := by
  unfold patch
  split
  · rename_i h
    by_cases hi : r.1.toNat = i
    · right
      have h1 : r.1 = (i : Int) := by
        rw [← hi]
        exact (Int.toNat_of_nonneg h.1).symm
      have h2 : i < code.length := by
        have := h.2
        rw [h1] at this
        exact_mod_cast this
      refine ⟨h1, h2, ?_⟩
      rw [hi]
      simp only [List.get?_eq_getElem?]
      rw [List.getElem?_set_self]
      simp [h2]
    · left
      simp only [List.get?_eq_getElem?]
      exact List.getElem?_set_ne hi
  · exact Or.inl rfl

theorem foldl_patch_length (rs : List (Int × Int)) :
    ∀ code : List Int, (rs.foldl patch code).length = code.length := by
  induction rs with
  | nil => intro code; rfl
  | cons r rs ih =>
    intro code
    rw [List.foldl_cons, ih, patch_length]

theorem foldl_patch_get (rs : List (Int × Int)) (i : Nat) :
    ∀ code : List Int,
      (rs.foldl patch code).get? i = code.get? i ∨
        ∃ r ∈ rs, r.1 = (i : Int) ∧ i < code.length ∧ (rs.foldl patch code).get? i = some r.2 := by
  induction rs with
  | nil => intro code; exact Or.inl rfl
  | cons r rs ih =>
    intro code
    rw [List.foldl_cons]
    rcases ih (patch code r) with h | ⟨r1, hr1, h1, h2, h3⟩
    · rcases patch_get code r i with h0 | ⟨h1, h2, h3⟩
      · exact Or.inl (h.trans h0)
      · exact Or.inr ⟨r, List.mem_cons_self _ _, h1, h2, h.trans h3⟩
    · rw [patch_length] at h2
      exact Or.inr ⟨r1, List.mem_cons_of_mem _ hr1, h1, h2, h3⟩

theorem mem_resolvePendingReferences (st : SymbolTable) (r : Int × Int)
    (h : r ∈ st.resolvePendingReferences) :
    ∃ ref ∈ st.pending_references, st.isSymbolDefined ref.symbol_name = true ∧
      r = (ref.instruction_address, st.getSymbolAddress ref.symbol_name) := by
  unfold SymbolTable.resolvePendingReferences at h
  rw [List.mem_filterMap] at h
  obtain ⟨ref, hm, hr⟩ := h
  by_cases hd : st.isSymbolDefined ref.symbol_name = true
  · simp only [hd, if_true, Option.some.injEq] at hr
    exact ⟨ref, hm, hd, hr.symm⟩
  · simp only [hd, if_false, Bool.false_eq_true] at hr
    cases hr

/-- What `generateFinalCode` does hold to: on a generator whose object code is not empty
it keeps the length of the object code and leaves the symbol table as it is; a word that
it changes stands at a position recorded for a pending reference whose symbol is defined,
and then holds the address of such a symbol; every word at a position for which the
pending list records no reference to a defined symbol keeps its intermediate value. -/
theorem generateFinalCode_frame (g : CodeGenerator) (hne : g.object_code ≠ []) :
    g.generateFinalCode.object_code.length = g.object_code.length ∧
      g.generateFinalCode.symbol_table = g.symbol_table ∧
      (∀ i : Nat,
        g.generateFinalCode.object_code.get? i = g.object_code.get? i ∨
          ∃ ref ∈ g.symbol_table.pending_references,
            g.symbol_table.isSymbolDefined ref.symbol_name = true ∧
            ref.instruction_address = (i : Int) ∧ i < g.object_code.length ∧
            g.generateFinalCode.object_code.get? i
              = some (g.symbol_table.getSymbolAddress ref.symbol_name)) ∧
      (∀ i : Nat,
        (∀ ref ∈ g.symbol_table.pending_references,
          g.symbol_table.isSymbolDefined ref.symbol_name = true →
          ref.instruction_address ≠ (i : Int)) →
        g.generateFinalCode.object_code.get? i = g.object_code.get? i) := by
  have he : g.object_code.isEmpty = false := by
    cases hc : g.object_code with
    | nil => exact absurd hc hne
    | cons _ _ => rfl
  have hf : g.generateFinalCode =
      { g with object_code := g.symbol_table.resolvePendingReferences.foldl patch g.object_code } := by
    unfold CodeGenerator.generateFinalCode
    simp only [he, Bool.false_eq_true, if_false]
  have hget : ∀ i : Nat,
      g.generateFinalCode.object_code.get? i = g.object_code.get? i ∨
        ∃ ref ∈ g.symbol_table.pending_references,
          g.symbol_table.isSymbolDefined ref.symbol_name = true ∧
          ref.instruction_address = (i : Int) ∧ i < g.object_code.length ∧
          g.generateFinalCode.object_code.get? i
            = some (g.symbol_table.getSymbolAddress ref.symbol_name) := by
    intro i
    rw [hf]
    rcases foldl_patch_get g.symbol_table.resolvePendingReferences i g.object_code with
      h | ⟨r, hr, h1, h2, h3⟩
    · exact Or.inl h
    · obtain ⟨ref, hm, hd, rfl⟩ := mem_resolvePendingReferences _ r hr
      exact Or.inr ⟨ref, hm, hd, h1, h2, h3⟩
  refine ⟨?_, ?_, hget, fun i hno => ?_⟩
  · rw [hf]
    exact foldl_patch_length _ _
  · rw [hf]
  · rcases hget i with h | ⟨ref, hm, hd, h1, _⟩
    · exact h
    · exact absurd h1 (hno ref hm hd)

/-- C32 (failing input): `COPY A, B` is generated with `A` and `B` undefined, which gives
`9 -1 -1` with both pending references recorded at position 1; then `B`, and not `A`, is
defined at 20. `generateFinalCode` writes 20 at position 1, which is the placeholder of
`A`, a symbol that is still undefined: that word does not keep its intermediate value -1,
and the placeholder of `B` at position 2 is not patched. -/
theorem C32_undefined_placeholder_overwritten :
    copySecondDefined.object_code = [9, -1, -1] ∧
    copySecondDefined.symbol_table.pending_references.map
        (fun r => (r.instruction_address, r.symbol_name)) = [(1, "A".toList), (1, "B".toList)] ∧
    copySecondDefined.symbol_table.isSymbolDefined "A".toList = false ∧
    copySecondDefined.symbol_table.isSymbolDefined "B".toList = true ∧
    copySecondDefined.generateFinalCode.object_code = [9, 20, -1] ∧
    copySecondDefined.generateFinalCode.object_code.get? 1
      ≠ copySecondDefined.object_code.get? 1 := by
  decide

/-! ## Lemmas: the tokens of the lexer and the shapes of the instructions -/

theorem classifyWord_directiveOk (lx : Lexer) (word : Str) :
    (lx.classifyWord word).1.directiveOk := by
  intro ht
  unfold Lexer.classifyWord at ht ⊢
  simp only at ht ⊢
  split at ht
  · split at ht <;> cases ht
  · rename_i hcolon
    simp only [hcolon, if_false]
    split at ht
    · cases ht
    · rename_i h1
      split at ht
      · cases ht
      · rename_i h2
        split at ht
        · cases ht
        · rename_i h3
          split at ht
          · cases ht
          · rename_i h4
            split at ht
            · rename_i h5
              simp only [h1, h2, h3, h4, h5, if_false, if_true]
              unfold isDirective DIRECTIVES at h5
              simp only [List.contains_cons, List.contains_nil, Bool.or_false, Bool.or_eq_true,
                beq_iff_eq] at h5
              rcases h5 with h | h | h | h | h | h
              · exact Or.inl h
              · exact Or.inr h
              · exact absurd h h2
              · exact absurd h h3
              · exact absurd (Or.inl h) h1
              · exact absurd (Or.inr h) h1
            · cases ht

theorem readNextToken_directiveOk :
    ∀ (fuel : Nat) (lx l : Lexer) (t : Token),
      Lexer.readNextToken fuel lx = Except.ok (t, l) → t.directiveOk := by
  intro fuel
  induction fuel with
  | zero =>
    intro lx l t h
    simp [Lexer.readNextToken] at h
  | succ fuel ih =>
    intro lx l t h
    rw [Lexer.readNextToken] at h
    by_cases h1 : lx.current_line < lx.lines.length
    · simp only [h1, if_true] at h
      by_cases h2 : lx.current_pos ≥ lx.current_line_text.length
      · simp only [h2, if_true] at h
        by_cases h3 : lx.current_line + 1 < lx.lines.length
        · simp only [h3, if_true] at h
          exact ih _ l t h
        · simp only [h3, if_false] at h
          exact ih _ l t h
      · simp only [h2, if_false] at h
        by_cases h4 : lx.skipWhitespace.current_pos ≥ lx.skipWhitespace.current_line_text.length
        · simp only [h4, if_true] at h
          exact ih _ l t h
        · simp only [h4, if_false] at h
          by_cases h5 : lx.skipWhitespace.current_line_text.get? lx.skipWhitespace.current_pos
              = some ';'
          · simp only [h5, if_true] at h
            exact ih _ l t h
          · simp only [h5, if_false] at h
            by_cases h6 : lx.skipWhitespace.current_line_text.get? lx.skipWhitespace.current_pos
                = some ','
            · simp only [h6, if_true, Except.ok.injEq, Prod.mk.injEq] at h
              intro ht
              rw [← h.1] at ht
              cases ht
            · simp only [h6, if_false] at h
              by_cases h7 : lx.skipWhitespace.readWord.1.isEmpty = true
              · simp only [h7, if_true] at h
                exact ih _ l t h
              · simp only [h7, if_false, Except.ok.injEq, Bool.false_eq_true] at h
                have := classifyWord_directiveOk lx.skipWhitespace.readWord.2
                  lx.skipWhitespace.readWord.1
                rw [h] at this
                exact this
    · simp only [h1, if_false, Except.ok.injEq, Prod.mk.injEq] at h
      intro ht
      rw [← h.1] at ht
      cases ht

theorem getNextToken_ok (fuel : Nat) (lx l : Lexer) (t : Token) (hb : lx.bufferOk)
    (h : lx.getNextToken fuel = Except.ok (t, l)) : t.directiveOk ∧ l.bufferOk := by
  unfold Lexer.getNextToken at h
  by_cases hbuf : lx.has_buffered_token = true
  · simp only [hbuf, if_true, Except.ok.injEq, Prod.mk.injEq] at h
    obtain ⟨h1, h2⟩ := h
    subst h1
    subst h2
    exact ⟨hb hbuf, fun hc => by cases hc⟩
  · simp only [hbuf, if_false, Bool.false_eq_true] at h
    refine ⟨readNextToken_directiveOk fuel lx l t h, fun hc => ?_⟩
    rw [(readNextToken_keeps_buffer fuel lx l t h).2] at hc
    exact absurd hc hbuf

theorem peekNextToken_ok (fuel : Nat) (lx l : Lexer) (t : Token) (hb : lx.bufferOk)
    (h : lx.peekNextToken fuel = Except.ok (t, l)) : t.directiveOk ∧ l.bufferOk := by
  have hbuffered := peekNextToken_buffered fuel lx l t h
  unfold Lexer.peekNextToken at h
  by_cases hbuf : lx.has_buffered_token = true
  · simp only [hbuf, Bool.not_true, Bool.false_eq_true, if_false, Except.ok.injEq,
      Prod.mk.injEq] at h
    obtain ⟨h1, h2⟩ := h
    subst h1
    subst h2
    exact ⟨hb hbuf, hb⟩
  · simp only [hbuf, Bool.not_false, if_true] at h
    split at h
    · cases h
    · rename_i t1 l1 hr
      simp only [Except.ok.injEq, Prod.mk.injEq] at h
      have ht1 := readNextToken_directiveOk fuel lx l1 t1 hr
      rw [h.1] at ht1
      refine ⟨ht1, fun _ => ?_⟩
      rw [hbuffered.2]
      exact ht1

theorem putBackToken_ok (lx : Lexer) (t : Token) (h : t.directiveOk) :
    (lx.putBackToken t).bufferOk := fun _ => h
theorem expectComma_lexer (fuel : Nat) (token : Token) (i : Nat) (p p1 : Parser) (b : Bool)
    (hb : p.lexer.bufferOk) (h : p.expectComma fuel token i = Except.ok (p1, b)) :
    p1.lexer.bufferOk := by
  unfold Parser.expectComma at h
  split at h
  · split at h
    · split at h
      · simp at h
      · rename_i comma lx hg
        have hl := (getNextToken_ok fuel _ lx comma hb hg).2
        split at h
        · simp only [Except.ok.injEq, Prod.mk.injEq] at h
          obtain ⟨rfl, _⟩ := h
          exact hl
        · simp only [Except.ok.injEq, Prod.mk.injEq] at h
          obtain ⟨rfl, _⟩ := h
          exact hl
    · simp only [Except.ok.injEq, Prod.mk.injEq] at h
      obtain ⟨rfl, _⟩ := h
      exact hb
  · simp only [Except.ok.injEq, Prod.mk.injEq] at h
    obtain ⟨rfl, _⟩ := h
    exact hb

theorem readOperand_shape (fuel : Nat) (token : Token) (p p1 : Parser) (inst : Instruction)
    (r : Option Instruction) (hb : p.lexer.bufferOk)
    (h : p.readOperand fuel token inst = Except.ok (p1, r)) :
    p1.lexer.bufferOk ∧
      ∀ inst1, r = some inst1 → inst1.operands.length = inst.operands.length + 1 := by
  unfold Parser.readOperand at h
  split at h
  · split at h
    · simp at h
    · rename_i operand lx hg
      have hl := (getNextToken_ok fuel _ lx operand hb hg).2
      split at h
      · simp only [Except.ok.injEq, Prod.mk.injEq] at h
        obtain ⟨rfl, rfl⟩ := h
        refine ⟨hl, ?_⟩
        intro inst1 h1
        simp only [Option.some.injEq] at h1
        subst h1
        simp
      · simp only [Except.ok.injEq, Prod.mk.injEq] at h
        obtain ⟨rfl, rfl⟩ := h
        exact ⟨hl, by simp⟩
  · simp only [Except.ok.injEq, Prod.mk.injEq] at h
    obtain ⟨rfl, rfl⟩ := h
    exact ⟨hb, by simp⟩

theorem readOperands_shape (fuel : Nat) (token : Token) :
    ∀ (n i : Nat) (p : Parser) (inst : Instruction) (p1 : Parser) (r : Option Instruction),
      p.lexer.bufferOk →
      Parser.readOperands fuel token n i p inst = Except.ok (p1, r) →
      p1.lexer.bufferOk ∧
        ∀ inst1, r = some inst1 → inst1.operands.length = inst.operands.length + n := by
  intro n
  induction n with
  | zero =>
    intro i p inst p1 r hb h
    simp only [Parser.readOperands, Except.ok.injEq, Prod.mk.injEq] at h
    obtain ⟨rfl, rfl⟩ := h
    refine ⟨hb, ?_⟩
    intro inst1 h1
    simp only [Option.some.injEq] at h1
    subst h1
    rfl
  | succ n ih =>
    intro i p inst p1 r hb h
    simp only [Parser.readOperands] at h
    split at h
    · simp at h
    · rename_i q hq
      simp only [Except.ok.injEq, Prod.mk.injEq] at h
      obtain ⟨rfl, rfl⟩ := h
      exact ⟨expectComma_lexer fuel token i p _ _ hb hq, by simp⟩
    · rename_i q hq
      have hc := expectComma_lexer fuel token i p _ _ hb hq
      split at h
      · simp at h
      · rename_i q2 hq2
        simp only [Except.ok.injEq, Prod.mk.injEq] at h
        obtain ⟨rfl, rfl⟩ := h
        exact ⟨(readOperand_shape fuel token _ _ _ _ hc hq2).1, by simp⟩
      · rename_i q2 inst2 hq2
        have hr := readOperand_shape fuel token _ _ _ _ hc hq2
        have hrec := ih (i + 1) q2 inst2 p1 r hr.1 h
        refine ⟨hrec.1, ?_⟩
        intro inst1 h1
        rw [hrec.2 inst1 h1, hr.2 inst2 rfl]
        omega

theorem getInstructionType_kind (name : Str) :
    getInstructionType name = InstructionType.INVALID ∨
      isMnemonicType (getInstructionType name) = true := by
  unfold getInstructionType
  by_cases hADD : name = "ADD".toList
  · rw [if_pos hADD]
    exact Or.inr rfl
  rw [if_neg hADD]
  by_cases hSUB : name = "SUB".toList
  · rw [if_pos hSUB]
    exact Or.inr rfl
  rw [if_neg hSUB]
  by_cases hMUL : name = "MUL".toList
  · rw [if_pos hMUL]
    exact Or.inr rfl
  rw [if_neg hMUL]
  by_cases hDIV : name = "DIV".toList
  · rw [if_pos hDIV]
    exact Or.inr rfl
  rw [if_neg hDIV]
  by_cases hJMP : name = "JMP".toList
  · rw [if_pos hJMP]
    exact Or.inr rfl
  rw [if_neg hJMP]
  by_cases hJMPN : name = "JMPN".toList
  · rw [if_pos hJMPN]
    exact Or.inr rfl
  rw [if_neg hJMPN]
  by_cases hJMPP : name = "JMPP".toList
  · rw [if_pos hJMPP]
    exact Or.inr rfl
  rw [if_neg hJMPP]
  by_cases hJMPZ : name = "JMPZ".toList
  · rw [if_pos hJMPZ]
    exact Or.inr rfl
  rw [if_neg hJMPZ]
  by_cases hCOPY : name = "COPY".toList
  · rw [if_pos hCOPY]
    exact Or.inr rfl
  rw [if_neg hCOPY]
  by_cases hLOAD : name = "LOAD".toList
  · rw [if_pos hLOAD]
    exact Or.inr rfl
  rw [if_neg hLOAD]
  by_cases hSTORE : name = "STORE".toList
  · rw [if_pos hSTORE]
    exact Or.inr rfl
  rw [if_neg hSTORE]
  by_cases hINPUT : name = "INPUT".toList
  · rw [if_pos hINPUT]
    exact Or.inr rfl
  rw [if_neg hINPUT]
  by_cases hOUTPUT : name = "OUTPUT".toList
  · rw [if_pos hOUTPUT]
    exact Or.inr rfl
  rw [if_neg hOUTPUT]
  by_cases hSTOP : name = "STOP".toList
  · rw [if_pos hSTOP]
    exact Or.inr rfl
  rw [if_neg hSTOP]
  exact Or.inl rfl

theorem isMnemonicType_getInstructionType (name : Str)
    (h : getInstructionType name ≠ InstructionType.INVALID) :
    isMnemonicType (getInstructionType name) = true := by
  rcases getInstructionType_kind name with h1 | h1
  · exact absurd h1 h
  · exact h1

theorem shapeOk_push (q : Parser) (inst : Instruction) (hq : q.shapeOk) (hi : inst.wellShaped) :
    (q.pushInstruction inst).shapeOk := by
  refine ⟨hq.1, ?_⟩
  intro x hx
  simp only [Parser.pushInstruction, List.mem_append, List.mem_singleton] at hx
  rcases hx with hx | rfl
  · exact hq.2 x hx
  · exact hi

theorem shapeOk_of_sameCore {p q : Parser} (h : p.sameCore q) (hp : p.shapeOk)
    (hl : q.lexer.bufferOk) : q.shapeOk := by
  refine ⟨hl, ?_⟩
  rw [h.1]
  exact hp.2

theorem parseInstruction_shapeOk (fuel : Nat) (p p1 : Parser) (token : Token)
    (hp : p.shapeOk) (h : p.parseInstruction fuel token = Except.ok p1) : p1.shapeOk := by
  unfold Parser.parseInstruction at h
  simp only at h
  split at h
  · simp only [Except.ok.injEq] at h
    subst h
    exact hp
  · rename_i hv
    split at h
    · simp at h
    · rename_i q hq
      simp only [Except.ok.injEq] at h
      subst h
      exact shapeOk_of_sameCore (readOperands_frame fuel token _ _ _ _ _ _ hq).1 hp
        (readOperands_shape fuel token _ _ _ _ _ _ hp.1 hq).1
    · rename_i q inst2 hq
      simp only [Except.ok.injEq] at h
      subst h
      have hf := readOperands_frame fuel token _ _ _ _ _ _ hq
      have hs := readOperands_shape fuel token _ _ _ _ _ _ hp.1 hq
      obtain ⟨_, h2, h3, h4⟩ := hf.2 inst2 rfl
      have hlen := hs.2 inst2 rfl
      simp only at h2 h3 h4 hlen
      refine shapeOk_push q inst2 (shapeOk_of_sameCore hf.1 hp hs.1) ⟨?_, ?_, ?_, ?_⟩
      · rw [h3]; exact hv
      · intro _
        refine ⟨by rw [h4, h3], by rw [h2, h3], ?_⟩
        rw [hlen, h3]
        simp [Instruction.new]
      · intro hc
        have hm := isMnemonicType_getInstructionType token.value hv
        rw [← h3, hc] at hm
        cases hm
      · intro hc
        have hm := isMnemonicType_getInstructionType token.value hv
        rw [← h3, hc] at hm
        cases hm

theorem parseSection_lexer (fuel : Nat) (p p1 : Parser) (token : Token)
    (hb : p.lexer.bufferOk) (h : p.parseSection fuel token = Except.ok p1) :
    p1.lexer.bufferOk := by
  unfold Parser.parseSection at h
  split at h
  · simp at h
  · rename_i next lx hg
    have hl := (getNextToken_ok fuel _ lx next hb hg).2
    simp only at h
    split at h
    · simp only [Except.ok.injEq] at h
      subst h
      exact hl
    · split at h
      · simp only [Except.ok.injEq] at h
        subst h
        exact hl
      · split at h
        · simp only [Except.ok.injEq] at h
          subst h
          exact hl
        · simp only [Except.ok.injEq] at h
          subst h
          exact hl

theorem parseDirective_shapeOk (fuel : Nat) (p p1 : Parser) (token : Token)
    (hp : p.shapeOk) (ht : token.value = "SPACE".toList ∨ token.value = "CONST".toList)
    (h : p.parseDirective fuel token = Except.ok p1) : p1.shapeOk := by
  have hshape1 : ∀ (t : InstructionType),
      t = InstructionType.SPACE ∨ t = InstructionType.CONST →
      Instruction.wellShaped
        { Instruction.new with line_number := token.line_number, address := p.current_address,
                               type := t, size := 1 } := by
    intro t ht1
    rcases ht1 with rfl | rfl
    · exact ⟨(by intro hx; cases hx), fun hm => (by cases hm), fun hc => (by cases hc),
        fun _ => Or.inl ⟨rfl, rfl⟩⟩
    · exact ⟨(by intro hx; cases hx), fun hm => (by cases hm),
        fun _ => ⟨rfl, (by simp [Instruction.new])⟩, fun hc => (by cases hc)⟩
  unfold Parser.parseDirective at h
  simp only at h
  rcases ht with hs | hc
  · simp only [hs, if_true] at h
    by_cases hm : p.lexer.hasMoreTokens = true
    · simp only [hm, if_true] at h
      cases hpk : p.lexer.peekNextToken fuel with
      | error e => simp [hpk] at h
      | ok r =>
        obtain ⟨next, lx⟩ := r
        have hlx := (peekNextToken_ok fuel _ lx next hp.1 hpk).2
        simp only [hpk] at h
        by_cases hop : next.type = TokenType.OPERAND
        · simp only [hop, if_true] at h
          cases hg : lx.getNextToken fuel with
          | error e => simp [hg] at h
          | ok r1 =>
            obtain ⟨t1, lx1⟩ := r1
            have hlx1 := (getNextToken_ok fuel _ lx1 t1 hlx hg).2
            simp only [hg] at h
            by_cases hnum : isNumber next.value = true
            · simp only [hnum, if_true] at h
              cases hpn : parseNumber next.value with
              | error e => simp [hpn] at h
              | ok count =>
                simp only [hpn, Except.ok.injEq] at h
                subst h
                refine shapeOk_push _ _ ⟨hlx1, hp.2⟩ ⟨(by intro hx; cases hx),
                  fun hm1 => (by cases hm1), fun hc1 => (by cases hc1),
                  fun _ => Or.inr ⟨next.value, rfl, hnum, hpn⟩⟩
            · simp only [hnum, if_false, Except.ok.injEq, Bool.false_eq_true] at h
              subst h
              exact shapeOk_push _ _ ⟨hlx1, hp.2⟩ (hshape1 _ (Or.inl rfl))
        · simp only [hop, if_false, Except.ok.injEq] at h
          subst h
          exact shapeOk_push _ _ ⟨hlx, hp.2⟩ (hshape1 _ (Or.inl rfl))
    · simp only [hm, if_false, Except.ok.injEq, Bool.false_eq_true] at h
      subst h
      exact shapeOk_push _ _ hp (hshape1 _ (Or.inl rfl))
  · have hne : ¬ ("CONST".toList = "SPACE".toList) := by decide
    simp only [hc, hne, if_true, if_false] at h
    by_cases hm : p.lexer.hasMoreTokens = true
    · simp only [hm, if_true] at h
      cases hg : p.lexer.getNextToken fuel with
      | error e => simp [hg] at h
      | ok r =>
        obtain ⟨next, lx⟩ := r
        have hnl := getNextToken_ok fuel _ lx next hp.1 hg
        simp only [hg] at h
        by_cases hop : next.type = TokenType.OPERAND
        · simp only [hop, if_true, Except.ok.injEq] at h
          subst h
          exact shapeOk_push _ _ ⟨hnl.2, hp.2⟩ ⟨(by intro hx; cases hx),
            fun hm1 => (by cases hm1), fun _ => ⟨rfl, (by simp [Instruction.new])⟩,
            fun hc1 => (by cases hc1)⟩
        · simp only [hop, if_false, Except.ok.injEq] at h
          subst h
          exact shapeOk_push _ _ ⟨putBackToken_ok lx next hnl.1, hp.2⟩ (hshape1 _ (Or.inr rfl))
    · simp only [hm, if_false, Except.ok.injEq, Bool.false_eq_true] at h
      subst h
      exact shapeOk_push _ _ ⟨hp.1, hp.2⟩ (hshape1 _ (Or.inr rfl))

theorem parseLabel_lexer (p : Parser) (token : Token) :
    (p.parseLabel token).lexer = p.lexer := by
  unfold Parser.parseLabel
  simp only
  split <;> rfl

theorem dispatch_shapeOk (fuel : Nat) (p p1 : Parser) (token : Token) (hp : p.shapeOk)
    (ht : token.directiveOk) (h : p.dispatch fuel token = Except.ok p1) : p1.shapeOk := by
  unfold Parser.dispatch at h
  split at h
  · simp only [Except.ok.injEq] at h
    subst h
    refine ⟨by rw [parseLabel_lexer]; exact hp.1, ?_⟩
    rw [(parseLabel_layout p token).1]
    exact hp.2
  · exact parseInstruction_shapeOk fuel p p1 token hp h
  · rename_i hty
    exact parseDirective_shapeOk fuel p p1 token hp (ht hty) h
  · exact shapeOk_of_sameCore (parseSection_frame fuel p p1 token h) hp
      (parseSection_lexer fuel p p1 token hp.1 h)
  all_goals
    simp only [Except.ok.injEq] at h
    subst h
    exact hp

theorem parseLoop_shapeOk (fuel : Nat) :
    ∀ (n : Nat) (p p1 : Parser), p.shapeOk → Parser.parseLoop fuel n p = Except.ok p1 →
      p1.shapeOk := by
  intro n
  induction n with
  | zero =>
    intro p p1 _ h
    simp [Parser.parseLoop] at h
  | succ n ih =>
    intro p p1 hl h
    simp only [Parser.parseLoop] at h
    split at h
    · split at h
      · simp at h
      · rename_i token lx hq
        have hg := getNextToken_ok fuel _ lx token hl.1 hq
        have hl1 : Parser.shapeOk { p with lexer := lx } := ⟨hg.2, hl.2⟩
        split at h
        · simp only [Except.ok.injEq] at h
          subst h
          exact hl1
        · split at h
          · simp at h
          · rename_i p2 hd
            exact ih p2 p1 (dispatch_shapeOk fuel _ p2 token hl1 hg.1 hd) h
    · simp only [Except.ok.injEq] at h
      subst h
      exact hl

theorem parse_shapeOk (fuel : Nat) (lines : List Str) (p : Parser)
    (h : (Parser.new lines).parse fuel = Except.ok p) : p.shapeOk := by
  unfold Parser.parse at h
  split at h
  · simp at h
  · rename_i p1 h1
    simp only [Except.ok.injEq] at h
    subst h
    have h0 : (Parser.new lines).shapeOk := by
      refine ⟨fun hc => (by cases hc), ?_⟩
      intro x hx
      simp [Parser.new] at hx
    exact parseLoop_shapeOk fuel fuel _ p1 h0 h1

/-! ## Lemmas: the generator and the symbols that are defined -/

theorem sameDefined_refl (a : SymbolTable) : a.sameDefined a := fun _ => ⟨rfl, fun _ => rfl⟩

theorem sameDefined_trans {a b c : SymbolTable} (h1 : a.sameDefined b) (h2 : b.sameDefined c) :
    a.sameDefined c := by
  intro x
  obtain ⟨e1, f1⟩ := h1 x
  obtain ⟨e2, f2⟩ := h2 x
  refine ⟨e2.trans e1, fun hd => ?_⟩
  rw [f2 (e1.trans hd), f1 hd]

theorem addPendingReference_sameDefined (st : SymbolTable) (a : Int) (s : Str) (l : Int) :
    st.sameDefined (st.addPendingReference a s l) := by
  intro x
  unfold SymbolTable.addPendingReference
  cases hf : mapFind s st.symbols with
  | some v => exact ⟨rfl, fun _ => rfl⟩
  | none =>
    simp only [SymbolTable.isSymbolDefined, SymbolTable.getSymbolAddress]
    by_cases hx : x = s
    · subst hx
      rw [mapFind_mapInsert_self, hf]
      exact ⟨rfl, fun hc => by cases hc⟩
    · rw [mapFind_mapInsert_other s x _ _ hx]
      exact ⟨rfl, fun _ => rfl⟩

theorem resolveOperand_sameDefined (g : CodeGenerator) (operand : Str) :
    g.symbol_table.sameDefined (g.resolveOperand operand).2.symbol_table := by
  unfold CodeGenerator.resolveOperand CodeGenerator.resolveSymbol
  split
  · split
    · split <;> exact sameDefined_refl _
    · split <;> exact sameDefined_refl _
  · split
    · exact sameDefined_refl _
    · exact addPendingReference_sameDefined _ _ _ _

theorem resolveOperand_value (g h : CodeGenerator) (operand : Str)
    (hs : g.symbol_table.sameDefined h.symbol_table) :
    (h.resolveOperand operand).1 = (g.resolveOperand operand).1 := by
  unfold CodeGenerator.resolveOperand CodeGenerator.resolveSymbol
  split
  · split
    · split <;> rfl
    · split <;> rfl
  · obtain ⟨e, f⟩ := hs operand
    by_cases hd : g.symbol_table.isSymbolDefined operand = true
    · simp only [hd, e.trans hd, if_true]
      exact f hd
    · have hd1 : g.symbol_table.isSymbolDefined operand = false := by
        simpa using hd
      simp only [hd1, e.trans hd1, if_false, Bool.false_eq_true]

theorem resolveOperand_valueOf (g : CodeGenerator) (st : SymbolTable) (operand : Str)
    (hs : st.sameDefined g.symbol_table) : (g.resolveOperand operand).1 = valueOf st operand :=
  resolveOperand_value (CodeGenerator.new [] st) g operand hs

theorem valueOf_congr (a b : SymbolTable) (operand : Str) (hs : a.sameDefined b) :
    valueOf b operand = valueOf a operand :=
  resolveOperand_value (CodeGenerator.new [] a) (CodeGenerator.new [] b) operand hs

theorem resolveOperand_undefined (g : CodeGenerator) (operand : Str)
    (hn : looksNumeric operand = false)
    (hd : g.symbol_table.isSymbolDefined operand = false) :
    (g.resolveOperand operand).1 = -1 := by
  unfold CodeGenerator.resolveOperand CodeGenerator.resolveSymbol
  simp only [hn, hd, if_false, Bool.false_eq_true]

theorem resolveOperand_defined (g : CodeGenerator) (operand : Str)
    (hn : looksNumeric operand = false)
    (hd : g.symbol_table.isSymbolDefined operand = true) :
    (g.resolveOperand operand).1 = g.symbol_table.getSymbolAddress operand := by
  unfold CodeGenerator.resolveOperand CodeGenerator.resolveSymbol
  simp only [hn, hd, if_true, if_false, Bool.false_eq_true]

theorem wordsOf_congr (a b : SymbolTable) (inst : Instruction) (hs : a.sameDefined b) :
    wordsOf b inst = wordsOf a inst := by
  unfold wordsOf
  simp only [valueOf_congr a b _ hs]

theorem generateInstructionCode_wordsOf (g : CodeGenerator) (inst : Instruction) :
    (g.generateInstructionCode inst).object_code
        = g.object_code ++ wordsOf g.symbol_table inst ∧
      g.symbol_table.sameDefined (g.generateInstructionCode inst).symbol_table := by
  have hpush : ∀ (h : CodeGenerator) (w : Int), (h.push w).symbol_table = h.symbol_table :=
    fun _ _ => rfl
  have hv1 : ∀ (w : Int) (op : Str),
      ((g.push w).resolveOperand op).1 = valueOf g.symbol_table op :=
    fun w op => resolveOperand_valueOf (g.push w) g.symbol_table op (sameDefined_refl _)
  have hv0 : ∀ (op : Str), (g.resolveOperand op).1 = valueOf g.symbol_table op :=
    fun op => resolveOperand_valueOf g g.symbol_table op (sameDefined_refl _)
  have hv2 : ∀ (w : Int) (op0 op1 : Str),
      (((g.push w).resolveOperand op0).2.resolveOperand op1).1 = valueOf g.symbol_table op1 :=
    fun w op0 op1 => resolveOperand_valueOf _ g.symbol_table op1
      (resolveOperand_sameDefined (g.push w) op0)
  have hs1 : ∀ (w : Int) (op : Str),
      g.symbol_table.sameDefined ((g.push w).resolveOperand op).2.symbol_table :=
    fun w op => resolveOperand_sameDefined (g.push w) op
  have hs2 : ∀ (w : Int) (op0 op1 : Str),
      g.symbol_table.sameDefined
        (((g.push w).resolveOperand op0).2.resolveOperand op1).2.symbol_table :=
    fun w op0 op1 => sameDefined_trans (hs1 w op0) (resolveOperand_sameDefined _ op1)
  unfold CodeGenerator.generateInstructionCode wordsOf
  cases inst.type
  case SPACE => exact ⟨rfl, sameDefined_refl _⟩
  case CONST =>
    cases inst.operands with
    | nil => exact ⟨rfl, sameDefined_refl _⟩
    | cons op t =>
      refine ⟨?_, resolveOperand_sameDefined g op⟩
      simp only [CodeGenerator.push, resolveOperand_object_code, hv0]
  case STOP => exact ⟨rfl, sameDefined_refl _⟩
  case COPY =>
    cases inst.operands with
    | nil => exact ⟨by simp [CodeGenerator.push], sameDefined_refl _⟩
    | cons op0 t =>
      cases t with
      | nil => exact ⟨by simp [CodeGenerator.push], sameDefined_refl _⟩
      | cons op1 t1 =>
        refine ⟨?_, hs2 inst.opcode op0 op1⟩
        simp only [hv1, hv2]
        simp [CodeGenerator.push, resolveOperand_object_code]
  all_goals
    cases inst.operands with
    | nil => exact ⟨by simp [CodeGenerator.push], sameDefined_refl _⟩
    | cons op t =>
      refine ⟨?_, hs1 inst.opcode op⟩
      simp only [hv1]
      simp [CodeGenerator.push, resolveOperand_object_code]
/-! ## Statement C31: the words of an instruction -/

/-- C31: whenever `Parser::parse` completes, for every instruction of its list other than
a SPACE and every generator state, `generateInstructionCode` appends exactly: the opcode
for STOP; the opcode and the resolved first and second operand for COPY; the opcode and
the resolved operand for each other mnemonic; the resolved operand for a CONST with an
operand and 0 for a CONST without one. The resolved operand is the value that
`resolveOperand` returns in that generator state, which for an operand that does not look
like a number is the address of the symbol when it is defined and -1 when it is not. The
number of words appended is the size of the instruction. -/
theorem C31_instruction_words (fuel : Nat) (lines : List Str) (p : Parser)
    (h : (Parser.new lines).parse fuel = Except.ok p) :
    (∀ inst ∈ p.instructions, inst.type ≠ InstructionType.SPACE → ∀ g : CodeGenerator,
      ∃ words, (g.generateInstructionCode inst).object_code = g.object_code ++ words ∧
        (words.length : Int) = inst.size ∧
        (inst.type = InstructionType.STOP → words = [inst.opcode]) ∧
        (inst.type = InstructionType.COPY → ∃ a b, inst.operands = [a, b] ∧
          words = [inst.opcode, (g.resolveOperand a).1, (g.resolveOperand b).1]) ∧
        (isMnemonicType inst.type = true → inst.type ≠ InstructionType.STOP →
          inst.type ≠ InstructionType.COPY → ∃ a, inst.operands = [a] ∧
          words = [inst.opcode, (g.resolveOperand a).1]) ∧
        (inst.type = InstructionType.CONST →
          (inst.operands = [] ∧ words = [0]) ∨
          ∃ a, inst.operands = [a] ∧ words = [(g.resolveOperand a).1]) ∧
        (isMnemonicType inst.type = true ∨ inst.type = InstructionType.CONST)) ∧
    (∀ (g : CodeGenerator) (operand : Str), looksNumeric operand = false →
      (g.symbol_table.isSymbolDefined operand = false → (g.resolveOperand operand).1 = -1) ∧
      (g.symbol_table.isSymbolDefined operand = true →
        (g.resolveOperand operand).1 = g.symbol_table.getSymbolAddress operand)) := by
  refine ⟨fun inst hi hns g => ?_, fun g operand hn =>
    ⟨resolveOperand_undefined g operand hn, resolveOperand_defined g operand hn⟩⟩
  obtain ⟨hinv, hmn, hconst, _⟩ := (parse_shapeOk fuel lines p h).2 inst hi
  have hv0 : ∀ (op : Str), valueOf g.symbol_table op = (g.resolveOperand op).1 :=
    fun op => (resolveOperand_valueOf g g.symbol_table op (sameDefined_refl _)).symm
  refine ⟨wordsOf g.symbol_table inst, (generateInstructionCode_wordsOf g inst).1, ?_⟩
  unfold wordsOf
  cases ht : inst.type <;> rw [ht] at hmn hconst hinv hns
  case SPACE => exact absurd rfl hns
  case INVALID => exact absurd rfl hinv
  case CONST =>
    obtain ⟨hsz, hlen⟩ := hconst rfl
    cases hops : inst.operands with
    | nil =>
      exact ⟨(by rw [hsz]; rfl), fun hc => (by cases hc), fun hc => (by cases hc),
        fun hc => (by cases hc), fun _ => Or.inl ⟨rfl, rfl⟩, Or.inr rfl⟩
    | cons a t =>
      cases t with
      | nil =>
        exact ⟨(by rw [hsz]; rfl), fun hc => (by cases hc), fun hc => (by cases hc),
          fun hc => (by cases hc), fun _ => Or.inr ⟨a, rfl, (by simp only [hv0])⟩, Or.inr rfl⟩
      | cons b t1 =>
        rw [hops] at hlen
        simp at hlen
  case STOP =>
    obtain ⟨_, hsz, _⟩ := hmn rfl
    exact ⟨(by rw [hsz]; rfl), fun _ => rfl, fun hc => (by cases hc),
      fun _ hc => absurd rfl hc, fun hc => (by cases hc), Or.inl rfl⟩
  case COPY =>
    obtain ⟨_, hsz, hlen⟩ := hmn rfl
    obtain ⟨a, b, hab⟩ := List.length_eq_two.mp hlen
    simp only [hab, hv0]
    exact ⟨(by rw [hsz]; rfl), fun hc => (by cases hc), fun _ => ⟨a, b, rfl, rfl⟩,
      fun _ _ hc => absurd rfl hc, fun hc => (by cases hc), Or.inl rfl⟩
  all_goals
    obtain ⟨_, hsz, hlen⟩ := hmn rfl
    obtain ⟨a, ha⟩ := List.length_eq_one.mp hlen
    simp only [ha, hv0]
    exact ⟨(by rw [hsz]; rfl), fun hc => (by cases hc), fun hc => (by cases hc),
      fun _ _ _ => ⟨a, rfl, rfl⟩, fun hc => (by cases hc), Or.inl rfl⟩

/-- C31 at the end-to-end scenario: its six instructions other than the SPACE are LOAD,
ADD, STORE, STOP and two CONST, and with the parser's symbol table the words that
`generateInstructionCode` appends for them are `10 7`, `1 8`, `11 9`, `14`, `5` and `3`. -/
theorem C31_instruction_words_witness :
    (Parser.new endToEndSource).parse 64 = Except.ok endToEndParsed ∧
      ((endToEndParsed.instructions.filter
          (fun i => decide (i.type ≠ InstructionType.SPACE))).map
        (fun i => (i.type, i.size,
          ((CodeGenerator.new [] endToEndParsed.symbol_table).generateInstructionCode
            i).object_code))
        = [(InstructionType.LOAD, 2, [10, 7]), (InstructionType.ADD, 2, [1, 8]),
           (InstructionType.STORE, 2, [11, 9]), (InstructionType.STOP, 1, [14]),
           (InstructionType.CONST, 1, [5]), (InstructionType.CONST, 1, [3])]) ∧
      ∀ inst ∈ endToEndParsed.instructions, inst.type ≠ InstructionType.SPACE →
        ∃ words,
          ((CodeGenerator.new [] endToEndParsed.symbol_table).generateInstructionCode
            inst).object_code = [] ++ words ∧ (words.length : Int) = inst.size :=
  ⟨by decide, by decide, fun inst hi hns =>
    have h := (C31_instruction_words 64 endToEndSource endToEndParsed (by decide)).1 inst hi hns
      (CodeGenerator.new [] endToEndParsed.symbol_table)
    h.elim fun words hw => ⟨words, hw.1, hw.2.1⟩⟩

/-! ## Statement C36: final and intermediate code in the order of the driver -/

theorem addPendingReference_pending (st : SymbolTable) (a : Int) (s : Str) (l : Int) :
    (st.addPendingReference a s l).pending_references
      = st.pending_references ++ [⟨a, s, l⟩] := by
  unfold SymbolTable.addPendingReference
  cases mapFind s st.symbols <;> rfl

theorem pendingUndefined_of_table (g h : CodeGenerator)
    (e : h.symbol_table = g.symbol_table) (hg : g.pendingUndefined) : h.pendingUndefined := by
  unfold CodeGenerator.pendingUndefined
  rw [e]
  exact hg

theorem resolveOperand_pendingUndefined (g : CodeGenerator) (operand : Str)
    (hg : g.pendingUndefined) : (g.resolveOperand operand).2.pendingUndefined := by
  unfold CodeGenerator.resolveOperand CodeGenerator.resolveSymbol
  split
  · split
    · split <;> exact hg
    · split <;> exact hg
  · by_cases hd : g.symbol_table.isSymbolDefined operand = true
    · simp only [hd, if_true]
      exact hg
    · have hd1 : g.symbol_table.isSymbolDefined operand = false := by simpa using hd
      simp only [hd1, if_false, Bool.false_eq_true]
      intro ref hr
      have hs := addPendingReference_sameDefined g.symbol_table
        (g.object_code.length : Int) operand 0
      simp only [addPendingReference_pending, List.mem_append, List.mem_singleton] at hr
      rw [(hs ref.symbol_name).1]
      rcases hr with hr | rfl
      · exact hg ref hr
      · exact hd1

theorem generateInstructionCode_pendingUndefined (g : CodeGenerator) (inst : Instruction)
    (hg : g.pendingUndefined) : (g.generateInstructionCode inst).pendingUndefined := by
  have hp : ∀ (h : CodeGenerator) (w : Int), h.pendingUndefined → (h.push w).pendingUndefined :=
    fun h w hh => pendingUndefined_of_table h (h.push w) rfl hh
  have hr := resolveOperand_pendingUndefined
  unfold CodeGenerator.generateInstructionCode
  cases inst.type
  case SPACE => exact hg
  case CONST =>
    cases inst.operands with
    | nil => exact hp _ _ hg
    | cons op t => exact hp _ _ (hr _ _ hg)
  case STOP => exact hp _ _ hg
  case COPY =>
    cases inst.operands with
    | nil => exact hp _ _ (hp _ _ (hp _ _ hg))
    | cons op0 t =>
      cases t with
      | nil => exact hp _ _ (hp _ _ (hp _ _ hg))
      | cons op1 t1 => exact hp _ _ (hp _ _ (hr _ _ (hr _ _ (hp _ _ hg))))
  all_goals
    cases inst.operands with
    | nil => exact hp _ _ (hp _ _ hg)
    | cons op t => exact hp _ _ (hr _ _ (hp _ _ hg))

theorem generateInstructionCode_instructions (g : CodeGenerator) (inst : Instruction) :
    (g.generateInstructionCode inst).instructions = g.instructions := by
  have hr : ∀ (h : CodeGenerator) (op : Str), (h.resolveOperand op).2.instructions
      = h.instructions := by
    intro h op
    unfold CodeGenerator.resolveOperand CodeGenerator.resolveSymbol
    split
    · split
      · split <;> rfl
      · split <;> rfl
    · split <;> rfl
  unfold CodeGenerator.generateInstructionCode
  cases inst.type
  case SPACE => rfl
  case CONST =>
    cases inst.operands with
    | nil => rfl
    | cons op t => simp only [CodeGenerator.push, hr]
  case STOP => rfl
  case COPY =>
    cases inst.operands with
    | nil => rfl
    | cons op0 t =>
      cases t with
      | nil => rfl
      | cons op1 t1 => simp only [CodeGenerator.push, hr]
  all_goals
    cases inst.operands with
    | nil => rfl
    | cons op t => simp only [CodeGenerator.push, hr]

theorem foldl_generateInstructionCode (insts : List Instruction) :
    ∀ g : CodeGenerator,
      (insts.foldl CodeGenerator.generateInstructionCode g).object_code
          = g.object_code ++ (insts.map (wordsOf g.symbol_table)).flatten ∧
        g.symbol_table.sameDefined
          (insts.foldl CodeGenerator.generateInstructionCode g).symbol_table ∧
        (g.pendingUndefined →
          (insts.foldl CodeGenerator.generateInstructionCode g).pendingUndefined) ∧
        (insts.foldl CodeGenerator.generateInstructionCode g).instructions
          = g.instructions := by
  induction insts with
  | nil => intro g; exact ⟨by simp, sameDefined_refl _, fun h => h, rfl⟩
  | cons i insts ih =>
    intro g
    obtain ⟨h1, h2, h3, h4⟩ := ih (g.generateInstructionCode i)
    obtain ⟨w1, w2⟩ := generateInstructionCode_wordsOf g i
    rw [List.foldl_cons]
    refine ⟨?_, sameDefined_trans w2 h2,
      fun hg => h3 (generateInstructionCode_pendingUndefined g i hg),
      h4.trans (generateInstructionCode_instructions g i)⟩
    rw [h1, w1, List.map_cons, List.flatten_cons, List.append_assoc]
    congr 2
    apply congrArg
    apply List.map_congr_left
    intro x _
    exact wordsOf_congr _ _ x w2

theorem generateIntermediateCode_spec (g : CodeGenerator) :
    g.generateIntermediateCode.object_code
        = (g.instructions.map (wordsOf g.symbol_table)).flatten ∧
      g.symbol_table.sameDefined g.generateIntermediateCode.symbol_table ∧
      (g.pendingUndefined → g.generateIntermediateCode.pendingUndefined) ∧
      g.generateIntermediateCode.instructions = g.instructions := by
  obtain ⟨h1, h2, h3, h4⟩ :=
    foldl_generateInstructionCode g.instructions { g with object_code := [] }
  unfold CodeGenerator.generateIntermediateCode
  exact ⟨by rw [h1]; rfl, h2, fun hg => h3 (pendingUndefined_of_table g _ rfl hg), h4⟩

theorem resolvePendingReferences_nil (g : CodeGenerator) (hg : g.pendingUndefined) :
    g.symbol_table.resolvePendingReferences = [] := by
  unfold SymbolTable.resolvePendingReferences
  rw [List.filterMap_eq_nil_iff]
  intro ref hr
  simp only [hg ref hr, if_false, Bool.false_eq_true]

theorem generateFinalCode_of_pendingUndefined (g : CodeGenerator) (hg : g.pendingUndefined) :
    g.generateIntermediateCode.generateFinalCode.object_code
        = g.generateIntermediateCode.object_code ∧
      g.generateIntermediateCode.symbol_table.resolvePendingReferences = [] ∧
      g.generateIntermediateCode.generateFinalCode.pendingUndefined := by
  obtain ⟨h1, h2, h3, h4⟩ := generateIntermediateCode_spec g
  obtain ⟨k1, k2, k3, _⟩ := generateIntermediateCode_spec g.generateIntermediateCode
  have hr := resolvePendingReferences_nil _ (h3 hg)
  have hr2 := resolvePendingReferences_nil _ (k3 (h3 hg))
  refine ⟨?_, hr, ?_⟩
  · unfold CodeGenerator.generateFinalCode
    by_cases he : g.generateIntermediateCode.object_code.isEmpty = true
    · simp only [he, if_true, hr2, List.foldl_nil]
      rw [k1, h1, h4]
      apply congrArg
      apply List.map_congr_left
      intro x _
      exact wordsOf_congr _ _ x h2
    · simp only [he, if_false, hr, List.foldl_nil, Bool.false_eq_true]
  · unfold CodeGenerator.generateFinalCode
    by_cases he : g.generateIntermediateCode.object_code.isEmpty = true
    · simp only [he, if_true]
      exact pendingUndefined_of_table _ _ rfl (k3 (h3 hg))
    · simp only [he, if_false, Bool.false_eq_true]
      exact pendingUndefined_of_table _ _ rfl (h3 hg)

theorem dispatch_pending (fuel : Nat) (p p1 : Parser) (token : Token)
    (h : p.dispatch fuel token = Except.ok p1) :
    p1.symbol_table.pending_references = p.symbol_table.pending_references := by
  unfold Parser.dispatch at h
  split at h
  · simp only [Except.ok.injEq] at h
    subst h
    unfold Parser.parseLabel
    simp only
    split <;> rfl
  · rcases parseInstruction_cases fuel p p1 token h with hs | ⟨q, inst, hq, rfl, _⟩
    · rw [hs.2.2]
    · simp only [Parser.pushInstruction]
      rw [hq.2.2]
  · obtain ⟨q, inst, hq, rfl, _⟩ := parseDirective_cases fuel p p1 token h
    simp only [Parser.pushInstruction]
    rw [hq.2.2]
  · rw [(parseSection_frame fuel p p1 token h).2.2]
  all_goals
    simp only [Except.ok.injEq] at h
    subst h
    rfl

theorem parseLoop_pending (fuel : Nat) :
    ∀ (n : Nat) (p p1 : Parser), Parser.parseLoop fuel n p = Except.ok p1 →
      p1.symbol_table.pending_references = p.symbol_table.pending_references := by
  intro n
  induction n with
  | zero =>
    intro p p1 h
    simp [Parser.parseLoop] at h
  | succ n ih =>
    intro p p1 h
    simp only [Parser.parseLoop] at h
    split at h
    · split at h
      · simp at h
      · rename_i token lx hq
        split at h
        · simp only [Except.ok.injEq] at h
          subst h
          rfl
        · split at h
          · simp at h
          · rename_i p2 hd
            rw [ih p2 p1 h, dispatch_pending fuel _ p2 token hd]
    · simp only [Except.ok.injEq] at h
      subst h
      rfl

theorem parse_pending (fuel : Nat) (lines : List Str) (p : Parser)
    (h : (Parser.new lines).parse fuel = Except.ok p) :
    p.symbol_table.pending_references = [] := by
  unfold Parser.parse at h
  split at h
  · simp at h
  · rename_i p1 h1
    simp only [Except.ok.injEq] at h
    subst h
    have := parseLoop_pending fuel fuel _ p1 h1
    simp only [Parser.sweep]
    rw [this]
    rfl

/-- C36: whenever `Parser::parse` completes on a list of source lines, the generator built
on the parser's instruction list and symbol table has, after `generateIntermediateCode`,
only pending references to symbols that are not defined; `resolvePendingReferences`
returns the empty list, and the object code after `generateFinalCode` is the intermediate
object code. So it is for every result of the stages run in the order of the driver. -/
theorem C36_final_equals_intermediate (fuel : Nat) (lines : List Str) (p : Parser)
    (h : (Parser.new lines).parse fuel = Except.ok p) :
    (CodeGenerator.new p.instructions p.symbol_table).generateIntermediateCode.pendingUndefined ∧
      (CodeGenerator.new p.instructions p.symbol_table).generateIntermediateCode.symbol_table.resolvePendingReferences
        = [] ∧
      (CodeGenerator.new p.instructions
          p.symbol_table).generateIntermediateCode.generateFinalCode.object_code
        = (CodeGenerator.new p.instructions p.symbol_table).generateIntermediateCode.object_code ∧
      (∀ (source : List Str) (c : Compiled), compile fuel source = Except.ok c →
        c.generator.object_code = c.intermediate) := by
  have hall : ∀ (q : Parser) (ls : List Str), (Parser.new ls).parse fuel = Except.ok q →
      (CodeGenerator.new q.instructions q.symbol_table).pendingUndefined := by
    intro q ls hq ref hr
    have : (CodeGenerator.new q.instructions q.symbol_table).symbol_table.pending_references
        = [] := parse_pending fuel ls q hq
    rw [this] at hr
    cases hr
  have hg := hall p lines h
  obtain ⟨f1, f2, _⟩ := generateFinalCode_of_pendingUndefined _ hg
  refine ⟨(generateIntermediateCode_spec _).2.2.1 hg, f2, f1, ?_⟩
  intro source c hc
  unfold compile at hc
  split at hc
  · cases hc
  · rename_i ls _
    split at hc
    · cases hc
    · rename_i q hq
      simp only [Except.ok.injEq] at hc
      subst hc
      exact (generateFinalCode_of_pendingUndefined _ (hall q ls hq)).1

/-- C36 on the program `COPY A, B` / `A: STOP`, in which `B` is never defined: the parse
completes, the intermediate and the final object code are both `9 3 -1 14`. -/
theorem C36_final_equals_intermediate_witness :
    ((Parser.new copyUndefinedSource).parse 16).map (fun q =>
        ((CodeGenerator.new q.instructions q.symbol_table).generateIntermediateCode.object_code,
         (CodeGenerator.new q.instructions
            q.symbol_table).generateIntermediateCode.generateFinalCode.object_code))
      = Except.ok ([9, 3, -1, 14], [9, 3, -1, 14]) ∧
    (CodeGenerator.new (okOr (Parser.new []) ((Parser.new copyUndefinedSource).parse 16)).instructions
        (okOr (Parser.new []) ((Parser.new copyUndefinedSource).parse 16)).symbol_table
      ).generateIntermediateCode.symbol_table.resolvePendingReferences = [] :=
  ⟨rfl, (C36_final_equals_intermediate 16 copyUndefinedSource
    (okOr (Parser.new []) ((Parser.new copyUndefinedSource).parse 16)) rfl).2.1⟩

/-! ## Statement C33: sizes, addresses and labels -/

theorem totalSize_cons (i : Instruction) (rest : List Instruction) :
    totalSize (i :: rest) = i.size + totalSize rest := by
  simp [totalSize]

theorem totalSize_nonneg (insts : List Instruction) (h : ∀ x ∈ insts, 1 ≤ x.size) :
    0 ≤ totalSize insts := by
  induction insts with
  | nil => simp [totalSize]
  | cons i rest ih =>
    have h1 := ih (fun x hx => h x (List.mem_cons_of_mem _ hx))
    have h2 := h i (List.mem_cons_self _ _)
    rw [totalSize_cons]
    omega

theorem chainedFrom_increasing (insts : List Instruction) :
    ∀ a : Int, 0 ≤ a → a + totalSize insts ≤ INT_MAX → chainedFrom a insts →
      (∀ x ∈ insts, 1 ≤ x.size) →
      (∀ x ∈ insts, a ≤ x.address) ∧ insts.Pairwise (fun x y => x.address < y.address) := by
  induction insts with
  | nil => intro a _ _ _ _; exact ⟨fun x hx => (by cases hx), List.Pairwise.nil⟩
  | cons i rest ih =>
    intro a ha hmax hc hs
    obtain ⟨h1, h2⟩ := hc
    have hi := hs i (List.mem_cons_self _ _)
    have hrest : ∀ x ∈ rest, 1 ≤ x.size := fun x hx => hs x (List.mem_cons_of_mem _ hx)
    have hnn := totalSize_nonneg rest hrest
    rw [totalSize_cons] at hmax
    have hw : wrapInt (a + i.size) = a + i.size :=
      wrapInt_of_range _ (by simp only [INT_MIN]; omega) (by omega)
    rw [hw] at h2
    obtain ⟨k1, k2⟩ := ih (a + i.size) (by omega) (by omega) h2 hrest
    refine ⟨?_, List.Pairwise.cons ?_ k2⟩
    · intro x hx
      rcases List.mem_cons.mp hx with rfl | hx
      · rw [h1]
      · have := k1 x hx
        omega
    · intro x hx
      have := k1 x hx
      omega

theorem endAddress_take_nonneg (insts : List Instruction) :
    ∀ a : Int, 0 ≤ a → a + totalSize insts ≤ INT_MAX → (∀ x ∈ insts, 1 ≤ x.size) →
      ∀ k : Nat, 0 ≤ endAddress a (insts.take k) := by
  induction insts with
  | nil => intro a ha _ _ k; simpa [endAddress] using ha
  | cons i rest ih =>
    intro a ha hmax hs k
    cases k with
    | zero => simpa [endAddress] using ha
    | succ k =>
      have hi := hs i (List.mem_cons_self _ _)
      have hrest : ∀ x ∈ rest, 1 ≤ x.size := fun x hx => hs x (List.mem_cons_of_mem _ hx)
      have hnn := totalSize_nonneg rest hrest
      rw [totalSize_cons] at hmax
      have hw : wrapInt (a + i.size) = a + i.size :=
        wrapInt_of_range _ (by simp only [INT_MIN]; omega) (by omega)
      rw [List.take_succ_cons]
      show 0 ≤ endAddress (wrapInt (a + i.size)) (rest.take k)
      rw [hw]
      exact ih (a + i.size) (by omega) (by omega) hrest k

theorem labelsAtBoundaries_push (q : Parser) (inst : Instruction) (h : q.labelsAtBoundaries) :
    (q.pushInstruction inst).labelsAtBoundaries := by
  intro e he
  obtain ⟨k, hk⟩ := h e he
  refine ⟨min k q.instructions.length, ?_⟩
  simp only [Parser.pushInstruction]
  rw [List.take_append_of_le_length (Nat.min_le_right _ _), hk]
  by_cases hle : k ≤ q.instructions.length
  · rw [Nat.min_eq_left hle]
  · have hge : q.instructions.length ≤ k := by omega
    rw [Nat.min_eq_right hge, List.take_of_length_le hge, List.take_length]

theorem labelsAtBoundaries_of_sameCore {p q : Parser} (h : p.sameCore q)
    (hp : p.labelsAtBoundaries) : q.labelsAtBoundaries := by
  unfold Parser.labelsAtBoundaries at *
  rw [h.1, h.2.2]
  exact hp

theorem parseLabel_labelsAtBoundaries (p : Parser) (token : Token) (hl : p.layoutOk)
    (hp : p.labelsAtBoundaries) : (p.parseLabel token).labelsAtBoundaries := by
  unfold Parser.parseLabel
  simp only
  split
  · exact hp
  · intro e he
    simp only [SymbolTable.defineSymbol] at he
    rcases mem_mapInsert _ _ _ e he with h1 | h1
    · refine ⟨p.instructions.length, ?_⟩
      rw [h1, List.take_length]
      exact hl.2
    · exact hp e h1

theorem dispatch_labelsAtBoundaries (fuel : Nat) (p p1 : Parser) (token : Token)
    (hl : p.layoutOk) (hp : p.labelsAtBoundaries)
    (h : p.dispatch fuel token = Except.ok p1) : p1.labelsAtBoundaries := by
  unfold Parser.dispatch at h
  split at h
  · simp only [Except.ok.injEq] at h
    subst h
    exact parseLabel_labelsAtBoundaries p token hl hp
  · rcases parseInstruction_cases fuel p p1 token h with hs | ⟨q, inst, hq, rfl, _⟩
    · exact labelsAtBoundaries_of_sameCore hs hp
    · exact labelsAtBoundaries_push q inst (labelsAtBoundaries_of_sameCore hq hp)
  · obtain ⟨q, inst, hq, rfl, _⟩ := parseDirective_cases fuel p p1 token h
    exact labelsAtBoundaries_push q inst (labelsAtBoundaries_of_sameCore hq hp)
  · exact labelsAtBoundaries_of_sameCore (parseSection_frame fuel p p1 token h) hp
  all_goals
    simp only [Except.ok.injEq] at h
    subst h
    exact hp

theorem parseLoop_labelsAtBoundaries (fuel : Nat) :
    ∀ (n : Nat) (p p1 : Parser), p.layoutOk → p.labelsAtBoundaries →
      Parser.parseLoop fuel n p = Except.ok p1 → p1.labelsAtBoundaries := by
  intro n
  induction n with
  | zero =>
    intro p p1 _ _ h
    simp [Parser.parseLoop] at h
  | succ n ih =>
    intro p p1 hl hp h
    simp only [Parser.parseLoop] at h
    split at h
    · split at h
      · simp at h
      · rename_i token lx hq
        split at h
        · simp only [Except.ok.injEq] at h
          subst h
          exact hp
        · split at h
          · simp at h
          · rename_i p2 hd
            exact ih p2 p1 (dispatch_layoutOk fuel { p with lexer := lx } p2 token hl hd)
              (dispatch_labelsAtBoundaries fuel { p with lexer := lx } p2 token hl hp hd) h
    · simp only [Except.ok.injEq] at h
      subst h
      exact hp

theorem parse_labelsAtBoundaries (fuel : Nat) (lines : List Str) (p : Parser)
    (h : (Parser.new lines).parse fuel = Except.ok p) : p.labelsAtBoundaries := by
  unfold Parser.parse at h
  split at h
  · simp at h
  · rename_i p1 h1
    simp only [Except.ok.injEq] at h
    subst h
    have h0 : (Parser.new lines).layoutOk := by
      simp [Parser.layoutOk, Parser.new, chainedFrom, endAddress]
    have h2 : (Parser.new lines).labelsAtBoundaries := by
      intro e he
      simp [Parser.new, SymbolTable.empty] at he
    exact parseLoop_labelsAtBoundaries fuel fuel _ p1 h0 h2 h1

theorem mapFind_mem {V : Type} (k : Str) (v : V) (m : List (Str × V))
    (h : mapFind k m = some v) : (k, v) ∈ m := by
  induction m with
  | nil => simp [mapFind] at h
  | cons e rest ih =>
    obtain ⟨k1, v1⟩ := e
    simp only [mapFind] at h
    split at h
    · rename_i hk
      simp only [Option.some.injEq] at h
      rw [hk, h]
      exact List.mem_cons_self _ _
    · exact List.mem_cons_of_mem _ (ih h)

/-- C33 (counterexample): `Parser::parse` completes without error on `SPACE -3` /
`L: STOP`, on `SPACE 0` / `STOP` and on `STOP` / `SPACE 2147483647` / `L: STOP`. In the
first the SPACE has size -3, the STOP has the address -3, below the address 0 of the
SPACE, and the label `L` has the address -3; in the second the SPACE has size 0 and both
instructions have the address 0; in the third every size is at least 1, but the sizes sum
to more than `INT_MAX`: the `int` addition wraps around, the last STOP and the label `L`
get the address -2147483648, below the addresses 0 and 1 before it. -/
theorem C33_space_count_below_one :
    ((Parser.new negativeSpaceSource).parse 8).map (fun p =>
        (p.errors, p.instructions.map (fun i => (i.type, i.address, i.size)),
          p.symbol_table.getSymbolAddress "L".toList))
      = Except.ok ([], [(InstructionType.SPACE, 0, -3), (InstructionType.STOP, -3, 1)], -3) ∧
    ((Parser.new zeroSpaceSource).parse 8).map (fun p =>
        (p.errors, p.instructions.map (fun i => (i.type, i.address, i.size))))
      = Except.ok ([], [(InstructionType.SPACE, 0, 0), (InstructionType.STOP, 0, 1)]) ∧
    ((Parser.new addressWrapSource).parse 16).map (fun p =>
        (p.errors, p.instructions.map (fun i => (i.type, i.address, i.size)),
          p.symbol_table.getSymbolAddress "L".toList))
      = Except.ok ([], [(InstructionType.STOP, 0, 1), (InstructionType.SPACE, 1, 2147483647),
          (InstructionType.STOP, -2147483648, 1)], -2147483648) := by
  refine ⟨rfl, rfl, rfl⟩

/-- C33 (amended): whenever `Parser::parse` completes, every instruction of the list other
than a SPACE with an operand has size at least 1. When every instruction of the list has
size at least 1 and the sizes sum to at most `INT_MAX`, the addresses are strictly
increasing along the list, so that no two instructions share an address, every
instruction has a non-negative address, and every symbol of the parser's table has a
non-negative address. -/
theorem C33_addresses_increasing (fuel : Nat) (lines : List Str) (p : Parser)
    (h : (Parser.new lines).parse fuel = Except.ok p) :
    (∀ inst ∈ p.instructions,
      inst.type ≠ InstructionType.SPACE ∨ inst.operands = [] → 1 ≤ inst.size) ∧
    ((∀ inst ∈ p.instructions, 1 ≤ inst.size) → totalSize p.instructions ≤ INT_MAX →
      p.instructions.Pairwise (fun x y => x.address < y.address) ∧
      (∀ (i j : Nat) (x y : Instruction), p.instructions.get? i = some x →
        p.instructions.get? j = some y → i ≠ j → x.address ≠ y.address) ∧
      (∀ x ∈ p.instructions, 0 ≤ x.address) ∧
      (∀ (name : Str) (s : Symbol), mapFind name p.symbol_table.symbols = some s →
        0 ≤ s.address) ∧
      (∀ name : Str, p.symbol_table.isSymbolDefined name = true →
        0 ≤ p.symbol_table.getSymbolAddress name)) := by
  have hshape := (parse_shapeOk fuel lines p h).2
  have hlay := parse_layoutOk fuel lines p h
  have hlab := parse_labelsAtBoundaries fuel lines p h
  refine ⟨fun inst hi hc => ?_, fun hpos hmax => ?_⟩
  · obtain ⟨hinv, hmn, hconst, hspace⟩ := hshape inst hi
    cases ht : inst.type <;> rw [ht] at hinv hmn hconst hspace hc
    case INVALID => exact absurd rfl hinv
    case CONST =>
      rw [(hconst rfl).1]
    case SPACE =>
      rcases hc with hc | hc
      · exact absurd rfl hc
      · rcases hspace rfl with ⟨_, h1⟩ | ⟨op, hop, _⟩
        · rw [h1]
        · rw [hc] at hop
          cases hop
    all_goals
      rw [(hmn rfl).2.1]
      decide
  · obtain ⟨hge, hpw⟩ := chainedFrom_increasing p.instructions 0 (le_refl 0)
      (by rw [zero_add]; exact hmax) hlay.1 hpos
    have hsym : ∀ (name : Str) (s : Symbol), mapFind name p.symbol_table.symbols = some s →
        0 ≤ s.address := by
      intro name s hf
      obtain ⟨k, hk⟩ := hlab (name, s) (mapFind_mem name s _ hf)
      simp only at hk
      rw [hk]
      exact endAddress_take_nonneg p.instructions 0 (le_refl 0)
        (by rw [zero_add]; exact hmax) hpos k
    refine ⟨hpw, ?_, hge, hsym, ?_⟩
    · intro i j x y hx hy hij
      rw [List.get?_eq_getElem?] at hx hy
      rcases Nat.lt_or_gt_of_ne hij with hlt | hgt
      · have := List.pairwise_iff_getElem.mp hpw i j
          (by
            have := List.getElem?_eq_some_iff.mp hx
            exact this.1)
          (by
            have := List.getElem?_eq_some_iff.mp hy
            exact this.1) hlt
        rw [(List.getElem?_eq_some_iff.mp hx).2, (List.getElem?_eq_some_iff.mp hy).2] at this
        omega
      · have := List.pairwise_iff_getElem.mp hpw j i
          (by
            have := List.getElem?_eq_some_iff.mp hy
            exact this.1)
          (by
            have := List.getElem?_eq_some_iff.mp hx
            exact this.1) hgt
        rw [(List.getElem?_eq_some_iff.mp hx).2, (List.getElem?_eq_some_iff.mp hy).2] at this
        omega
    · intro name hd
      unfold SymbolTable.isSymbolDefined at hd
      unfold SymbolTable.getSymbolAddress
      cases hf : mapFind name p.symbol_table.symbols with
      | none => rw [hf] at hd; cases hd
      | some s => exact hsym name s hf

/-- C33 (amended) at the end-to-end scenario, on which `Parser::parse` completes, every
instruction has size at least 1 and the sizes sum to 10: the addresses 0, 2, 4, 6, 7, 8, 9
are strictly increasing and the symbols `INICIO`, `A`, `B`, `C` have the addresses 0, 7,
8, 9. -/
theorem C33_addresses_increasing_witness :
    (Parser.new endToEndSource).parse 64 = Except.ok endToEndParsed ∧
      (∀ inst ∈ endToEndParsed.instructions, 1 ≤ inst.size) ∧
      totalSize endToEndParsed.instructions ≤ INT_MAX ∧
      endToEndParsed.instructions.map (fun i => i.address) = [0, 2, 4, 6, 7, 8, 9] ∧
      endToEndParsed.instructions.Pairwise (fun x y => x.address < y.address) ∧
      (∀ name : Str, endToEndParsed.symbol_table.isSymbolDefined name = true →
        0 ≤ endToEndParsed.symbol_table.getSymbolAddress name) :=
  have hpos : ∀ inst ∈ endToEndParsed.instructions, 1 ≤ inst.size := by decide
  have hmax : totalSize endToEndParsed.instructions ≤ INT_MAX := by decide
  have h := (C33_addresses_increasing 64 endToEndSource endToEndParsed (by decide)).2 hpos hmax
  ⟨by decide, hpos, hmax, by decide, h.1, h.2.2.2.2⟩

end SbCompiler
